import Mathlib

/-! Arbitrary-precision decimal integers: a shallow embedding of `bn.c`.

The C value `bignum_t` is a sign flag `neg`, a digit buffer `d` with the
least-significant digit at index 0, the number `digits` of cells in use and the
buffer capacity `alloced`.  The embedding keeps the cells `d[0 .. digits)` as a
list (so `digits` is the length of that list) together with `neg` and
`alloced`.  A digit cell is a signed machine integer (`bignum_bit_t`, declared
in `bn.h`); it is embedded as an `Int`, wide enough for every intermediate
value the digit loops form on digits in `[0, 9]`.

Functions of the source that can abort, read outside a buffer or use a value
that was never written return `Except bn_error`.
-/

namespace Bn

/-- How a run of the C code can go wrong. -/
inductive bn_error where
  /-- An `assert` did not hold; the process aborts. -/
  | assertion
  /-- A read of a digit cell at an index outside `[0, digits)`. -/
  | out_of_bounds
  /-- A struct that was never written is read or returned. -/
  | uninitialised
  /-- A machine division by zero. -/
  | zero_divide
  /-- The recursion budget of the embedding is used up (no C counterpart). -/
  | out_of_fuel
  deriving DecidableEq, Repr

deriving instance DecidableEq for Except

/-- The radix, `#define BIGNUM_BASE 10`. -/
def BIGNUM_BASE : Int := 10

/-- The value type: `neg`, the cells `d[0 .. digits)` and `alloced`. -/
structure bignum_t where
  neg : Bool
  d : List Int
  alloced : Nat
  deriving DecidableEq, Repr

/-- The field `digits`: the number of cells in use. -/
def bignum_t.digits (b : bignum_t) : Nat := b.d.length

/-- The cell `b.d[i]`; every use below is guarded by `i < b.digits`. -/
def bignum_t.cell (b : bignum_t) (i : Nat) : Int := b.d.getD i 0

/-- A C truth value as an integer. -/
def flag (p : Bool) : Int := if p then 1 else 0

/-- Function `min` of the source. -/
def min (a b : Nat) : Nat := if a < b then a else b

/-- Function `max` of the source. -/
def max (a b : Nat) : Nat := if a > b then a else b

/-- Function `bignum_reserve`: a zero-filled buffer of `digits` cells, none in
use.  The source asserts `digits > 0`; the callers embedded as total functions
pass a positive count whenever their operands have at least one digit, and the
callers that can pass zero check it themselves. -/
def bignum_reserve (digits : Nat) : bignum_t :=
  { neg := false, d := [], alloced := digits }

/-- Negation of a 32-bit `int` (wraps at the minimum). -/
def int_negate (number : Int) : Int :=
  if number = -2147483648 then number else -number

/-- The loop `while (number) { b.d[b.digits++] = number % 10; number /= 10; }`
of `bignum_set`; the first argument bounds the number of rounds. -/
def set_loop : Nat → Int → List Int → List Int
  | 0, _, ds => ds
  | f + 1, number, ds =>
    if number ≠ 0 then
      set_loop f (Int.tdiv number BIGNUM_BASE) (ds ++ [Int.tmod number BIGNUM_BASE])
    else ds

/-- Function `bignum_set`.  When no digit was written the source sets
`digits = 1` and leaves cell 0 as it is, which is the 0 `bignum_reserve`
put there. -/
def bignum_set (b : bignum_t) (number : Int) : bignum_t :=
  let number1 := if number < 0 then int_negate number else number
  let neg1 := if number < 0 then decide (number1 ≠ 0) else b.neg
  let ds := set_loop number1.natAbs number1 b.d
  { neg := neg1, d := if ds.length = 0 then [0] else ds, alloced := b.alloced }

/-- Function `bignum_create`; `BIT_CHUNK_SIZE` is a constant of `bn.h` and is
taken as a parameter. -/
def bignum_create (BIT_CHUNK_SIZE : Nat) (number : Int) : bignum_t :=
  bignum_set (bignum_reserve BIT_CHUNK_SIZE) number

/-- Text of 7-bit characters: every code is below 128.  A C string is a
sequence of `char` bytes; a list of characters renders it exactly when it is
7-bit text, where one character is one byte and its code is the value of the
`char`, signed or not.  The statements about all strings are made for such
text. -/
def ascii (str : List Char) : Prop := ∀ ch ∈ str, ch.toNat < 128

instance (str : List Char) : Decidable (ascii str) := by
  unfold ascii; infer_instance

/-- C `strlen`: the number of characters before the first NUL (of bytes, on
7-bit text). -/
def strlen : List Char → Nat
  | [] => 0
  | c :: cs => if c.toNat = 0 then 0 else strlen cs + 1

/-- The character `str[i]` as the `int` it is promoted to, on 7-bit text; index
`strlen str` holds the terminating NUL. -/
def char_at (str : List Char) (i : Nat) : Int := ((str.getD i (Char.ofNat 0)).toNat : Int)

/-- The loop `for (i = has_sign; i < len; ++i) b.d[len - i - 1] = str[i] - '0';`
of `bignum_create_from_string`, run for the given number of rounds from `i`. -/
def from_string_loop (str : List Char) (len : Nat) : Nat → Nat → List Int → List Int
  | 0, _, ds => ds
  | n + 1, i, ds => from_string_loop str len n (i + 1) (ds.set (len - i - 1) (char_at str i - 48))

/-- Function `bignum_create_from_string`.  `bignum_reserve (len)` asserts
`len > 0`. -/
def bignum_create_from_string (str : List Char) : Except bn_error bignum_t :=
  let len := strlen str
  if len = 0 then .error .assertion
  else
    let neg := decide (char_at str 0 = 45)
    let has_sign : Nat := if neg || decide (char_at str 0 = 43) then 1 else 0
    let digits := len - has_sign
    .ok { neg := neg,
          d := from_string_loop str len (len - has_sign) has_sign (List.replicate digits 0),
          alloced := len }

/-- Function `bignum_negate`. -/
def bignum_negate (b : bignum_t) : bignum_t := { b with neg := !b.neg }

/-- The scan `for (i = a.digits - 1; i >= 0; --i)` of `bignum_compare`; the
argument is `i + 1`. -/
def compare_loop (a b : bignum_t) : Nat → Int
  | 0 => 0
  | i + 1 =>
    if a.cell i < b.cell i then -1
    else if a.cell i > b.cell i then 1
    else compare_loop a b i

/-- Function `bignum_compare`: -1, 0 or 1. -/
def bignum_compare (a b : bignum_t) : Int :=
  if a.digits < b.digits then 2 * flag b.neg - 1
  else if a.digits > b.digits then -2 * flag a.neg + 1
  else compare_loop a b a.digits

/-- The trim loop
`while (!result.d[result.digits - 1] && (result.digits - 1)) --result.digits;`
with a bound on the number of rounds. -/
def trim_loop : Nat → List Int → List Int
  | 0, ds => ds
  | f + 1, ds =>
    if ds.getD (ds.length - 1) 0 = 0 ∧ ds.length - 1 ≠ 0 then trim_loop f ds.dropLast
    else ds

/-- The trim loop, run to its end. -/
def trim (ds : List Int) : List Int := trim_loop ds.length ds

/-- The digit loop of `bignum_add`, for the given number of rounds from index
`i` with carry `bcarry`. -/
def add_loop (a b : bignum_t) : Nat → Nat → Int → List Int
  | 0, _, _ => []
  | n + 1, i, bcarry =>
    let ba := if i < a.digits then (if a.neg then -a.cell i else a.cell i) else 0
    let bb := if i < b.digits then (if b.neg then -b.cell i else b.cell i) else 0
    let sum := ba + bb + bcarry
    let bcarry1 := Int.tdiv sum BIGNUM_BASE
    let sum1 := if sum < 0 then -sum else sum
    Int.tmod sum1 BIGNUM_BASE :: add_loop a b n (i + 1) bcarry1

/-- The digit loop of `bignum_substract`. -/
def sub_loop (a b : bignum_t) : Nat → Nat → Int → List Int
  | 0, _, _ => []
  | n + 1, i, bcarry =>
    let ba := if i < a.digits then a.cell i else 0
    let bb := if i < b.digits then b.cell i else 0
    let diff := ba - bb - bcarry
    let bcarry1 : Int := if diff < 0 then 1 else 0
    let diff1 := if diff < 0 then BIGNUM_BASE + diff else diff
    diff1 :: sub_loop a b n (i + 1) bcarry1

mutual
/-- Function `bignum_add`, with a budget for the nested calls between it and
`bignum_substract`.  A call with no budget left gives back its first operand;
`add_fuel_stable` and `sub_fuel_stable` show that a budget of three is never
used up, so that value is never seen. -/
def bignum_add_fuel : Nat → bignum_t → bignum_t → bignum_t
  | 0, a, _ => a
  | f + 1, a, b =>
    if a.neg && !b.neg then bignum_substract_fuel f b (bignum_negate a)
    else if !a.neg && b.neg then bignum_substract_fuel f a (bignum_negate b)
    else
      let max_digits := max a.digits b.digits
      { neg := a.neg && b.neg,
        d := trim (add_loop a b (max_digits + 1) 0 0),
        alloced := max_digits + 1 }
/-- Function `bignum_substract`, with the same budget. -/
def bignum_substract_fuel : Nat → bignum_t → bignum_t → bignum_t
  | 0, a, _ => a
  | f + 1, a, b =>
    if a.neg && b.neg then bignum_substract_fuel f (bignum_negate b) a
    else if a.neg && !b.neg then bignum_negate (bignum_add_fuel f (bignum_negate a) b)
    else if !a.neg && b.neg then bignum_add_fuel f a (bignum_negate b)
    else if bignum_compare a b = -1 then bignum_negate (bignum_substract_fuel f b a)
    else
      let max_digits := max a.digits b.digits
      { neg := false,
        d := trim (sub_loop a b (max_digits + 1) 0 0),
        alloced := max_digits + 1 }
end

/-- Function `bignum_add`.  The calls between `bignum_add` and
`bignum_substract` never nest deeper than three. -/
def bignum_add (a b : bignum_t) : bignum_t := bignum_add_fuel 3 a b

/-- Function `bignum_substract`. -/
def bignum_substract (a b : bignum_t) : bignum_t := bignum_substract_fuel 3 a b

/-- Function `bignum_copy`. -/
def bignum_copy (b : bignum_t) (reserved_size : Nat) : bignum_t :=
  { neg := b.neg, d := b.d, alloced := max b.digits reserved_size }

/-- Function `bignum_pad`. -/
def bignum_pad (b : bignum_t) (length : Nat) (digit : Int) : bignum_t :=
  let result := bignum_copy b length
  { result with d := result.d ++ List.replicate (length - result.digits) digit }

/-- Function `bignum_split`: the low part `p1` and the high part `p2`.  With
fewer than two digits the source returns without writing either. -/
def bignum_split (b : bignum_t) : Option (bignum_t × bignum_t) :=
  if b.digits < 2 then none
  else
    some ({ neg := false, d := b.d.take (b.digits / 2), alloced := b.digits / 2 },
          { neg := false, d := b.d.drop (b.digits / 2),
            alloced := b.digits - b.digits / 2 })

/-- Function `bignum_shift`; the callers pass a count that is not negative. -/
def bignum_shift (b : bignum_t) (times : Nat) : bignum_t :=
  { neg := false, d := trim (List.replicate times 0 ++ b.d),
    alloced := b.digits + times }

/-- Function `bignum_unshift`; the callers pass a count that is not negative. -/
def bignum_unshift (BIT_CHUNK_SIZE : Nat) (b : bignum_t) (times : Nat) : bignum_t :=
  if times ≥ b.digits then bignum_create BIT_CHUNK_SIZE 0
  else { neg := false, d := trim (b.d.drop times), alloced := b.digits - times }

/-- The loop of `take_n`: `sum` after the given number of rounds. -/
def take_n_loop (b : bignum_t) : Nat → bignum_t → bignum_t
  | 0, sum => sum
  | n + 1, sum => take_n_loop b n (bignum_add sum b)

/-- Function `take_n`.  With a negative count the loop body never runs and the
source returns `result` unwritten. -/
def take_n (BIT_CHUNK_SIZE : Nat) (b : bignum_t) (times : Int) : Except bn_error bignum_t :=
  if times = 0 then .ok (bignum_create BIT_CHUNK_SIZE 0)
  else if times < 0 then .error .uninitialised
  else .ok (take_n_loop b times.toNat (bignum_create BIT_CHUNK_SIZE 0))

/-- Function `bignum_multiply` (Karatsuba) with a budget for the depth of the
recursion. -/
def bignum_multiply_fuel (BIT_CHUNK_SIZE : Nat) :
    Nat → bignum_t → bignum_t → Except bn_error bignum_t
  | 0, _, _ => .error .out_of_fuel
  | f + 1, x, y =>
    if x.digits = 1 then take_n BIT_CHUNK_SIZE y (x.cell 0)
    else if y.digits = 1 then take_n BIT_CHUNK_SIZE x (y.cell 0)
    else
      let xp := bignum_pad x (max y.digits x.digits) 0
      let yp := bignum_pad y (max x.digits y.digits) 0
      match bignum_split xp, bignum_split yp with
      | some (x2, x1), some (y2, y1) => do
        let a ← bignum_multiply_fuel BIT_CHUNK_SIZE f x1 y1
        let b ← bignum_multiply_fuel BIT_CHUNK_SIZE f x2 y2
        let s1 := bignum_add x1 x2
        let s2 := bignum_add y1 y2
        let c ← bignum_multiply_fuel BIT_CHUNK_SIZE f s1 s2
        let sab := bignum_add a b
        let k := bignum_substract c sab
        let shift_digits := min x1.digits x2.digits
        let a_rebased := bignum_shift a (shift_digits * 2)
        let k_rebased := bignum_shift k shift_digits
        let ak := bignum_add a_rebased k_rebased
        let result := bignum_add ak b
        pure { result with neg := xor x.neg y.neg }
      | _, _ => .error .uninitialised

/-- The value of a digit list, least-significant digit first. -/
def val : List Int → Int
  | [] => 0
  | x :: xs => x + 10 * val xs

/-- A budget that the Karatsuba recursion never uses up on digits in
`[0, 9]`. -/
def multiply_budget (x y : bignum_t) : Nat :=
  max x.digits y.digits + (val x.d).toNat + (val y.d).toNat + 1

/-- Function `bignum_multiply`. -/
def bignum_multiply (BIT_CHUNK_SIZE : Nat) (x y : bignum_t) : Except bn_error bignum_t :=
  bignum_multiply_fuel BIT_CHUNK_SIZE (multiply_budget x y) x y

/-- The correction loop
`while (bignum_compare(max_chunk = take_n(d, guess), n) > 0) --guess;`
of the division, with a bound on the number of rounds.  It yields the final
`guess` and `max_chunk`. -/
def chunk_loop (BIT_CHUNK_SIZE : Nat) (d n : bignum_t) :
    Nat → Int → Except bn_error (Int × bignum_t)
  | 0, _ => .error .out_of_fuel
  | f + 1, guess => do
    let max_chunk ← take_n BIT_CHUNK_SIZE d guess
    if bignum_compare max_chunk n > 0 then chunk_loop BIT_CHUNK_SIZE d n f (guess - 1)
    else pure (guess, max_chunk)

/-- The variables `n`, `d`, `q` and `d_sig` that the digit loop of the division
updates. -/
structure divide_state where
  n : bignum_t
  d : bignum_t
  q : bignum_t
  d_sig : Int
  deriving DecidableEq, Repr

/-- One round of the digit loop of `bignum_divide_with_remainder`, with every
array access checked: a read outside `d[0 .. digits)` ends the round with
`out_of_bounds`.  The source checks nothing, so this function says where the
program leaves its buffer, not what it returns after that; for the values it
returns see `divide_step_unchecked`. -/
def divide_step (BIT_CHUNK_SIZE : Nat) (s : divide_state) : Except bn_error divide_state :=
  if s.n.digits < 1 then .error .out_of_bounds
  else
    let n_sig := s.n.cell (s.n.digits - 1)
    if s.n.digits < 2 then .error .out_of_bounds
    else if s.d_sig = 0 then .error .zero_divide
    else
      let guess0 := Int.tdiv (n_sig * BIGNUM_BASE + s.n.cell (s.n.digits - 2)) s.d_sig
      let guess1 := if guess0 ≥ BIGNUM_BASE then BIGNUM_BASE - 1 else guess0
      match chunk_loop BIT_CHUNK_SIZE s.d s.n (guess1.toNat + 2) guess1 with
      | .error e => .error e
      | .ok (guess, max_chunk) =>
        let b_guess := bignum_create BIT_CHUNK_SIZE guess
        let q_rebased := bignum_shift s.q 1
        let q := bignum_add q_rebased b_guess
        let n_shrunk := bignum_substract s.n max_chunk
        let d_rebased := bignum_unshift BIT_CHUNK_SIZE s.d 1
        .ok { n := n_shrunk, d := d_rebased, q := q,
              d_sig := d_rebased.cell (d_rebased.digits - 1) }

/-- The digit loop `for (i = 0; i <= zeros; ++i)`, for the given number of
rounds, with every array access checked. -/
def divide_loop (BIT_CHUNK_SIZE : Nat) : Nat → divide_state → Except bn_error divide_state
  | 0, s => .ok s
  | k + 1, s =>
    match divide_step BIT_CHUNK_SIZE s with
    | .error e => .error e
    | .ok s1 => divide_loop BIT_CHUNK_SIZE k s1

/-- The magnitude `|b|`: the same digits with the sign flag cleared. -/
def magnitude (b : bignum_t) : bignum_t := { b with neg := false }

/-- Function `bignum_divide_with_remainder` (the build without
`USE_SLOW_DIVISION`).  `want_remainder` says whether the pointer `remainder`
is not `NULL`; the result is the quotient and what was stored through the
pointer.  `bignum_copy (x, 0)` reserves `x.digits` cells, which asserts when
there are none; `n.neg = 0` and `d.neg = 0` clear the sign flags of the
copies.  The array accesses of the digit loop are checked (`divide_step`). -/
def bignum_divide_with_remainder (BIT_CHUNK_SIZE : Nat) (x y : bignum_t)
    (want_remainder : Bool) : Except bn_error (bignum_t × Option bignum_t) :=
  if y.digits = 1 ∧ y.cell 0 = 0 then .error .assertion
  else if x.digits = 0 ∨ y.digits = 0 then .error .assertion
  else
    let n : bignum_t := magnitude (bignum_copy x 0)
    let d : bignum_t := magnitude (bignum_copy y 0)
    let cmp := bignum_compare n d
    if cmp < 0 then
      .ok (bignum_create BIT_CHUNK_SIZE 0, if want_remainder then some n else none)
    else if cmp = 0 then
      .ok ({ bignum_create BIT_CHUNK_SIZE 1 with neg := xor x.neg y.neg },
           if want_remainder then some (bignum_create BIT_CHUNK_SIZE 0) else none)
    else
      let zeros : Int := (n.digits : Int) - d.digits
      let d1 := bignum_shift d zeros.toNat
      let shift_back := decide (bignum_compare d1 n > 0)
      let d2 := if shift_back then bignum_unshift BIT_CHUNK_SIZE d1 1 else d1
      let zeros1 := if shift_back then zeros - 1 else zeros
      let s0 : divide_state :=
        { n := n, d := d2, q := bignum_create BIT_CHUNK_SIZE 0,
          d_sig := d2.cell (d2.digits - 1) }
      match divide_loop BIT_CHUNK_SIZE (zeros1 + 1).toNat s0 with
      | .error e => .error e
      | .ok s =>
        .ok ({ s.q with neg := xor x.neg y.neg },
             if want_remainder then some s.n else none)

/-- Function `bignum_divide`, with the array accesses of the digit loop
checked. -/
def bignum_divide (BIT_CHUNK_SIZE : Nat) (x y : bignum_t) : Except bn_error bignum_t :=
  (bignum_divide_with_remainder BIT_CHUNK_SIZE x y false).map Prod.fst

/-- The read `n.d[n.digits - 2]` as the program performs it.  With a one-digit
`n` the index is -1 and the read yields the cell in front of the digit buffer;
its content is not under the control of the program and is the argument
`below`. -/
def second_digit (below : Int) (n : bignum_t) : Int :=
  if n.digits < 2 then below else n.cell (n.digits - 2)

/-- One round of the digit loop of `bignum_divide_with_remainder` as the
program runs it: the read of the second digit of the remainder is not checked
and goes through `second_digit`.  The rest of the round is that of
`divide_step`. -/
def divide_step_unchecked (BIT_CHUNK_SIZE : Nat) (below : Int) (s : divide_state) :
    Except bn_error divide_state :=
  if s.n.digits < 1 then .error .out_of_bounds
  else
    let n_sig := s.n.cell (s.n.digits - 1)
    if s.d_sig = 0 then .error .zero_divide
    else
      let guess0 := Int.tdiv (n_sig * BIGNUM_BASE + second_digit below s.n) s.d_sig
      let guess1 := if guess0 ≥ BIGNUM_BASE then BIGNUM_BASE - 1 else guess0
      match chunk_loop BIT_CHUNK_SIZE s.d s.n (guess1.toNat + 2) guess1 with
      | .error e => .error e
      | .ok (guess, max_chunk) =>
        let b_guess := bignum_create BIT_CHUNK_SIZE guess
        let q_rebased := bignum_shift s.q 1
        let q := bignum_add q_rebased b_guess
        let n_shrunk := bignum_substract s.n max_chunk
        let d_rebased := bignum_unshift BIT_CHUNK_SIZE s.d 1
        .ok { n := n_shrunk, d := d_rebased, q := q,
              d_sig := d_rebased.cell (d_rebased.digits - 1) }

/-- The digit loop `for (i = 0; i <= zeros; ++i)` as the program runs it, for
the given number of rounds from round `i`; `below i` is the content of the
cell in front of the buffer of the remainder in round `i`. -/
def divide_loop_unchecked (BIT_CHUNK_SIZE : Nat) (below : Nat → Int) :
    Nat → Nat → divide_state → Except bn_error divide_state
  | 0, _, s => .ok s
  | k + 1, i, s =>
    match divide_step_unchecked BIT_CHUNK_SIZE (below i) s with
    | .error e => .error e
    | .ok s1 => divide_loop_unchecked BIT_CHUNK_SIZE below k (i + 1) s1

/-- Function `bignum_divide_with_remainder` as the program runs it: the body of
`bignum_divide_with_remainder` above with the digit loop
`divide_loop_unchecked`. -/
def bignum_divide_with_remainder_unchecked (BIT_CHUNK_SIZE : Nat) (below : Nat → Int)
    (x y : bignum_t) (want_remainder : Bool) : Except bn_error (bignum_t × Option bignum_t) :=
  if y.digits = 1 ∧ y.cell 0 = 0 then .error .assertion
  else if x.digits = 0 ∨ y.digits = 0 then .error .assertion
  else
    let n : bignum_t := magnitude (bignum_copy x 0)
    let d : bignum_t := magnitude (bignum_copy y 0)
    let cmp := bignum_compare n d
    if cmp < 0 then
      .ok (bignum_create BIT_CHUNK_SIZE 0, if want_remainder then some n else none)
    else if cmp = 0 then
      .ok ({ bignum_create BIT_CHUNK_SIZE 1 with neg := xor x.neg y.neg },
           if want_remainder then some (bignum_create BIT_CHUNK_SIZE 0) else none)
    else
      let zeros : Int := (n.digits : Int) - d.digits
      let d1 := bignum_shift d zeros.toNat
      let shift_back := decide (bignum_compare d1 n > 0)
      let d2 := if shift_back then bignum_unshift BIT_CHUNK_SIZE d1 1 else d1
      let zeros1 := if shift_back then zeros - 1 else zeros
      let s0 : divide_state :=
        { n := n, d := d2, q := bignum_create BIT_CHUNK_SIZE 0,
          d_sig := d2.cell (d2.digits - 1) }
      match divide_loop_unchecked BIT_CHUNK_SIZE below (zeros1 + 1).toNat 0 s0 with
      | .error e => .error e
      | .ok s =>
        .ok ({ s.q with neg := xor x.neg y.neg },
             if want_remainder then some s.n else none)

/-- Every digit lies in `[0, 9]`. -/
def proper (l : List Int) : Prop := ∀ x ∈ l, 0 ≤ x ∧ x ≤ 9

instance (l : List Int) : Decidable (proper l) := by
  unfold proper; infer_instance

/-- The exit condition of the trim loop: the top digit is not zero, or one
digit is left.  It fails on the empty list. -/
def trimmed (l : List Int) : Prop := l.getD (l.length - 1) 0 ≠ 0 ∨ l.length = 1

instance (l : List Int) : Decidable (trimmed l) := by
  unfold trimmed; infer_instance

/-- A well-formed value: at least one digit, digits in `[0, 9]`, no redundant
high-order zero, and zero is not negative. -/
def well_formed (b : bignum_t) : Prop :=
  1 ≤ b.digits ∧ proper b.d ∧ trimmed b.d ∧ (val b.d = 0 → b.neg = false)

instance (b : bignum_t) : Decidable (well_formed b) := by
  unfold well_formed; infer_instance

/-- The integer a value stands for. -/
def toInt (b : bignum_t) : Int := if b.neg then -val b.d else val b.d

/-- The invariant of the digit loop of the division: remainder, divisor and
quotient are non-negative and trimmed with digits in `[0, 9]`, and `d_sig` is
the top digit of the divisor. -/
def divide_inv (s : divide_state) : Prop :=
  (s.n.neg = false ∧ proper s.n.d ∧ trimmed s.n.d) ∧
  (s.d.neg = false ∧ proper s.d.d ∧ trimmed s.d.d) ∧
  (s.q.neg = false ∧ proper s.q.d ∧ trimmed s.q.d) ∧
  s.d_sig = s.d.cell (s.d.digits - 1)

/-- The character stored by `number[i] = b.d[...] + '0'`: the byte value of the
digit cell plus the code of '0'. -/
def to_char (x : Int) : Char := Char.ofNat ((x + 48) % 256).toNat

/-- The loop `for (; i < b.digits + b.neg; ++i) number[i] = b.d[b.digits - i - !b.neg] + '0';`
of `bignum_stringify`, for the given number of rounds from index `i`: the
characters written, in the order of their positions. -/
def stringify_loop (b : bignum_t) : Nat → Nat → List Char
  | 0, _ => []
  | n + 1, i =>
    to_char (b.cell (b.digits - i - (if b.neg then 0 else 1))) :: stringify_loop b n (i + 1)

/-- Function `bignum_stringify`: the characters `number[0 .. digits + neg)` in
front of the terminating NUL the function writes. -/
def bignum_stringify (b : bignum_t) : List Char :=
  (if b.neg then ['-'] else []) ++ stringify_loop b b.digits (if b.neg then 1 else 0)

/-- The invariants of the data model: a well-formed value whose length does
not exceed its capacity. -/
def invariants (b : bignum_t) : Prop := well_formed b ∧ b.digits ≤ b.alloced

instance (b : bignum_t) : Decidable (invariants b) := by
  unfold invariants; infer_instance

/-! ## Values of digit lists -/

theorem val_append (l m : List Int) : val (l ++ m) = val l + 10 ^ l.length * val m := by
  induction l with
  | nil => simp [val]
  | cons x xs ih =>
    rw [List.cons_append]
    simp only [val]
    rw [ih, List.length_cons, pow_succ]
    ring

theorem val_replicate_zero (n : Nat) : val (List.replicate n 0) = 0 := by
  induction n with
  | zero => rfl
  | succ n ih => simp [List.replicate_succ, val, ih]

theorem proper_append {l m : List Int} : proper (l ++ m) ↔ proper l ∧ proper m := by
  unfold proper
  constructor
  · intro h
    exact ⟨fun x hx => h x (List.mem_append_left _ hx), fun x hx => h x (List.mem_append_right _ hx)⟩
  · rintro ⟨h1, h2⟩ x hx
    rcases List.mem_append.1 hx with h | h
    · exact h1 x h
    · exact h2 x h

theorem proper_cons {x : Int} {l : List Int} : proper (x :: l) ↔ (0 ≤ x ∧ x ≤ 9) ∧ proper l := by
  unfold proper
  simp

theorem proper_nil : proper [] := by
  intro x hx; cases hx

theorem proper_replicate_zero (n : Nat) : proper (List.replicate n 0) := by
  intro x hx
  rw [List.eq_of_mem_replicate hx]; omega

theorem proper_take {l : List Int} (h : proper l) (k : Nat) : proper (l.take k) :=
  fun x hx => h x (List.mem_of_mem_take hx)

theorem proper_drop {l : List Int} (h : proper l) (k : Nat) : proper (l.drop k) :=
  fun x hx => h x (List.mem_of_mem_drop hx)

theorem val_nonneg {l : List Int} (h : proper l) : 0 ≤ val l := by
  induction l with
  | nil => simp [val]
  | cons x xs ih =>
    rw [proper_cons] at h
    have := ih h.2
    simp only [val]; omega

theorem val_lt_pow {l : List Int} (h : proper l) : val l < 10 ^ l.length := by
  induction l with
  | nil => simp [val]
  | cons x xs ih =>
    rw [proper_cons] at h
    have := ih h.2
    simp only [val, List.length_cons, pow_succ]; omega

theorem val_take_add_drop (l : List Int) (k : Nat) (hk : k ≤ l.length) :
    val l = val (l.take k) + 10 ^ k * val (l.drop k) := by
  have h := val_append (l.take k) (l.drop k)
  rw [List.take_append_drop, List.length_take, Nat.min_eq_left hk] at h
  exact h

theorem val_dropLast (l : List Int) (hl : l ≠ []) :
    val l = val l.dropLast + 10 ^ (l.length - 1) * l.getD (l.length - 1) 0 := by
  have hsplit := List.dropLast_append_getLast hl
  have hlast : l.getLast hl = l.getD (l.length - 1) 0 := by
    rw [List.getLast_eq_getElem, List.getD_eq_getElem]
  have h := val_append l.dropLast [l.getLast hl]
  rw [hsplit, List.length_dropLast, hlast] at h
  rw [h]
  simp [val]

theorem proper_dropLast {l : List Int} (h : proper l) : proper l.dropLast :=
  fun x hx => h x (List.mem_of_mem_dropLast hx)

/-- A list that ends in a nonzero digit is at least `10 ^ (length - 1)`. -/
theorem pow_le_val {l : List Int} (h : proper l) (hl : l ≠ [])
    (htop : l.getD (l.length - 1) 0 ≠ 0) : 10 ^ (l.length - 1) ≤ val l := by
  rw [val_dropLast l hl]
  have h1 := val_nonneg (proper_dropLast h)
  have h2 : 0 ≤ l.getD (l.length - 1) 0 := by
    rw [List.getD_eq_getElem l 0 (Nat.sub_lt (List.length_pos.2 hl) Nat.one_pos)]
    exact (h _ (List.getElem_mem _)).1
  have h3 : 1 ≤ l.getD (l.length - 1) 0 := by omega
  have h4 : (0 : Int) < 10 ^ (l.length - 1) := by positivity
  have h5 : (10 : Int) ^ (l.length - 1) * 1 ≤ 10 ^ (l.length - 1) * l.getD (l.length - 1) 0 :=
    mul_le_mul_of_nonneg_left h3 (le_of_lt h4)
  omega

theorem top_of_trimmed_cons {x y : Int} {l : List Int} (h : trimmed (x :: y :: l)) :
    (y :: l).getD ((y :: l).length - 1) 0 ≠ 0 := by
  unfold trimmed at h
  rcases h with h | h
  · simpa using h
  · simp at h

theorem trimmed_of_cons {x y : Int} {l : List Int} (h : trimmed (x :: y :: l)) :
    trimmed (y :: l) := Or.inl (top_of_trimmed_cons h)

/-- Two trimmed digit lists with the same value are the same list. -/
theorem val_injective : ∀ {l m : List Int}, proper l → proper m → trimmed l → trimmed m →
    val l = val m → l = m := by
  intro l
  induction l with
  | nil => intro m _ _ h; simp [trimmed] at h
  | cons x xs ih =>
    intro m hl hm tl tm hv
    cases m with
    | nil => simp [trimmed] at tm
    | cons y ys =>
      rw [proper_cons] at hl hm
      simp only [val] at hv
      have hx := val_nonneg hl.2
      have hy := val_nonneg hm.2
      have hxy : x = y := by omega
      have hv2 : val xs = val ys := by omega
      subst hxy
      congr 1
      cases xs with
      | nil =>
        cases ys with
        | nil => rfl
        | cons z zs =>
          exfalso
          have hp := pow_le_val hm.2 (by simp) (top_of_trimmed_cons tm)
          have hpos : (0 : Int) < 10 ^ ((z :: zs).length - 1) := by positivity
          simp only [val] at hv2
          simp only [val] at hp
          omega
      | cons w ws =>
        cases ys with
        | nil =>
          exfalso
          have hp := pow_le_val hl.2 (by simp) (top_of_trimmed_cons tl)
          have hpos : (0 : Int) < 10 ^ ((w :: ws).length - 1) := by positivity
          simp only [val] at hv2
          simp only [val] at hp
          omega
        | cons z zs => exact ih hl.2 hm.2 (trimmed_of_cons tl) (trimmed_of_cons tm) hv2

/-! ## The trim loop -/

theorem trim_loop_spec : ∀ (f : Nat) (l : List Int),
    ∃ k, l = trim_loop f l ++ List.replicate k 0 ∧ (l ≠ [] → trim_loop f l ≠ []) := by
  intro f
  induction f with
  | zero => intro l; exact ⟨0, by simp [trim_loop], fun h => h⟩
  | succ f ih =>
    intro l
    unfold trim_loop
    split
    · rename_i hc
      have hl : l ≠ [] := by
        intro h; subst h; simp at hc
      obtain ⟨k, hk, hne⟩ := ih l.dropLast
      refine ⟨k + 1, ?_, fun _ => hne ?_⟩
      · have h1 := val_dropLast l hl
        have hsplit := List.dropLast_append_getLast hl
        have hlast : l.getLast hl = 0 := by
          rw [List.getLast_eq_getElem, ← List.getD_eq_getElem l 0]; exact hc.1
        rw [hlast] at hsplit
        conv_lhs => rw [← hsplit, hk]
        rw [List.append_assoc, List.replicate_succ']
      · intro h
        have := List.length_dropLast l
        rw [h] at this
        simp only [List.length_nil] at this
        omega
    · exact ⟨0, by simp, fun h => h⟩

theorem trim_loop_trimmed : ∀ (f : Nat) (l : List Int), l.length ≤ f → l ≠ [] →
    trimmed (trim_loop f l) := by
  intro f
  induction f with
  | zero =>
    intro l h hl
    exact absurd (List.length_eq_zero.1 (Nat.le_zero.1 h)) hl
  | succ f ih =>
    intro l h hl
    unfold trim_loop
    split
    · rename_i hc
      apply ih
      · rw [List.length_dropLast]; omega
      · intro h0
        have := List.length_dropLast l
        rw [h0] at this
        simp only [List.length_nil] at this
        omega
    · rename_i hc
      unfold trimmed
      have hpos := List.length_pos.2 hl
      by_cases h0 : l.getD (l.length - 1) 0 = 0
      · right
        have : ¬ (l.length - 1 ≠ 0) := fun h1 => hc ⟨h0, h1⟩
        omega
      · exact Or.inl h0

theorem trim_spec (l : List Int) : ∃ k, l = trim l ++ List.replicate k 0 := by
  obtain ⟨k, hk, _⟩ := trim_loop_spec l.length l
  exact ⟨k, hk⟩

theorem val_trim (l : List Int) : val (trim l) = val l := by
  obtain ⟨k, hk⟩ := trim_spec l
  conv_rhs => rw [hk]
  rw [val_append, val_replicate_zero]; ring

theorem proper_trim {l : List Int} (h : proper l) : proper (trim l) := by
  obtain ⟨k, hk⟩ := trim_spec l
  rw [hk, proper_append] at h
  exact h.1

theorem length_trim_le (l : List Int) : (trim l).length ≤ l.length := by
  obtain ⟨k, hk⟩ := trim_spec l
  conv_rhs => rw [hk]
  rw [List.length_append]; omega

theorem trimmed_trim {l : List Int} (hl : l ≠ []) : trimmed (trim l) :=
  trim_loop_trimmed l.length l (le_refl _) hl

theorem trimmed_ne_nil {l : List Int} (h : trimmed l) : l ≠ [] := by
  intro h0; subst h0; simp [trimmed] at h

theorem trim_of_trimmed {l : List Int} (h : trimmed l) : trim l = l := by
  have hl := trimmed_ne_nil h
  unfold trim
  obtain ⟨n, hn⟩ : ∃ n, l.length = n + 1 :=
    ⟨l.length - 1, by have := List.length_pos.2 hl; omega⟩
  rw [hn]
  unfold trim_loop
  rw [if_neg]
  rintro ⟨h1, h2⟩
  unfold trimmed at h
  rcases h with h | h
  · exact h h1
  · omega

/-! ## The digit loops of addition and subtraction -/

theorem val_slice_succ (l : List Int) (i n : Nat) :
    val ((l.drop i).take (n + 1)) =
      (if i < l.length then l.getD i 0 else 0) + 10 * val ((l.drop (i + 1)).take n) := by
  by_cases h : i < l.length
  · rw [if_pos h, List.drop_eq_getElem_cons h, List.take_succ_cons, List.getD_eq_getElem l 0 h]
    simp only [val]
  · rw [if_neg h, List.drop_eq_nil_of_le (by omega), List.drop_eq_nil_of_le (by omega)]
    simp [val]

theorem cell_range {l : List Int} (h : proper l) (i : Nat) :
    0 ≤ (if i < l.length then l.getD i 0 else 0) ∧
      (if i < l.length then l.getD i 0 else 0) ≤ 9 := by
  by_cases hi : i < l.length
  · rw [if_pos hi, List.getD_eq_getElem l 0 hi]
    exact h _ (List.getElem_mem _)
  · rw [if_neg hi]; omega

theorem val_slice_all (l : List Int) (n : Nat) (h : l.length ≤ n) :
    val ((l.drop 0).take n) = val l := by
  rw [List.drop_zero, List.take_of_length_le h]

/-- The addition loop on two non-negative operands: the digits it writes, with
the carry that leaves the last position, make up the sum of the digits read. -/
theorem add_loop_spec (a b : bignum_t) (ha : a.neg = false) (hb : b.neg = false)
    (pa : proper a.d) (pb : proper b.d) : ∀ (n i : Nat) (c : Int), 0 ≤ c → c ≤ 1 →
    ∃ co : Int, 0 ≤ co ∧ co ≤ 1 ∧
      val (add_loop a b n i c) + 10 ^ n * co =
        val ((a.d.drop i).take n) + val ((b.d.drop i).take n) + c ∧
      proper (add_loop a b n i c) ∧ (add_loop a b n i c).length = n := by
  intro n
  induction n with
  | zero =>
    intro i c h0 h1
    exact ⟨c, h0, h1, by simp [add_loop, val], by simp [add_loop, proper_nil], by simp [add_loop]⟩
  | succ n ih =>
    intro i c h0 h1
    have ra := cell_range pa i
    have rb := cell_range pb i
    unfold add_loop
    simp only [ha, hb, bignum_t.digits, bignum_t.cell, BIGNUM_BASE, Bool.false_eq_true, if_false]
    generalize hca : (if i < a.d.length then a.d.getD i 0 else 0) = ca at ra ⊢
    generalize hcb : (if i < b.d.length then b.d.getD i 0 else 0) = cb at rb ⊢
    have hs0 : 0 ≤ ca + cb + c := by omega
    have hs1 : ¬ (ca + cb + c < 0) := by omega
    rw [if_neg hs1, Int.tdiv_eq_ediv hs0 (by norm_num), Int.tmod_eq_emod hs0 (by norm_num)]
    obtain ⟨co, hco0, hco1, hv, hp, hlen⟩ := ih (i + 1) ((ca + cb + c) / 10) (by omega) (by omega)
    refine ⟨co, hco0, hco1, ?_, ?_, ?_⟩
    · rw [val_slice_succ a.d, val_slice_succ b.d, hca, hcb]
      simp only [val, pow_succ]
      have := Int.emod_add_ediv (ca + cb + c) 10
      linarith
    · rw [proper_cons]
      exact ⟨by omega, hp⟩
    · simp [hlen]

/-- On two negative operands the addition loop writes the digits it writes on
their magnitudes; its carries are the negated carries. -/
theorem add_loop_neg (a b : bignum_t) (ha : a.neg = true) (hb : b.neg = true)
    (pa : proper a.d) (pb : proper b.d) : ∀ (n i : Nat) (c : Int), 0 ≤ c →
    add_loop a b n i (-c) = add_loop (magnitude a) (magnitude b) n i c := by
  intro n
  induction n with
  | zero => intro i c _; simp [add_loop]
  | succ n ih =>
    intro i c h0
    have ra := cell_range pa i
    have rb := cell_range pb i
    unfold add_loop
    simp only [ha, hb, magnitude, bignum_t.digits, bignum_t.cell, BIGNUM_BASE, Bool.false_eq_true,
      if_false, if_true]
    have e1 : (if i < a.d.length then -a.d.getD i 0 else 0) =
        -(if i < a.d.length then a.d.getD i 0 else 0) := by split <;> simp
    have e2 : (if i < b.d.length then -b.d.getD i 0 else 0) =
        -(if i < b.d.length then b.d.getD i 0 else 0) := by split <;> simp
    rw [e1, e2]
    generalize (if i < a.d.length then a.d.getD i 0 else 0) = ca at ra ⊢
    generalize (if i < b.d.length then b.d.getD i 0 else 0) = cb at rb ⊢
    have hs : -ca + -cb + -c = -(ca + cb + c) := by ring
    rw [hs, Int.neg_tdiv]
    have hs1 : ¬ (ca + cb + c < 0) := by omega
    have hd : (if -(ca + cb + c) < 0 then - -(ca + cb + c) else -(ca + cb + c)) =
        (if ca + cb + c < 0 then -(ca + cb + c) else ca + cb + c) := by
      rw [if_neg hs1]
      split
      · simp
      · omega
    rw [hd, ih (i + 1) ((ca + cb + c).tdiv 10)
      (by rw [Int.tdiv_eq_ediv (by omega) (by norm_num)]; omega)]
    rfl

/-- The subtraction loop: the digits it writes are the difference of the digits
read, up to the borrow that leaves the last position. -/
theorem sub_loop_spec (a b : bignum_t) (pa : proper a.d) (pb : proper b.d) :
    ∀ (n i : Nat) (c : Int), 0 ≤ c → c ≤ 1 →
    ∃ bo : Int, 0 ≤ bo ∧ bo ≤ 1 ∧
      val (sub_loop a b n i c) =
        val ((a.d.drop i).take n) - val ((b.d.drop i).take n) - c + 10 ^ n * bo ∧
      proper (sub_loop a b n i c) ∧ (sub_loop a b n i c).length = n := by
  intro n
  induction n with
  | zero =>
    intro i c h0 h1
    exact ⟨c, h0, h1, by simp [sub_loop, val], by simp [sub_loop, proper_nil], by simp [sub_loop]⟩
  | succ n ih =>
    intro i c h0 h1
    have ra := cell_range pa i
    have rb := cell_range pb i
    unfold sub_loop
    simp only [bignum_t.digits, bignum_t.cell, BIGNUM_BASE]
    generalize hca : (if i < a.d.length then a.d.getD i 0 else 0) = ca at ra ⊢
    generalize hcb : (if i < b.d.length then b.d.getD i 0 else 0) = cb at rb ⊢
    obtain ⟨bo, hbo0, hbo1, hv, hp, hlen⟩ :=
      ih (i + 1) (if ca - cb - c < 0 then 1 else 0) (by split <;> omega) (by split <;> omega)
    refine ⟨bo, hbo0, hbo1, ?_, ?_, ?_⟩
    · rw [val_slice_succ a.d, val_slice_succ b.d, hca, hcb]
      simp only [val, pow_succ]
      rw [hv]
      split <;> ring
    · rw [proper_cons]
      exact ⟨by split <;> omega, hp⟩
    · rw [List.length_cons, hlen]

/-! ## The comparison -/

theorem val_take_succ (l : List Int) (k : Nat) (hk : k < l.length) :
    val (l.take (k + 1)) = val (l.take k) + 10 ^ k * l.getD k 0 := by
  rw [List.take_succ, val_append, List.length_take, Nat.min_eq_left (le_of_lt hk),
    List.getElem?_eq_getElem hk, List.getD_eq_getElem l 0 hk]
  simp [val]

/-- The digit scan of `bignum_compare` over the low `k` digits gives the sign of
the difference of their values. -/
theorem compare_loop_spec (a b : bignum_t) (pa : proper a.d) (pb : proper b.d) :
    ∀ k : Nat, k ≤ a.d.length → k ≤ b.d.length →
      compare_loop a b k = Int.sign (val (a.d.take k) - val (b.d.take k)) := by
  intro k
  induction k with
  | zero => intro _ _; simp [compare_loop, val]
  | succ k ih =>
    intro hka hkb
    have ha1 := val_nonneg (proper_take pa k)
    have hb1 := val_nonneg (proper_take pb k)
    have ha2 := val_lt_pow (proper_take pa k)
    have hb2 := val_lt_pow (proper_take pb k)
    rw [List.length_take, Nat.min_eq_left (by omega)] at ha2 hb2
    unfold compare_loop
    simp only [bignum_t.cell]
    rw [val_take_succ a.d k (by omega), val_take_succ b.d k (by omega)]
    have hp : (0 : Int) < 10 ^ k := by positivity
    by_cases h1 : a.d.getD k 0 < b.d.getD k 0
    · rw [if_pos h1]
      symm
      rw [Int.sign_eq_neg_one_iff_neg]
      have : (10 : Int) ^ k * (a.d.getD k 0 + 1) ≤ 10 ^ k * b.d.getD k 0 :=
        mul_le_mul_of_nonneg_left (by omega) (le_of_lt hp)
      nlinarith
    · rw [if_neg h1]
      by_cases h2 : a.d.getD k 0 > b.d.getD k 0
      · rw [if_pos h2]
        symm
        rw [Int.sign_eq_one_iff_pos]
        have : (10 : Int) ^ k * (b.d.getD k 0 + 1) ≤ 10 ^ k * a.d.getD k 0 :=
          mul_le_mul_of_nonneg_left (by omega) (le_of_lt hp)
        nlinarith
      · rw [if_neg h2, ih (by omega) (by omega)]
        have : a.d.getD k 0 = b.d.getD k 0 := by omega
        rw [this]
        congr 1
        ring

/-- On operands of the same length `bignum_compare` gives the sign of the
difference of the magnitudes. -/
theorem compare_same_length (a b : bignum_t) (pa : proper a.d) (pb : proper b.d)
    (h : a.digits = b.digits) : bignum_compare a b = Int.sign (val a.d - val b.d) := by
  unfold bignum_compare
  rw [if_neg (by omega), if_neg (by omega)]
  have := compare_loop_spec a b pa pb a.digits (le_refl _) (by unfold bignum_t.digits at h; unfold bignum_t.digits; omega)
  rw [this]
  unfold bignum_t.digits at h ⊢
  rw [List.take_length]
  conv_lhs => rw [h, List.take_length]

/-- A trimmed list is shorter than another exactly as its value demands: fewer
digits means a smaller value. -/
theorem val_lt_of_length_lt {l m : List Int} (pl : proper l) (pm : proper m) (tm : trimmed m)
    (hl : l ≠ []) (h : l.length < m.length) : val l < val m := by
  have h1 := val_lt_pow pl
  have hm : m.getD (m.length - 1) 0 ≠ 0 := by
    rcases tm with h2 | h2
    · exact h2
    · have := List.length_pos.2 hl
      omega
  have h2 := pow_le_val pm (trimmed_ne_nil tm) hm
  have h3 : (10 : Int) ^ l.length ≤ 10 ^ (m.length - 1) :=
    pow_le_pow_right₀ (by norm_num) (by omega)
  linarith

/-- On non-negative trimmed operands `bignum_compare` is the sign of the
difference of the values. -/
theorem compare_spec (a b : bignum_t) (ha : a.neg = false) (hb : b.neg = false)
    (pa : proper a.d) (pb : proper b.d) (ta : trimmed a.d) (tb : trimmed b.d) :
    bignum_compare a b = Int.sign (val a.d - val b.d) := by
  by_cases h1 : a.digits < b.digits
  · unfold bignum_compare
    rw [if_pos h1, hb]
    have := val_lt_of_length_lt pa pb tb (trimmed_ne_nil ta) h1
    symm
    simp only [flag, Bool.false_eq_true, if_false]
    have e : (2 : Int) * 0 - 1 = -1 := by norm_num
    rw [e, Int.sign_eq_neg_one_iff_neg]; omega
  · by_cases h2 : a.digits > b.digits
    · unfold bignum_compare
      rw [if_neg h1, if_pos h2, ha]
      have := val_lt_of_length_lt pb pa ta (trimmed_ne_nil tb) h2
      symm
      simp only [flag, Bool.false_eq_true, if_false]
      have e : (-2 : Int) * 0 + 1 = 1 := by norm_num
      rw [e, Int.sign_eq_one_iff_pos]; omega
    · exact compare_same_length a b pa pb (by omega)

/-! ## Addition and subtraction -/

theorem le_max_l (a b : Nat) : a ≤ max a b := by unfold max; split <;> omega

theorem le_max_r (a b : Nat) : b ≤ max a b := by unfold max; split <;> omega

theorem max_cases (a b : Nat) : max a b = a ∨ max a b = b := by unfold max; split <;> simp

theorem max_comm' (a b : Nat) : max a b = max b a := by unfold max; split <;> split <;> omega

theorem add_fuel_same_sign (f : Nat) (a b : bignum_t) (h : a.neg = b.neg) :
    bignum_add_fuel (f + 1) a b =
      { neg := a.neg && b.neg, d := trim (add_loop a b (max a.digits b.digits + 1) 0 0),
        alloced := max a.digits b.digits + 1 } := by
  rw [bignum_add_fuel]
  cases hb : b.neg <;> simp [h, hb]

/-- Digit-wise addition of two non-negative operands, trimmed or not. -/
theorem add_nonneg (f : Nat) (a b : bignum_t) (ha : a.neg = false) (hb : b.neg = false)
    (pa : proper a.d) (pb : proper b.d) :
    (bignum_add_fuel (f + 1) a b).neg = false ∧ proper (bignum_add_fuel (f + 1) a b).d ∧
      trimmed (bignum_add_fuel (f + 1) a b).d ∧
      val (bignum_add_fuel (f + 1) a b).d = val a.d + val b.d ∧
      (bignum_add_fuel (f + 1) a b).d.length ≤ max a.digits b.digits + 1 := by
  rw [add_fuel_same_sign f a b (by rw [ha, hb])]
  simp only [ha, hb, Bool.and_self]
  obtain ⟨co, hco0, hco1, hv, hp, hlen⟩ :=
    add_loop_spec a b ha hb pa pb (max a.digits b.digits + 1) 0 0 (le_refl _) (by norm_num)
  have hla : a.d.length ≤ max a.digits b.digits := le_max_l _ _
  have hlb : b.d.length ≤ max a.digits b.digits := le_max_r _ _
  rw [val_slice_all a.d _ (by omega), val_slice_all b.d _ (by omega)] at hv
  have hne : add_loop a b (max a.digits b.digits + 1) 0 0 ≠ [] := by
    intro h0; rw [h0] at hlen; simp at hlen
  have h1 := val_lt_pow pa
  have h2 := val_lt_pow pb
  have h3 : (10 : Int) ^ a.d.length ≤ 10 ^ max a.digits b.digits :=
    pow_le_pow_right₀ (by norm_num) hla
  have h4 : (10 : Int) ^ b.d.length ≤ 10 ^ max a.digits b.digits :=
    pow_le_pow_right₀ (by norm_num) hlb
  have h5 := val_nonneg hp
  have hp10 : (0 : Int) < 10 ^ max a.digits b.digits := by positivity
  have hco : co = 0 := by
    by_contra hc
    have hc1 : co = 1 := by omega
    rw [hc1, pow_succ] at hv
    linarith
  rw [hco] at hv
  refine ⟨trivial, proper_trim hp, trimmed_trim hne, ?_, ?_⟩
  · rw [val_trim]; linarith
  · have := length_trim_le (add_loop a b (max a.digits b.digits + 1) 0 0)
    omega

/-- Addition of two negative operands has the digits of the sum of the
magnitudes and the negative sign. -/
theorem add_both_neg (f : Nat) (a b : bignum_t) (ha : a.neg = true) (hb : b.neg = true)
    (pa : proper a.d) (pb : proper b.d) :
    (bignum_add_fuel (f + 1) a b).neg = true ∧
      (bignum_add_fuel (f + 1) a b).d = (bignum_add_fuel (f + 1) (magnitude a) (magnitude b)).d := by
  rw [add_fuel_same_sign f a b (by rw [ha, hb]),
    add_fuel_same_sign f (magnitude a) (magnitude b) (by simp [magnitude])]
  have h := add_loop_neg a b ha hb pa pb (max a.digits b.digits + 1) 0 0 (le_refl _)
  rw [neg_zero] at h
  simp only [ha, hb, Bool.and_self, true_and]
  rw [h]
  rfl

theorem sub_fuel_base (f : Nat) (a b : bignum_t) (ha : a.neg = false) (hb : b.neg = false)
    (hc : bignum_compare a b ≠ -1) :
    bignum_substract_fuel (f + 1) a b =
      { neg := false, d := trim (sub_loop a b (max a.digits b.digits + 1) 0 0),
        alloced := max a.digits b.digits + 1 } := by
  rw [bignum_substract_fuel]
  simp [ha, hb, hc]

/-- Borrow subtraction of a smaller non-negative operand from a larger one. -/
theorem sub_nonneg_ge (f : Nat) (a b : bignum_t) (ha : a.neg = false) (hb : b.neg = false)
    (pa : proper a.d) (pb : proper b.d) (hc : bignum_compare a b ≠ -1)
    (hle : val b.d ≤ val a.d) :
    (bignum_substract_fuel (f + 1) a b).neg = false ∧
      proper (bignum_substract_fuel (f + 1) a b).d ∧
      trimmed (bignum_substract_fuel (f + 1) a b).d ∧
      val (bignum_substract_fuel (f + 1) a b).d = val a.d - val b.d := by
  rw [sub_fuel_base f a b ha hb hc]
  obtain ⟨bo, hbo0, hbo1, hv, hp, hlen⟩ :=
    sub_loop_spec a b pa pb (max a.digits b.digits + 1) 0 0 (le_refl _) (by norm_num)
  have hla : a.d.length ≤ max a.digits b.digits := le_max_l _ _
  have hlb : b.d.length ≤ max a.digits b.digits := le_max_r _ _
  rw [val_slice_all a.d _ (by omega), val_slice_all b.d _ (by omega)] at hv
  have hne : sub_loop a b (max a.digits b.digits + 1) 0 0 ≠ [] := by
    intro h0; rw [h0] at hlen; simp at hlen
  have h1 := val_lt_pow pa
  have h2 := val_nonneg pb
  have h3 : (10 : Int) ^ a.d.length ≤ 10 ^ max a.digits b.digits :=
    pow_le_pow_right₀ (by norm_num) hla
  have h5 := val_lt_pow hp
  rw [hlen] at h5
  have hp10 : (0 : Int) < 10 ^ max a.digits b.digits := by positivity
  have hbo : bo = 0 := by
    by_contra hc
    have hc1 : bo = 1 := by omega
    rw [hc1] at hv
    rw [pow_succ] at h5 hv
    linarith
  rw [hbo] at hv
  refine ⟨rfl, proper_trim hp, trimmed_trim hne, ?_⟩
  rw [val_trim]; linarith

/-- Subtraction of two non-negative trimmed operands: the result stands for
the difference and is well formed. -/
theorem sub_nonneg (f : Nat) (a b : bignum_t) (ha : a.neg = false) (hb : b.neg = false)
    (pa : proper a.d) (pb : proper b.d) (ta : trimmed a.d) (tb : trimmed b.d) :
    toInt (bignum_substract_fuel (f + 2) a b) = val a.d - val b.d ∧
      well_formed (bignum_substract_fuel (f + 2) a b) := by
  have hcmp := compare_spec a b ha hb pa pb ta tb
  by_cases hlt : val a.d < val b.d
  · have hc : bignum_compare a b = -1 := by
      rw [hcmp, Int.sign_eq_neg_one_iff_neg]; omega
    have hc2 : bignum_compare b a ≠ -1 := by
      rw [compare_spec b a hb ha pb pa tb ta]
      intro h
      rw [Int.sign_eq_neg_one_iff_neg] at h
      omega
    have e : bignum_substract_fuel (f + 2) a b =
        bignum_negate (bignum_substract_fuel (f + 1) b a) := by
      rw [bignum_substract_fuel]
      simp [ha, hb, hc]
    obtain ⟨h1, h2, h3, h4⟩ := sub_nonneg_ge f b a hb ha pb pa hc2 (by omega)
    rw [e]
    constructor
    · simp only [toInt, bignum_negate, h1, Bool.not_false, if_true]
      rw [h4]; ring
    · refine ⟨?_, h2, h3, ?_⟩
      · have := List.length_pos.2 (trimmed_ne_nil h3)
        simpa [bignum_t.digits, bignum_negate] using this
      · intro h0
        simp only [bignum_negate] at h0
        omega
  · have hc : bignum_compare a b ≠ -1 := by
      rw [hcmp]
      intro h
      rw [Int.sign_eq_neg_one_iff_neg] at h
      omega
    obtain ⟨h1, h2, h3, h4⟩ := sub_nonneg_ge (f + 1) a b ha hb pa pb hc (by omega)
    constructor
    · simp only [toInt, h1, Bool.false_eq_true, if_false]
      exact h4
    · refine ⟨?_, h2, h3, fun _ => h1⟩
      have := List.length_pos.2 (trimmed_ne_nil h3)
      simpa [bignum_t.digits] using this

theorem wf_digits_pos {l : List Int} (h : trimmed l) : 1 ≤ l.length :=
  List.length_pos.2 (trimmed_ne_nil h)

theorem negate_of_neg {a : bignum_t} (h : a.neg = true) : bignum_negate a = magnitude a := by
  simp [bignum_negate, magnitude, h]

theorem magnitude_of_nonneg {a : bignum_t} (h : a.neg = false) : magnitude a = a := by
  cases a; simp_all [magnitude]

/-- Addition of well-formed operands of any signs stands for the sum and is
well formed. -/
theorem add_correct (f : Nat) (a b : bignum_t) (ha : well_formed a) (hb : well_formed b) :
    toInt (bignum_add_fuel (f + 3) a b) = toInt a + toInt b ∧
      well_formed (bignum_add_fuel (f + 3) a b) := by
  obtain ⟨_, pa, ta, za⟩ := ha
  obtain ⟨_, pb, tb, zb⟩ := hb
  have va := val_nonneg pa
  have vb := val_nonneg pb
  cases hna : a.neg <;> cases hnb : b.neg
  · obtain ⟨h1, h2, h3, h4, _⟩ := add_nonneg (f + 2) a b hna hnb pa pb
    refine ⟨?_, wf_digits_pos h3, h2, h3, fun _ => h1⟩
    simp only [toInt, h1, hna, hnb, Bool.false_eq_true, if_false]
    exact h4
  · have e : bignum_add_fuel (f + 3) a b = bignum_substract_fuel (f + 2) a (bignum_negate b) := by
      rw [bignum_add_fuel]; simp [hna, hnb]
    rw [e, negate_of_neg hnb]
    obtain ⟨h1, h2⟩ := sub_nonneg f a (magnitude b) hna rfl pa pb ta tb
    refine ⟨?_, h2⟩
    rw [h1]
    simp [toInt, hna, hnb, magnitude]
    ring
  · have e : bignum_add_fuel (f + 3) a b = bignum_substract_fuel (f + 2) b (bignum_negate a) := by
      rw [bignum_add_fuel]; simp [hna, hnb]
    rw [e, negate_of_neg hna]
    obtain ⟨h1, h2⟩ := sub_nonneg f b (magnitude a) hnb rfl pb pa tb ta
    refine ⟨?_, h2⟩
    rw [h1]
    simp [toInt, hna, hnb, magnitude]
    ring
  · obtain ⟨h1, h2⟩ := add_both_neg (f + 2) a b hna hnb pa pb
    obtain ⟨_, h4, h5, h6, _⟩ := add_nonneg (f + 2) (magnitude a) (magnitude b) rfl rfl pa pb
    rw [← h2] at h4 h5 h6
    have za1 : val a.d ≠ 0 := fun h => by have := za h; rw [hna] at this; cases this
    refine ⟨?_, wf_digits_pos h5, h4, h5, ?_⟩
    · simp only [toInt, h1, hna, hnb, if_true]
      rw [h6]
      simp only [magnitude]
      ring
    · intro h0
      rw [h6] at h0
      simp only [magnitude] at h0
      omega

/-- The comparison of two non-negative operands is antisymmetric in its answer -1. -/
theorem compare_loop_antisymm (a b : bignum_t) : ∀ k : Nat,
    compare_loop a b k = -1 → compare_loop b a k ≠ -1 := by
  intro k
  induction k with
  | zero => intro h; simp [compare_loop] at h
  | succ k ih =>
    unfold compare_loop
    intro h
    by_cases h1 : a.cell k < b.cell k
    · rw [if_neg (by omega), if_pos h1]; decide
    · rw [if_neg h1] at h
      by_cases h2 : a.cell k > b.cell k
      · rw [if_pos h2] at h; cases h
      · rw [if_neg h2] at h
        rw [if_neg (by omega), if_neg (by omega)]
        exact ih h

theorem compare_antisymm (a b : bignum_t) (ha : a.neg = false) (hb : b.neg = false)
    (h : bignum_compare a b = -1) : bignum_compare b a ≠ -1 := by
  unfold bignum_compare at h ⊢
  by_cases h1 : a.digits < b.digits
  · rw [if_neg (by omega), if_pos h1, hb]; simp [flag]
  · rw [if_neg h1] at h
    by_cases h2 : a.digits > b.digits
    · rw [if_pos h2, ha] at h; simp [flag] at h
    · rw [if_neg h2] at h
      rw [if_neg (by omega), if_neg (by omega)]
      have e : b.digits = a.digits := by omega
      rw [e]
      exact compare_loop_antisymm a b _ h

/-- Subtraction of non-negative operands needs a budget of two. -/
theorem sub_fuel_stable_nonneg (f : Nat) (a b : bignum_t) (ha : a.neg = false)
    (hb : b.neg = false) :
    bignum_substract_fuel (f + 2) a b = bignum_substract_fuel 2 a b := by
  by_cases hc : bignum_compare a b = -1
  · have hc2 := compare_antisymm a b ha hb hc
    rw [bignum_substract_fuel, bignum_substract_fuel.eq_def 2]
    simp [ha, hb, hc, sub_fuel_base f b a hb ha hc2, sub_fuel_base 0 b a hb ha hc2]
  · rw [sub_fuel_base (f + 1) a b ha hb hc, sub_fuel_base 1 a b ha hb hc]

/-- The calls between `bignum_add` and `bignum_substract` never nest deeper
than three: a larger budget gives the result of budget three. -/
theorem add_fuel_stable (f : Nat) (a b : bignum_t) :
    bignum_add_fuel (f + 3) a b = bignum_add_fuel 3 a b := by
  cases hna : a.neg <;> cases hnb : b.neg
  · rw [add_fuel_same_sign _ a b (by rw [hna, hnb]), add_fuel_same_sign 2 a b (by rw [hna, hnb])]
  · rw [bignum_add_fuel, bignum_add_fuel.eq_def 3]
    simp only [hna, hnb, Bool.false_eq_true, Bool.and_false, Bool.and_self, Bool.not_false,
      Bool.not_true, Bool.and_true, if_false, if_true]
    exact sub_fuel_stable_nonneg f a _ hna (by simp [bignum_negate, hnb])
  · rw [bignum_add_fuel, bignum_add_fuel.eq_def 3]
    simp only [hna, hnb, Bool.false_eq_true, Bool.and_false, Bool.and_self, Bool.not_false,
      Bool.not_true, Bool.and_true, if_false, if_true]
    exact sub_fuel_stable_nonneg f b _ hnb (by simp [bignum_negate, hna])
  · rw [add_fuel_same_sign _ a b (by rw [hna, hnb]), add_fuel_same_sign 2 a b (by rw [hna, hnb])]

theorem sub_fuel_stable (f : Nat) (a b : bignum_t) :
    bignum_substract_fuel (f + 3) a b = bignum_substract_fuel 3 a b := by
  cases hna : a.neg <;> cases hnb : b.neg
  · exact (sub_fuel_stable_nonneg (f + 1) a b hna hnb).trans
      (sub_fuel_stable_nonneg 1 a b hna hnb).symm
  · rw [bignum_substract_fuel, bignum_substract_fuel.eq_def 3]
    simp only [hna, hnb, Bool.false_eq_true, Bool.and_false, Bool.and_self, Bool.not_false,
      Bool.not_true, Bool.and_true, if_false, if_true]
    rw [add_fuel_same_sign _ a _ (by simp [bignum_negate, hna, hnb]),
      add_fuel_same_sign 1 a _ (by simp [bignum_negate, hna, hnb])]
  · rw [bignum_substract_fuel, bignum_substract_fuel.eq_def 3]
    simp only [hna, hnb, Bool.false_eq_true, Bool.and_false, Bool.and_self, Bool.not_false,
      Bool.not_true, Bool.and_true, if_false, if_true]
    rw [add_fuel_same_sign _ _ b (by simp [bignum_negate, hna, hnb]),
      add_fuel_same_sign 1 _ b (by simp [bignum_negate, hna, hnb])]
  · rw [bignum_substract_fuel, bignum_substract_fuel.eq_def 3]
    simp only [hna, hnb, Bool.and_self, if_true]
    rw [bignum_substract_fuel, bignum_substract_fuel.eq_def 2]
    simp only [hna, hnb, bignum_negate, Bool.false_eq_true, Bool.and_false, Bool.and_self,
      Bool.not_false, Bool.not_true, Bool.and_true, Bool.true_and, if_false, if_true]
    rw [add_fuel_same_sign _ _ _ (by simp), add_fuel_same_sign 0 _ _ (by simp)]

/-! ## Construction, scaling and partition helpers -/

theorem create_zero (c : Nat) : bignum_create c 0 = { neg := false, d := [0], alloced := c } := by
  rfl

theorem create_digit (c : Nat) (g : Int) (h0 : 0 ≤ g) (h9 : g ≤ 9) :
    bignum_create c g = { neg := false, d := [g], alloced := c } := by
  interval_cases g <;> rfl

theorem trimmed_singleton (x : Int) : trimmed [x] := Or.inr rfl

theorem proper_singleton {x : Int} (h0 : 0 ≤ x) (h9 : x ≤ 9) : proper [x] := by
  rw [proper_cons]; exact ⟨⟨h0, h9⟩, proper_nil⟩

/-- Shifting multiplies the magnitude by a power of ten; the result is trimmed
and not negative. -/
theorem shift_spec (b : bignum_t) (t : Nat) (pb : proper b.d) (hb : b.d ≠ []) :
    (bignum_shift b t).neg = false ∧ proper (bignum_shift b t).d ∧
      trimmed (bignum_shift b t).d ∧ val (bignum_shift b t).d = 10 ^ t * val b.d := by
  unfold bignum_shift
  refine ⟨rfl, proper_trim (proper_append.2 ⟨proper_replicate_zero t, pb⟩),
    trimmed_trim (by simp [hb]), ?_⟩
  simp only
  rw [val_trim, val_append, val_replicate_zero, List.length_replicate]
  ring

/-- Unshifting drops low digits; the result is trimmed and not negative. -/
theorem unshift_spec (c : Nat) (b : bignum_t) (t : Nat) (pb : proper b.d) :
    (bignum_unshift c b t).neg = false ∧ proper (bignum_unshift c b t).d ∧
      trimmed (bignum_unshift c b t).d ∧
      val (bignum_unshift c b t).d = val (b.d.drop t) := by
  unfold bignum_unshift
  by_cases h : t ≥ b.digits
  · rw [if_pos h, create_zero]
    refine ⟨rfl, proper_singleton (le_refl _) (by norm_num), trimmed_singleton 0, ?_⟩
    rw [List.drop_eq_nil_of_le h]
    simp [val]
  · rw [if_neg h]
    refine ⟨rfl, proper_trim (proper_drop pb t), trimmed_trim ?_, ?_⟩
    · intro h0
      have := List.drop_eq_nil_iff.1 h0
      unfold bignum_t.digits at h
      omega
    · simp only
      rw [val_trim]

theorem unshift_one (c : Nat) (b : bignum_t) (pb : proper b.d) :
    val (bignum_unshift c b 1).d = val b.d / 10 := by
  rw [(unshift_spec c b 1 pb).2.2.2]
  cases hd : b.d with
  | nil => simp [val]
  | cons x xs =>
    rw [hd] at pb
    have := (proper_cons.1 pb).1
    simp only [List.drop_succ_cons, List.drop_zero, val]
    omega

/-- Padding with zeros and splitting: the low part has half the digits
(rounded down), the high part the rest, and they recompose the value. -/
theorem split_pad (x : bignum_t) (L : Nat) (hL : x.digits ≤ L) (h2 : 2 ≤ L) :
    ∃ lo hi, bignum_split (bignum_pad x L 0) = some (lo, hi) ∧ lo.neg = false ∧
      hi.neg = false ∧ lo.d.length = L / 2 ∧ hi.d.length = L - L / 2 ∧
      (proper x.d → proper lo.d ∧ proper hi.d) ∧
      val x.d = val lo.d + 10 ^ (L / 2) * val hi.d := by
  have hlen : (bignum_pad x L 0).d.length = L := by
    simp only [bignum_pad, bignum_copy, bignum_t.digits, List.length_append, List.length_replicate]
    unfold bignum_t.digits at hL
    omega
  have hval : val (bignum_pad x L 0).d = val x.d := by
    simp only [bignum_pad, bignum_copy]
    rw [val_append, val_replicate_zero]; ring
  have hprop : proper x.d → proper (bignum_pad x L 0).d := by
    intro h
    simp only [bignum_pad, bignum_copy]
    exact proper_append.2 ⟨h, proper_replicate_zero _⟩
  unfold bignum_split
  simp only [bignum_t.digits, hlen]
  rw [if_neg (by omega)]
  refine ⟨_, _, rfl, rfl, rfl, ?_, ?_, ?_, ?_⟩
  · simp only [List.length_take, hlen]; omega
  · simp only [List.length_drop, hlen]
  · intro h
    exact ⟨proper_take (hprop h) _, proper_drop (hprop h) _⟩
  · rw [← hval]
    exact val_take_add_drop _ _ (by omega)

/-- Repeated addition of a non-negative operand, trimmed or not. -/
theorem take_n_loop_nonneg (b : bignum_t) (hb : b.neg = false) (pb : proper b.d) :
    ∀ (n : Nat) (sum : bignum_t), sum.neg = false → proper sum.d → trimmed sum.d →
      (take_n_loop b n sum).neg = false ∧ proper (take_n_loop b n sum).d ∧
        trimmed (take_n_loop b n sum).d ∧
        val (take_n_loop b n sum).d = val sum.d + n * val b.d := by
  intro n
  induction n with
  | zero => intro sum h1 h2 h3; exact ⟨h1, h2, h3, by simp [take_n_loop]⟩
  | succ n ih =>
    intro sum h1 h2 h3
    unfold take_n_loop
    obtain ⟨a1, a2, a3, a4, _⟩ := add_nonneg 2 sum b h1 hb h2 pb
    obtain ⟨r1, r2, r3, r4⟩ := ih (bignum_add sum b) a1 a2 a3
    refine ⟨r1, r2, r3, ?_⟩
    rw [r4]
    unfold bignum_add
    rw [a4]
    push_cast
    ring

/-- Repeated addition of a well-formed operand of any sign. -/
theorem take_n_loop_wf (b : bignum_t) (hb : well_formed b) :
    ∀ (n : Nat) (sum : bignum_t), well_formed sum →
      well_formed (take_n_loop b n sum) ∧
        toInt (take_n_loop b n sum) = toInt sum + n * toInt b := by
  intro n
  induction n with
  | zero => intro sum h; exact ⟨h, by simp [take_n_loop]⟩
  | succ n ih =>
    intro sum h
    unfold take_n_loop
    obtain ⟨a1, a2⟩ := add_correct 0 sum b h hb
    obtain ⟨r1, r2⟩ := ih (bignum_add sum b) a2
    refine ⟨r1, ?_⟩
    rw [r2]
    unfold bignum_add
    rw [a1]
    push_cast
    ring

theorem wf_create_zero (c : Nat) : well_formed (bignum_create c 0) := by
  rw [create_zero]
  exact ⟨le_refl _, proper_singleton (le_refl _) (by norm_num), trimmed_singleton 0, fun _ => rfl⟩

/-- The operands `take_n` and the multiplication accept: digits in `[0, 9]`, at
least one digit, and well formed when negative. -/
theorem take_n_spec (c : Nat) (b : bignum_t) (k : Int) (hk : 0 ≤ k) (pb : proper b.d)
    (hneg : b.neg = true → well_formed b) :
    ∃ r, take_n c b k = .ok r ∧ proper r.d ∧ trimmed r.d ∧ val r.d = k * val b.d ∧
      (b.neg = false → r.neg = false) ∧ (b.neg = true → 0 < k → r.neg = true) := by
  unfold take_n
  by_cases h0 : k = 0
  · rw [if_pos h0, create_zero]
    exact ⟨_, rfl, proper_singleton (le_refl _) (by norm_num), trimmed_singleton 0,
      by simp [val, h0], fun _ => rfl, fun _ h => by omega⟩
  · rw [if_neg h0, if_neg (by omega)]
    refine ⟨_, rfl, ?_⟩
    have hk' : ((k.toNat : Nat) : Int) = k := Int.toNat_of_nonneg hk
    cases hb : b.neg
    · obtain ⟨r1, r2, r3, r4⟩ := take_n_loop_nonneg b hb pb k.toNat (bignum_create c 0) rfl
        (by rw [create_zero]; exact proper_singleton (le_refl _) (by norm_num))
        (by rw [create_zero]; exact trimmed_singleton 0)
      refine ⟨r2, r3, ?_, fun _ => r1, fun h => by cases h⟩
      rw [r4, hk', create_zero]
      simp [val]
    · have wb := hneg hb
      obtain ⟨r1, r2⟩ := take_n_loop_wf b wb k.toNat (bignum_create c 0) (wf_create_zero c)
      rw [hk'] at r2
      have hz : toInt (bignum_create c 0) = 0 := by rw [create_zero]; simp [toInt, val]
      have hbv : toInt b = -val b.d := by simp [toInt, hb]
      have hvb : 0 < val b.d := by
        have h1 := val_nonneg pb
        have h2 : val b.d ≠ 0 := fun h => by have := wb.2.2.2 h; rw [hb] at this; cases this
        omega
      rw [hz, hbv] at r2
      have hkpos : 0 < k := by omega
      have hprod : 0 < k * val b.d := mul_pos hkpos hvb
      have hrneg : (take_n_loop b k.toNat (bignum_create c 0)).neg = true := by
        by_contra hn
        have hn' : (take_n_loop b k.toNat (bignum_create c 0)).neg = false := by
          simpa using hn
        have h3 := val_nonneg r1.2.1
        simp only [toInt, hn', Bool.false_eq_true, if_false] at r2
        have : k * -val b.d = -(k * val b.d) := by ring
        omega
      refine ⟨r1.2.1, r1.2.2.1, ?_, (fun h => by cases h), fun _ _ => hrneg⟩
      simp only [toInt, hrneg, if_true] at r2
      have : k * -val b.d = -(k * val b.d) := by ring
      omega

/-! ## Karatsuba multiplication -/

theorem multiply_fuel_base_x (c f : Nat) (x y : bignum_t) (hx : x.digits = 1) :
    bignum_multiply_fuel c (f + 1) x y = take_n c y (x.cell 0) := by
  rw [bignum_multiply_fuel, if_pos hx]

theorem multiply_fuel_base_y (c f : Nat) (x y : bignum_t) (hx : x.digits ≠ 1)
    (hy : y.digits = 1) :
    bignum_multiply_fuel c (f + 1) x y = take_n c x (y.cell 0) := by
  rw [bignum_multiply_fuel, if_neg hx, if_pos hy]

/-- One level of the Karatsuba recursion, with the three products named. -/
theorem multiply_fuel_rec (c f : Nat) (x y : bignum_t) (hx : x.digits ≠ 1) (hy : y.digits ≠ 1)
    (x2 x1 y2 y1 a b cc : bignum_t)
    (hsx : bignum_split (bignum_pad x (max y.digits x.digits) 0) = some (x2, x1))
    (hsy : bignum_split (bignum_pad y (max x.digits y.digits) 0) = some (y2, y1))
    (ha : bignum_multiply_fuel c f x1 y1 = .ok a)
    (hb : bignum_multiply_fuel c f x2 y2 = .ok b)
    (hc : bignum_multiply_fuel c f (bignum_add x1 x2) (bignum_add y1 y2) = .ok cc) :
    bignum_multiply_fuel c (f + 1) x y =
      .ok { bignum_add
              (bignum_add (bignum_shift a (min x1.digits x2.digits * 2))
                (bignum_shift (bignum_substract cc (bignum_add a b)) (min x1.digits x2.digits)))
              b with neg := xor x.neg y.neg } := by
  rw [bignum_multiply_fuel, if_neg hx, if_neg hy]
  simp only [hsx, hsy, ha, hb, hc]
  rfl

theorem bignum_add_nonneg (a b : bignum_t) (ha : a.neg = false) (hb : b.neg = false)
    (pa : proper a.d) (pb : proper b.d) :
    (bignum_add a b).neg = false ∧ proper (bignum_add a b).d ∧ trimmed (bignum_add a b).d ∧
      val (bignum_add a b).d = val a.d + val b.d ∧
      (bignum_add a b).d.length ≤ max a.digits b.digits + 1 :=
  add_nonneg 2 a b ha hb pa pb

theorem bignum_substract_nonneg_ge (a b : bignum_t) (ha : a.neg = false) (hb : b.neg = false)
    (pa : proper a.d) (pb : proper b.d) (ta : trimmed a.d) (tb : trimmed b.d)
    (hle : val b.d ≤ val a.d) :
    (bignum_substract a b).neg = false ∧ proper (bignum_substract a b).d ∧
      trimmed (bignum_substract a b).d ∧ val (bignum_substract a b).d = val a.d - val b.d := by
  have hc : bignum_compare a b ≠ -1 := by
    rw [compare_spec a b ha hb pa pb ta tb]
    intro h
    rw [Int.sign_eq_neg_one_iff_neg] at h
    omega
  exact sub_nonneg_ge 2 a b ha hb pa pb hc hle

theorem trimmed_length_le {l : List Int} (pl : proper l) (tl : trimmed l) {k : Nat}
    (hk : 1 ≤ k) (h : val l < 10 ^ k) : l.length ≤ k := by
  by_contra hc
  have htop : l.getD (l.length - 1) 0 ≠ 0 := by
    rcases tl with h1 | h1
    · exact h1
    · omega
  have h2 := pow_le_val pl (trimmed_ne_nil tl) htop
  have h3 : (10 : Int) ^ k ≤ 10 ^ (l.length - 1) := pow_le_pow_right₀ (by norm_num) (by omega)
  linarith

theorem min_halves (L : Nat) : min (L - L / 2) (L / 2) = L / 2 := by
  unfold min; split <;> omega

theorem max_self' (n : Nat) : max n n = n := by unfold max; simp

theorem ten_le_pow {k : Nat} (hk : 1 ≤ k) : (10 : Int) ≤ 10 ^ k := by
  calc (10 : Int) = 10 ^ 1 := by norm_num
    _ ≤ 10 ^ k := pow_le_pow_right₀ (by norm_num) hk

/-- The recombination step of Karatsuba on the three products. -/
theorem karatsuba_combine (a b cc : bignum_t) (m : Nat) (X1 X2 Y1 Y2 : Int)
    (hX1 : 0 ≤ X1) (hX2 : 0 ≤ X2) (hY1 : 0 ≤ Y1) (hY2 : 0 ≤ Y2)
    (na : a.neg = false) (pa : proper a.d) (ta : trimmed a.d) (va : val a.d = X1 * Y1)
    (nb : b.neg = false) (pb : proper b.d) (vb : val b.d = X2 * Y2)
    (nc : cc.neg = false) (pc : proper cc.d) (tc : trimmed cc.d)
    (vc : val cc.d = (X1 + X2) * (Y1 + Y2)) :
    proper (bignum_add (bignum_add (bignum_shift a (m * 2))
        (bignum_shift (bignum_substract cc (bignum_add a b)) m)) b).d ∧
      trimmed (bignum_add (bignum_add (bignum_shift a (m * 2))
        (bignum_shift (bignum_substract cc (bignum_add a b)) m)) b).d ∧
      val (bignum_add (bignum_add (bignum_shift a (m * 2))
        (bignum_shift (bignum_substract cc (bignum_add a b)) m)) b).d =
        (X2 + 10 ^ m * X1) * (Y2 + 10 ^ m * Y1) := by
  obtain ⟨nsab, psab, tsab, vsab, _⟩ := bignum_add_nonneg a b na nb pa pb
  have hle : val (bignum_add a b).d ≤ val cc.d := by
    rw [vsab, vc, va, vb]
    have e : (X1 + X2) * (Y1 + Y2) = X1 * Y1 + X2 * Y2 + (X1 * Y2 + X2 * Y1) := by ring
    rw [e]
    exact le_add_of_nonneg_right (Int.add_nonneg (mul_nonneg hX1 hY2) (mul_nonneg hX2 hY1))
  obtain ⟨nk, pk, tk, vk⟩ :=
    bignum_substract_nonneg_ge cc (bignum_add a b) nc nsab pc psab tc tsab hle
  obtain ⟨nar, par, _, var⟩ := shift_spec a (m * 2) pa (trimmed_ne_nil ta)
  obtain ⟨nkr, pkr, _, vkr⟩ :=
    shift_spec (bignum_substract cc (bignum_add a b)) m pk (trimmed_ne_nil tk)
  obtain ⟨nak, pak, _, vak, _⟩ := bignum_add_nonneg _ _ nar nkr par pkr
  obtain ⟨_, pres, tres, vres, _⟩ := bignum_add_nonneg _ b nak nb pak pb
  refine ⟨pres, tres, ?_⟩
  rw [vres, vak, var, vkr, vk, vsab, vc, va, vb, pow_mul]
  ring

/-- The sums of the halves need a smaller budget than the operands. -/
theorem sum_budget (x1 x2 y1 y2 : bignum_t) (L : Nat) (hL : 2 ≤ L)
    (nx1 : x1.neg = false) (nx2 : x2.neg = false) (ny1 : y1.neg = false) (ny2 : y2.neg = false)
    (px1 : proper x1.d) (px2 : proper x2.d) (py1 : proper y1.d) (py2 : proper y2.d)
    (lx1 : x1.d.length = L - L / 2) (lx2 : x2.d.length = L / 2)
    (ly1 : y1.d.length = L - L / 2) (ly2 : y2.d.length = L / 2) :
    multiply_budget (bignum_add x1 x2) (bignum_add y1 y2) + 1 ≤
      L + (val x2.d + 10 ^ (L / 2) * val x1.d).toNat +
        (val y2.d + 10 ^ (L / 2) * val y1.d).toNat + 1 := by
  have hm : 1 ≤ L / 2 := by omega
  have hpow := ten_le_pow hm
  have vx1 := val_nonneg px1
  have vx2 := val_nonneg px2
  have vy1 := val_nonneg py1
  have vy2 := val_nonneg py2
  have hPx : 10 * val x1.d ≤ 10 ^ (L / 2) * val x1.d := mul_le_mul_of_nonneg_right hpow vx1
  have hPy : 10 * val y1.d ≤ 10 ^ (L / 2) * val y1.d := mul_le_mul_of_nonneg_right hpow vy1
  obtain ⟨_, ps1, ts1, vs1, ls1⟩ := bignum_add_nonneg x1 x2 nx1 nx2 px1 px2
  obtain ⟨_, ps2, ts2, vs2, ls2⟩ := bignum_add_nonneg y1 y2 ny1 ny2 py1 py2
  have hmx : max x1.digits x2.digits ≤ L - L / 2 := by
    unfold bignum_t.digits; rw [lx1, lx2]
    rcases max_cases (L - L / 2) (L / 2) with h | h <;> omega
  have hmy : max y1.digits y2.digits ≤ L - L / 2 := by
    unfold bignum_t.digits; rw [ly1, ly2]
    rcases max_cases (L - L / 2) (L / 2) with h | h <;> omega
  have hlen : max (bignum_add x1 x2).d.length (bignum_add y1 y2).d.length + 1 ≤
      L + (if val x1.d = 0 ∧ val y1.d = 0 then 0 else 1) := by
    by_cases hz : val x1.d = 0 ∧ val y1.d = 0
    · rw [if_pos hz]
      have hl1 : (bignum_add x1 x2).d.length ≤ L / 2 :=
        trimmed_length_le ps1 ts1 hm (by
          rw [vs1, hz.1]
          have := val_lt_pow px2
          rw [lx2] at this
          linarith)
      have hl2 : (bignum_add y1 y2).d.length ≤ L / 2 :=
        trimmed_length_le ps2 ts2 hm (by
          rw [vs2, hz.2]
          have := val_lt_pow py2
          rw [ly2] at this
          linarith)
      rcases max_cases (bignum_add x1 x2).d.length (bignum_add y1 y2).d.length with h | h <;>
        rw [h] <;> omega
    · rw [if_neg hz]
      rcases max_cases (bignum_add x1 x2).d.length (bignum_add y1 y2).d.length with h | h <;>
        rw [h] <;> omega
  unfold multiply_budget bignum_t.digits
  rw [vs1, vs2]
  generalize max (bignum_add x1 x2).d.length (bignum_add y1 y2).d.length = M at hlen
  generalize 10 ^ (L / 2) * val x1.d = P at hPx
  generalize 10 ^ (L / 2) * val y1.d = Q at hPy
  generalize val x1.d = X1 at *
  generalize val x2.d = X2 at *
  generalize val y1.d = Y1 at *
  generalize val y2.d = Y2 at *
  clear ps1 ts1 ps2 ts2 ls1 ls2 hmx hmy lx1 lx2 ly1 ly2 px1 px2 py1 py2 hpow
  split at hlen <;> omega

/-- Each pair of halves needs a smaller budget than the operands. -/
theorem part_budget (x1 y1 : bignum_t) (L n : Nat) (hn : n < L) (X2 Y2 P : Int)
    (hX2 : 0 ≤ X2) (hY2 : 0 ≤ Y2) (hP : 1 ≤ P)
    (px1 : proper x1.d) (py1 : proper y1.d)
    (lx1 : x1.d.length = n) (ly1 : y1.d.length = n) :
    multiply_budget x1 y1 + 1 ≤
      L + (X2 + P * val x1.d).toNat + (Y2 + P * val y1.d).toNat + 1 := by
  have vx1 := val_nonneg px1
  have vy1 := val_nonneg py1
  have hPx : 1 * val x1.d ≤ P * val x1.d := mul_le_mul_of_nonneg_right hP vx1
  have hPy : 1 * val y1.d ≤ P * val y1.d := mul_le_mul_of_nonneg_right hP vy1
  unfold multiply_budget bignum_t.digits
  rw [lx1, ly1, max_self']
  generalize P * val x1.d = A at hPx
  generalize P * val y1.d = B at hPy
  omega

/-- Karatsuba multiplication with a sufficient budget returns the product of
the magnitudes, trimmed, on operands with digits in `[0, 9]` that are well
formed when negative. -/
theorem multiply_fuel_spec (c : Nat) : ∀ (f : Nat) (x y : bignum_t), proper x.d → proper y.d →
    x.d ≠ [] → y.d ≠ [] → (x.neg = true → well_formed x) → (y.neg = true → well_formed y) →
    multiply_budget x y ≤ f →
    ∃ r, bignum_multiply_fuel c f x y = .ok r ∧ proper r.d ∧ trimmed r.d ∧
      val r.d = val x.d * val y.d ∧ (x.neg = false → y.neg = false → r.neg = false) := by
  intro f
  induction f with
  | zero => intro x y _ _ _ _ _ _ h; unfold multiply_budget at h; omega
  | succ f ih =>
    intro x y px py hxn hyn wx wy hB
    by_cases hx : x.digits = 1
    · rw [multiply_fuel_base_x c f x y hx]
      obtain ⟨x0, hx0⟩ : ∃ x0, x.d = [x0] := List.length_eq_one.1 hx
      have hcell : x.cell 0 = x0 := by simp [bignum_t.cell, hx0]
      have hr : 0 ≤ x0 ∧ x0 ≤ 9 := px x0 (by rw [hx0]; simp)
      obtain ⟨r, h1, h2, h3, h4, h5, _⟩ := take_n_spec c y (x.cell 0) (by omega) py wy
      refine ⟨r, h1, h2, h3, ?_, fun _ hy => h5 hy⟩
      rw [h4, hcell, hx0]; simp [val]
    · by_cases hy : y.digits = 1
      · rw [multiply_fuel_base_y c f x y hx hy]
        obtain ⟨y0, hy0⟩ : ∃ y0, y.d = [y0] := List.length_eq_one.1 hy
        have hcell : y.cell 0 = y0 := by simp [bignum_t.cell, hy0]
        have hr : 0 ≤ y0 ∧ y0 ≤ 9 := py y0 (by rw [hy0]; simp)
        obtain ⟨r, h1, h2, h3, h4, h5, _⟩ := take_n_spec c x (y.cell 0) (by omega) px wx
        refine ⟨r, h1, h2, h3, ?_, fun hx _ => h5 hx⟩
        rw [h4, hcell, hy0]; simp [val]; ring
      · have hx2 : 2 ≤ x.digits := by
          have := List.length_pos.2 hxn
          unfold bignum_t.digits at hx ⊢; omega
        obtain ⟨L, hLdef⟩ : ∃ L, L = max x.digits y.digits := ⟨_, rfl⟩
        have hLx : x.digits ≤ L := by rw [hLdef]; exact le_max_l _ _
        have hLy : y.digits ≤ L := by rw [hLdef]; exact le_max_r _ _
        have hL2 : 2 ≤ L := by omega
        obtain ⟨x2, x1, hsx, nx2, nx1, lx2, lx1, ppx, vx⟩ := split_pad x L hLx hL2
        obtain ⟨y2, y1, hsy, ny2, ny1, ly2, ly1, ppy, vy⟩ := split_pad y L hLy hL2
        obtain ⟨px2, px1⟩ := ppx px
        obtain ⟨py2, py1⟩ := ppy py
        unfold multiply_budget at hB
        rw [← hLdef, vx, vy] at hB
        have hm : 1 ≤ L / 2 := by omega
        have hpow : (1 : Int) ≤ 10 ^ (L / 2) := le_trans (by norm_num) (ten_le_pow hm)
        have ex1 : x1.d ≠ [] := by intro h; rw [h] at lx1; simp at lx1; omega
        have ex2 : x2.d ≠ [] := by intro h; rw [h] at lx2; simp at lx2; omega
        have ey1 : y1.d ≠ [] := by intro h; rw [h] at ly1; simp at ly1; omega
        have ey2 : y2.d ≠ [] := by intro h; rw [h] at ly2; simp at ly2; omega
        have hB1 := part_budget x1 y1 L (L - L / 2) (by omega) (val x2.d) (val y2.d)
          (10 ^ (L / 2)) (val_nonneg px2) (val_nonneg py2) hpow px1 py1 lx1 ly1
        have hB2 : multiply_budget x2 y2 + 1 ≤
            L + (val x2.d + 10 ^ (L / 2) * val x1.d).toNat +
              (val y2.d + 10 ^ (L / 2) * val y1.d).toNat + 1 := by
          have h := part_budget x2 y2 L (L / 2) (by omega) (10 ^ (L / 2) * val x1.d)
            (10 ^ (L / 2) * val y1.d) 1
            (mul_nonneg (by positivity) (val_nonneg px1))
            (mul_nonneg (by positivity) (val_nonneg py1)) (le_refl _) px2 py2 lx2 ly2
          rw [one_mul, one_mul, add_comm (10 ^ (L / 2) * val x1.d),
            add_comm (10 ^ (L / 2) * val y1.d)] at h
          exact h
        have hB3 := sum_budget x1 x2 y1 y2 L hL2 nx1 nx2 ny1 ny2 px1 px2 py1 py2 lx1 lx2 ly1 ly2
        obtain ⟨ns1, ps1, ts1, vs1, _⟩ := bignum_add_nonneg x1 x2 nx1 nx2 px1 px2
        obtain ⟨ns2, ps2, ts2, vs2, _⟩ := bignum_add_nonneg y1 y2 ny1 ny2 py1 py2
        obtain ⟨a, ha, pa, ta, va, na⟩ := ih x1 y1 px1 py1 ex1 ey1
          (fun h => by rw [nx1] at h; cases h) (fun h => by rw [ny1] at h; cases h) (by omega)
        obtain ⟨b, hb, pb, tb, vb, nb⟩ := ih x2 y2 px2 py2 ex2 ey2
          (fun h => by rw [nx2] at h; cases h) (fun h => by rw [ny2] at h; cases h) (by omega)
        obtain ⟨cc, hc, pc, tc, vc, nc⟩ := ih (bignum_add x1 x2) (bignum_add y1 y2) ps1 ps2
          (trimmed_ne_nil ts1) (trimmed_ne_nil ts2)
          (fun h => by rw [ns1] at h; cases h) (fun h => by rw [ns2] at h; cases h) (by omega)
        rw [vs1, vs2] at vc
        have hmin : min x1.digits x2.digits = L / 2 := by
          unfold bignum_t.digits; rw [lx1, lx2]; exact min_halves L
        obtain ⟨pres, tres, vres⟩ := karatsuba_combine a b cc (L / 2) (val x1.d) (val x2.d)
          (val y1.d) (val y2.d) (val_nonneg px1) (val_nonneg px2) (val_nonneg py1)
          (val_nonneg py2) (na nx1 ny1) pa ta va (nb nx2 ny2) pb vb (nc ns1 ns2) pc tc vc
        refine ⟨_, multiply_fuel_rec c f x y hx hy x2 x1 y2 y1 a b cc
          (by rw [max_comm', ← hLdef]; exact hsx) (by rw [← hLdef]; exact hsy) ha hb hc, ?_⟩
        rw [hmin]
        refine ⟨pres, tres, ?_, ?_⟩
        · rw [vx, vy]; exact vres
        · intro h1 h2
          simp [h1, h2]

/-! ## Construction from a string -/

/-- The digit loop of `bignum_create_from_string` stores in cell `k` the code of
the character `len - 1 - k` minus the code of '0', for the cells it reaches. -/
theorem from_string_loop_spec (str : List Char) (len : Nat) :
    ∀ (n i : Nat) (ds : List Int), i + n = len →
      (from_string_loop str len n i ds).length = ds.length ∧
      ∀ k, (from_string_loop str len n i ds).getD k 0 =
        if k < n ∧ k < ds.length then char_at str (len - 1 - k) - 48 else ds.getD k 0 := by
  intro n
  induction n with
  | zero => intro i ds _; simp [from_string_loop]
  | succ n ih =>
    intro i ds h
    unfold from_string_loop
    obtain ⟨h1, h2⟩ := ih (i + 1) (ds.set (len - i - 1) (char_at str i - 48)) (by omega)
    rw [List.length_set] at h1 h2
    refine ⟨h1, fun k => ?_⟩
    rw [h2 k]
    have e : len - i - 1 = n := by omega
    rw [e, List.getD_eq_getElem?_getD (ds.set n _), List.getElem?_set,
      List.getD_eq_getElem?_getD ds]
    by_cases hk : k < n
    · by_cases hl : k < ds.length
      · rw [if_pos ⟨hk, hl⟩, if_pos ⟨by omega, hl⟩]
      · have hn1 : ¬(k < n ∧ k < ds.length) := fun h => hl h.2
        have hn2 : ¬(k < n + 1 ∧ k < ds.length) := fun h => hl h.2
        rw [if_neg hn1, if_neg hn2, if_neg (by omega)]
    · have hn1 : ¬(k < n ∧ k < ds.length) := fun h => hk h.1
      rw [if_neg hn1]
      by_cases hkn : n = k
      · subst hkn
        have ei : len - 1 - n = i := by omega
        rw [if_pos rfl]
        by_cases hl : n < ds.length
        · have hp : n < n + 1 ∧ n < ds.length := ⟨by omega, hl⟩
          rw [if_pos hl, if_pos hp, ei]; rfl
        · have hn2 : ¬(n < n + 1 ∧ n < ds.length) := fun h => hl h.2
          rw [if_neg hl, if_neg hn2, List.getElem?_eq_none (by omega)]
      · have hn2 : ¬(k < n + 1 ∧ k < ds.length) := fun h => by omega
        rw [if_neg hkn, if_neg hn2]

/-! ## Long division -/

theorem sign_pos_iff' (a : Int) : Int.sign a > 0 ↔ a > 0 := by
  rcases lt_trichotomy a 0 with h | h | h
  · rw [Int.sign_eq_neg_one_iff_neg.2 h]; omega
  · rw [h]; simp
  · rw [Int.sign_eq_one_iff_pos.2 h]; omega

theorem sign_neg_iff' (a : Int) : Int.sign a < 0 ↔ a < 0 := by
  rcases lt_trichotomy a 0 with h | h | h
  · rw [Int.sign_eq_neg_one_iff_neg.2 h]; omega
  · rw [h]; simp
  · rw [Int.sign_eq_one_iff_pos.2 h]; omega

theorem chunk_loop_succ (c : Nat) (d n : bignum_t) (f : Nat) (guess : Int) (mc : bignum_t)
    (h : take_n c d guess = .ok mc) :
    chunk_loop c d n (f + 1) guess =
      if bignum_compare mc n > 0 then chunk_loop c d n f (guess - 1) else .ok (guess, mc) := by
  rw [chunk_loop, h]
  rfl

theorem chunk_loop_neg (c : Nat) (d n : bignum_t) (f : Nat) (guess : Int) (h : guess < 0)
    (r : Int × bignum_t) : chunk_loop c d n f guess ≠ .ok r := by
  cases f with
  | zero => simp [chunk_loop]
  | succ f =>
    have e : take_n c d guess = .error .uninitialised := by
      unfold take_n
      rw [if_neg (by omega), if_pos h]
    rw [chunk_loop, e]
    intro h2
    cases h2

/-- The correction loop ends at the largest digit not above the first guess
whose multiple of the divisor fits into the remainder. -/
theorem chunk_loop_spec (c : Nat) (d n : bignum_t) (hd : d.neg = false) (pd : proper d.d)
    (hn : n.neg = false) (pn : proper n.d) (tn : trimmed n.d) :
    ∀ (f : Nat) (guess g : Int) (mc : bignum_t), chunk_loop c d n f guess = .ok (g, mc) →
      0 ≤ g ∧ g ≤ guess ∧ mc.neg = false ∧ proper mc.d ∧ trimmed mc.d ∧
        val mc.d = g * val d.d ∧ val mc.d ≤ val n.d ∧
        (g < guess → val n.d < (g + 1) * val d.d) := by
  intro f
  induction f with
  | zero => intro guess g mc h; simp [chunk_loop] at h
  | succ f ih =>
    intro guess g mc h
    by_cases hg : guess < 0
    · exact absurd h (chunk_loop_neg c d n _ guess hg _)
    · obtain ⟨mc0, h1, h2, h3, h4, h5, _⟩ := take_n_spec c d guess (by omega) pd
        (fun hh => by rw [hd] at hh; cases hh)
      have nmc := h5 hd
      rw [chunk_loop_succ c d n f guess mc0 h1] at h
      have hcmp := compare_spec mc0 n nmc hn h2 pn h3 tn
      by_cases hc : bignum_compare mc0 n > 0
      · rw [if_pos hc] at h
        obtain ⟨r1, r2, r3, r4, r5, r6, r7, r8⟩ := ih (guess - 1) g mc h
        refine ⟨r1, by omega, r3, r4, r5, r6, r7, fun _ => ?_⟩
        by_cases hlt : g < guess - 1
        · exact r8 hlt
        · have e : g + 1 = guess := by omega
          rw [e, ← h4]
          rw [hcmp, sign_pos_iff'] at hc
          omega
      · rw [if_neg hc] at h
        have hgm : guess = g ∧ mc0 = mc := by
          injection h with h'
          exact Prod.mk.inj h'
        obtain ⟨e1, e2⟩ := hgm
        subst e1 e2
        refine ⟨by omega, le_refl _, nmc, h2, h3, h4, ?_, fun hh => absurd hh (lt_irrefl _)⟩
        rw [hcmp, sign_pos_iff'] at hc
        omega

/-- The arithmetic behind the quotient-digit estimate: it never undershoots. -/
theorem estimate_bound (N D T s g : Int) (a b : Nat) (hab : a ≤ b) (hT : 0 ≤ T)
    (hN : N < 10 ^ a * (T + 1)) (hD : 10 ^ b * s ≤ D) (hg : 0 ≤ g)
    (hTg : T + 1 ≤ (g + 1) * s) : N < (g + 1) * D := by
  have h1 : (10 : Int) ^ a ≤ 10 ^ b := pow_le_pow_right₀ (by norm_num) hab
  have h2 : (10 : Int) ^ a * (T + 1) ≤ 10 ^ b * (T + 1) :=
    mul_le_mul_of_nonneg_right h1 (by omega)
  have h3 : (10 : Int) ^ b * (T + 1) ≤ 10 ^ b * ((g + 1) * s) :=
    mul_le_mul_of_nonneg_left hTg (by positivity)
  have h4 : (g + 1) * (10 ^ b * s) ≤ (g + 1) * D :=
    mul_le_mul_of_nonneg_left hD (by omega)
  have h5 : (10 : Int) ^ b * ((g + 1) * s) = (g + 1) * (10 ^ b * s) := by ring
  linarith

/-- The top two digits of a list with at least two digits bound its value. -/
theorem val_lt_top_two {n : List Int} (pn : proper n) (h2 : 2 ≤ n.length) :
    val n < 10 ^ (n.length - 2) *
      (n.getD (n.length - 1) 0 * 10 + n.getD (n.length - 2) 0 + 1) := by
  have hne : n ≠ [] := by intro h; rw [h] at h2; simp at h2
  have e1 := val_dropLast n hne
  have hne2 : n.dropLast ≠ [] := by
    intro h
    have := List.length_dropLast n
    rw [h] at this; simp at this; omega
  have e2 := val_dropLast n.dropLast hne2
  have hl : n.dropLast.length = n.length - 1 := List.length_dropLast n
  rw [hl] at e2
  have h3 := val_lt_pow (proper_dropLast (proper_dropLast pn))
  rw [List.length_dropLast, hl] at h3
  have e4 : n.length - 1 - 1 = n.length - 2 := by omega
  rw [e4] at e2 h3
  have i1 : n.length - 2 < n.dropLast.length := by rw [hl]; omega
  have i2 : n.length - 2 < n.length := by omega
  have e3 : n.dropLast.getD (n.length - 2) 0 = n.getD (n.length - 2) 0 := by
    rw [List.getD_eq_getElem n.dropLast 0 i1, List.getD_eq_getElem n 0 i2,
      List.getElem_dropLast]
  rw [e3] at e2
  have e5 : (10 : Int) ^ (n.length - 1) = 10 ^ (n.length - 2) * 10 := by
    rw [← pow_succ]; congr 1; omega
  rw [e1, e2, e5]
  nlinarith

theorem le_val_top {d : List Int} (pd : proper d) (hd : d ≠ []) :
    10 ^ (d.length - 1) * d.getD (d.length - 1) 0 ≤ val d := by
  rw [val_dropLast d hd]
  have := val_nonneg (proper_dropLast pd)
  omega

/-- What a successful round of the digit loop did. -/
theorem divide_step_inv (c : Nat) (s s' : divide_state) (h : divide_step c s = .ok s') :
    2 ≤ s.n.digits ∧ s.d_sig ≠ 0 ∧
      ∃ guess1 g mc,
        guess1 = (if Int.tdiv (s.n.cell (s.n.digits - 1) * 10 + s.n.cell (s.n.digits - 2))
            s.d_sig ≥ 10 then 9
          else Int.tdiv (s.n.cell (s.n.digits - 1) * 10 + s.n.cell (s.n.digits - 2)) s.d_sig) ∧
        chunk_loop c s.d s.n (guess1.toNat + 2) guess1 = .ok (g, mc) ∧
        s' = { n := bignum_substract s.n mc, d := bignum_unshift c s.d 1,
               q := bignum_add (bignum_shift s.q 1) (bignum_create c g),
               d_sig := (bignum_unshift c s.d 1).cell ((bignum_unshift c s.d 1).digits - 1) } := by
  unfold divide_step at h
  by_cases h1 : s.n.digits < 1
  · rw [if_pos h1] at h; cases h
  · rw [if_neg h1] at h
    by_cases h2 : s.n.digits < 2
    · simp only [h2, if_true] at h; cases h
    · by_cases h3 : s.d_sig = 0
      · simp only [h2, h3, if_true, if_false] at h; cases h
      · simp only [h2, h3, if_false, BIGNUM_BASE] at h
        refine ⟨by omega, h3, ?_⟩
        split at h
        · cases h
        · rename_i g mc hcl
          refine ⟨_, g, mc, rfl, ?_, ?_⟩
          · norm_num at hcl ⊢
            exact hcl
          · injection h with h
            exact h.symm

theorem proper_getD {l : List Int} (h : proper l) (i : Nat) :
    0 ≤ l.getD i 0 ∧ l.getD i 0 ≤ 9 := by
  by_cases hi : i < l.length
  · rw [List.getD_eq_getElem l 0 hi]; exact h _ (List.getElem_mem _)
  · rw [List.getD_eq_default l 0 (by omega)]; omega

theorem top_ne_zero {l : List Int} (tl : trimmed l) (h2 : 2 ≤ l.length) :
    l.getD (l.length - 1) 0 ≠ 0 := by
  rcases tl with h | h
  · exact h
  · omega

/-- A trimmed remainder below ten times the divisor has at most one digit more
than the divisor. -/
theorem length_le_of_lt_ten_mul {n d : List Int} (pn : proper n) (pd : proper d)
    (tn : trimmed n) (h2 : 2 ≤ n.length) (hN : val n < 10 * val d) :
    n.length - 2 ≤ d.length - 1 := by
  have h1 := pow_le_val pn (trimmed_ne_nil tn) (top_ne_zero tn h2)
  have h3 := val_lt_pow pd
  by_contra hc
  have h4 : (10 : Int) ^ (d.length + 1) ≤ 10 ^ (n.length - 1) :=
    pow_le_pow_right₀ (by norm_num) (by omega)
  rw [pow_succ] at h4
  omega

/-- One round of the digit loop: the quotient gains the digit
`floor (n / d)`, the remainder loses that multiple of the divisor, and the
divisor loses its lowest digit. -/
theorem divide_step_spec (c : Nat) (s s' : divide_state) (hs : divide_inv s)
    (hN : val s.n.d < 10 * val s.d.d) (h : divide_step c s = .ok s') :
    divide_inv s' ∧ ∃ g, 0 ≤ g ∧ val s'.q.d = 10 * val s.q.d + g ∧
      val s'.n.d = val s.n.d - g * val s.d.d ∧ 0 ≤ val s'.n.d ∧
      val s'.n.d < val s.d.d ∧ val s'.d.d = val s.d.d / 10 := by
  obtain ⟨h2, hsig, G, g, mc, hG, hcl, hs'⟩ := divide_step_inv c s s' h
  obtain ⟨⟨nn, pn, tn⟩, ⟨nd, pd, td⟩, ⟨nq, pq, tq⟩, hds⟩ := hs
  unfold bignum_t.digits at h2
  unfold bignum_t.digits bignum_t.cell at hG hds
  have rtop := proper_getD pn (s.n.d.length - 1)
  have rsec := proper_getD pn (s.n.d.length - 2)
  have rsig := proper_getD pd (s.d.d.length - 1)
  rw [← hds] at rsig
  have hsigpos : 0 < s.d_sig := by omega
  have hT0 : 0 ≤ s.n.d.getD (s.n.d.length - 1) 0 * 10 + s.n.d.getD (s.n.d.length - 2) 0 := by
    omega
  rw [Int.tdiv_eq_ediv hT0 (by omega)] at hG
  have hq0 : 0 ≤ (s.n.d.getD (s.n.d.length - 1) 0 * 10 + s.n.d.getD (s.n.d.length - 2) 0) /
      s.d_sig := Int.ediv_nonneg hT0 (by omega)
  have hG0 : 0 ≤ G ∧ G ≤ 9 := by rw [hG]; split <;> omega
  obtain ⟨g0, g1, nmc, pmc, tmc, vmc, hle, hmax⟩ :=
    chunk_loop_spec c s.d s.n nd pd nn pn tn _ G g mc hcl
  have hupper : val s.n.d < (g + 1) * val s.d.d := by
    by_cases hlt : g < G
    · exact hmax hlt
    · have hgG : g = G := by omega
      by_cases hclamp : (s.n.d.getD (s.n.d.length - 1) 0 * 10 +
          s.n.d.getD (s.n.d.length - 2) 0) / s.d_sig ≥ 10
      · rw [if_pos hclamp] at hG
        rw [hgG, hG]
        linarith
      · rw [if_neg hclamp] at hG
        have hfl := Int.lt_ediv_add_one_mul_self
          (s.n.d.getD (s.n.d.length - 1) 0 * 10 + s.n.d.getD (s.n.d.length - 2) 0) hsigpos
        rw [← hG, ← hgG] at hfl
        have hb := le_val_top pd (trimmed_ne_nil td)
        rw [← hds] at hb
        exact estimate_bound _ _ _ s.d_sig g _ _
          (length_le_of_lt_ten_mul pn pd tn h2 hN) hT0
          (by have := val_lt_top_two pn h2; linarith) hb g0 (by omega)
  have hg9 : g ≤ 9 := by omega
  obtain ⟨nsq, psq, tsq, vsq⟩ := shift_spec s.q 1 pq (trimmed_ne_nil tq)
  have hcg := create_digit c g g0 hg9
  obtain ⟨nq', pq', tq', vq', _⟩ := bignum_add_nonneg (bignum_shift s.q 1) (bignum_create c g)
    nsq (by rw [hcg]) psq (by rw [hcg]; exact proper_singleton g0 hg9)
  obtain ⟨nn', pn', tn', vn'⟩ := bignum_substract_nonneg_ge s.n mc nn nmc pn pmc tn tmc hle
  obtain ⟨nd', pd', td', _⟩ := unshift_spec c s.d 1 pd
  have vd' := unshift_one c s.d pd
  rw [hs']
  refine ⟨⟨⟨nn', pn', tn'⟩, ⟨nd', pd', td'⟩, ⟨nq', pq', tq'⟩, rfl⟩, g, g0, ?_, ?_, ?_, ?_, vd'⟩
  · simp only
    rw [vq', vsq, hcg]
    simp [val]
  · simp only
    rw [vn', vmc]
  · simp only
    rw [vn']; omega
  · simp only
    rw [vn', vmc]
    linarith

theorem divide_loop_succ_inv (c k : Nat) (s s' : divide_state)
    (h : divide_loop c (k + 1) s = .ok s') :
    ∃ s1, divide_step c s = .ok s1 ∧ divide_loop c k s1 = .ok s' := by
  rw [divide_loop] at h
  split at h
  · cases h
  · rename_i s1 hs1
    exact ⟨s1, hs1, h⟩

/-- The digit loop, started on a divisor `Y * 10 ^ k` and run `k + 1` rounds,
ends with a quotient and a remainder below `Y` that recompose what it started
from. -/
theorem divide_loop_spec (c : Nat) (Y : Int) : ∀ (k : Nat) (s s' : divide_state),
    divide_inv s → val s.d.d = Y * 10 ^ k → val s.n.d < 10 * val s.d.d →
    divide_loop c (k + 1) s = .ok s' →
    divide_inv s' ∧ val s'.q.d * Y + val s'.n.d = val s.q.d * (10 * val s.d.d) + val s.n.d ∧
      0 ≤ val s'.n.d ∧ val s'.n.d < Y := by
  intro k
  induction k with
  | zero =>
    intro s s' hs hd hN h
    obtain ⟨s1, h1, h2⟩ := divide_loop_succ_inv c 0 s s' h
    rw [divide_loop] at h2
    injection h2 with h2
    subst h2
    obtain ⟨i1, g, _, e1, e2, e3, e4, _⟩ := divide_step_spec c s s1 hs hN h1
    rw [pow_zero, mul_one] at hd
    rw [hd] at e2 e4 ⊢
    refine ⟨i1, ?_, e3, e4⟩
    rw [e1, e2]; ring
  | succ k ih =>
    intro s s' hs hd hN h
    obtain ⟨s1, h1, h2⟩ := divide_loop_succ_inv c (k + 1) s s' h
    obtain ⟨i1, g, _, e1, e2, e3, e4, e5⟩ := divide_step_spec c s s1 hs hN h1
    have hd1 : val s1.d.d = Y * 10 ^ k := by
      rw [e5, hd, pow_succ, ← mul_assoc]
      exact Int.mul_ediv_cancel _ (by norm_num)
    have hd10 : val s.d.d = 10 * val s1.d.d := by rw [hd1, hd, pow_succ]; ring
    obtain ⟨i2, r1, r2, r3⟩ := ih s1 s' i1 hd1 (by rw [← hd10]; exact e4) h2
    refine ⟨i2, ?_, r2, r3⟩
    rw [r1, e1, e2, ← hd10]; ring

theorem divide_eq_of_lt (c : Nat) (x y : bignum_t) (want : Bool)
    (h1 : ¬(y.digits = 1 ∧ y.cell 0 = 0)) (h2 : ¬(x.digits = 0 ∨ y.digits = 0))
    (hlt : bignum_compare (magnitude (bignum_copy x 0))
      (magnitude (bignum_copy y 0)) < 0) :
    bignum_divide_with_remainder c x y want =
      .ok (bignum_create c 0,
        if want then some (magnitude (bignum_copy x 0)) else none) := by
  unfold bignum_divide_with_remainder
  rw [if_neg h1, if_neg h2]
  simp only [hlt, if_true]

theorem divide_eq_of_eq (c : Nat) (x y : bignum_t) (want : Bool)
    (h1 : ¬(y.digits = 1 ∧ y.cell 0 = 0)) (h2 : ¬(x.digits = 0 ∨ y.digits = 0))
    (heq : bignum_compare (magnitude (bignum_copy x 0))
      (magnitude (bignum_copy y 0)) = 0) :
    bignum_divide_with_remainder c x y want =
      .ok ({ bignum_create c 1 with neg := xor x.neg y.neg },
        if want then some (bignum_create c 0) else none) := by
  unfold bignum_divide_with_remainder
  rw [if_neg h1, if_neg h2]
  simp only [heq, lt_self_iff_false, if_true, if_false]

theorem divide_eq_of_gt (c : Nat) (x y : bignum_t) (want : Bool) (sb : Bool)
    (h1 : ¬(y.digits = 1 ∧ y.cell 0 = 0)) (h2 : ¬(x.digits = 0 ∨ y.digits = 0))
    (hlt : ¬ bignum_compare (magnitude (bignum_copy x 0))
      (magnitude (bignum_copy y 0)) < 0)
    (hne : ¬ bignum_compare (magnitude (bignum_copy x 0))
      (magnitude (bignum_copy y 0)) = 0)
    (z : Nat) (hz : z = (((x.digits : Int) - (y.digits : Int))).toNat)
    (hsb : decide (bignum_compare
      (bignum_shift (magnitude (bignum_copy y 0)) z)
      (magnitude (bignum_copy x 0)) > 0) = sb) :
    bignum_divide_with_remainder c x y want =
      match divide_loop c
        ((if sb then (x.digits : Int) - (y.digits : Int) - 1
          else (x.digits : Int) - (y.digits : Int)) + 1).toNat
        { n := (magnitude (bignum_copy x 0)),
          d := if sb then bignum_unshift c
              (bignum_shift (magnitude (bignum_copy y 0)) z) 1
            else bignum_shift (magnitude (bignum_copy y 0)) z,
          q := bignum_create c 0,
          d_sig := (if sb then bignum_unshift c
              (bignum_shift (magnitude (bignum_copy y 0)) z) 1
            else bignum_shift (magnitude (bignum_copy y 0)) z).cell
            ((if sb then bignum_unshift c
              (bignum_shift (magnitude (bignum_copy y 0)) z) 1
            else bignum_shift (magnitude (bignum_copy y 0)) z).digits - 1) } with
      | .error e => .error e
      | .ok s => .ok ({ s.q with neg := xor x.neg y.neg }, if want then some s.n else none) := by
  unfold bignum_divide_with_remainder
  rw [if_neg h1, if_neg h2]
  simp only [hlt, hne, if_false]
  subst hz hsb
  rfl

/-- A trimmed nonzero list is at least `10 ^ (length - 1)`. -/
theorem pow_le_val_of_ne_zero {l : List Int} (pl : proper l) (tl : trimmed l)
    (h0 : val l ≠ 0) : 10 ^ (l.length - 1) ≤ val l := by
  rcases tl with h | h
  · exact pow_le_val pl (by intro e; rw [e] at h; simp at h) h
  · rw [h]
    have := val_nonneg pl
    simp only [le_refl, Nat.sub_eq_zero_of_le, pow_zero]
    omega

/-- Long division of well-formed operands, when it returns: the quotient and
the remainder recompose the magnitude of the dividend, the remainder is
non-negative and below the magnitude of the divisor. -/
theorem divide_spec (c : Nat) (x y : bignum_t) (hx : well_formed x) (hy : well_formed y)
    (hy0 : val y.d ≠ 0) (want : Bool) (q : bignum_t) (ro : Option bignum_t)
    (h : bignum_divide_with_remainder c x y want = .ok (q, ro)) :
    proper q.d ∧ trimmed q.d ∧
      q.neg = (xor x.neg y.neg && decide (val y.d ≤ val x.d)) ∧
      ∃ r, ro = (if want then some r else none) ∧ r.neg = false ∧ proper r.d ∧ trimmed r.d ∧
        val x.d = val q.d * val y.d + val r.d ∧ val r.d < val y.d := by
  obtain ⟨lx, px, tx, zx⟩ := hx
  obtain ⟨ly, py, ty, zy⟩ := hy
  have hYpos : 0 < val y.d := by have := val_nonneg py; omega
  have hXnn := val_nonneg px
  have c1 : ¬(y.digits = 1 ∧ y.cell 0 = 0) := by
    rintro ⟨h1, h2⟩
    obtain ⟨y0, hy0'⟩ := List.length_eq_one.1 h1
    simp only [bignum_t.cell, hy0', List.getD_cons_zero] at h2
    rw [hy0', h2] at hy0
    simp [val] at hy0
  have c2 : ¬(x.digits = 0 ∨ y.digits = 0) := by omega
  have edx : (magnitude (bignum_copy x 0)).d = x.d := rfl
  have edy : (magnitude (bignum_copy y 0)).d = y.d := rfl
  have hcmp := compare_spec (magnitude (bignum_copy x 0)) (magnitude (bignum_copy y 0))
    rfl rfl px py tx ty
  rw [edx, edy] at hcmp
  by_cases k1 : bignum_compare (magnitude (bignum_copy x 0)) (magnitude (bignum_copy y 0)) < 0
  · rw [divide_eq_of_lt c x y want c1 c2 k1] at h
    injection h with h
    obtain ⟨hq, hr⟩ := Prod.mk.inj h
    rw [hcmp, sign_neg_iff'] at k1
    subst hq
    rw [create_zero]
    refine ⟨proper_singleton (le_refl _) (by norm_num), trimmed_singleton 0, ?_,
      _, hr.symm, rfl, px, tx, ?_, ?_⟩
    · have : ¬ (val y.d ≤ val x.d) := by omega
      simp [this]
    · rw [edx]; simp [val]
    · rw [edx]; omega
  · by_cases k2 : bignum_compare (magnitude (bignum_copy x 0)) (magnitude (bignum_copy y 0)) = 0
    · rw [divide_eq_of_eq c x y want c1 c2 k2] at h
      injection h with h
      obtain ⟨hq, hr⟩ := Prod.mk.inj h
      rw [hcmp, Int.sign_eq_zero_iff_zero] at k2
      subst hq
      rw [create_digit c 1 (by norm_num) (by norm_num)]
      refine ⟨proper_singleton (by norm_num) (by norm_num), trimmed_singleton 1, ?_,
        bignum_create c 0, hr.symm, ?_⟩
      · have : val y.d ≤ val x.d := by omega
        simp [this]
      · rw [create_zero]
        refine ⟨rfl, proper_singleton (le_refl _) (by norm_num), trimmed_singleton 0, ?_, ?_⟩
        · simp only [val]; omega
        · simp only [val]; omega
    · have hgt : val y.d < val x.d := by
        have k1' := k1
        have k2' := k2
        rw [hcmp, sign_neg_iff'] at k1'
        rw [hcmp, Int.sign_eq_zero_iff_zero] at k2'
        omega
      have hlen : y.d.length ≤ x.d.length := by
        by_contra hc
        have := val_lt_of_length_lt px py ty (trimmed_ne_nil tx) (by omega)
        omega
      obtain ⟨z, hzdef⟩ : ∃ z, z = x.d.length - y.d.length := ⟨_, rfl⟩
      have hz : z = (((x.digits : Int) - (y.digits : Int))).toNat := by
        unfold bignum_t.digits; omega
      obtain ⟨ns, ps, ts, vs⟩ := shift_spec (magnitude (bignum_copy y 0)) z py
        (trimmed_ne_nil ty)
      rw [edy] at vs
      have hcmp1 := compare_spec (bignum_shift (magnitude (bignum_copy y 0)) z)
        (magnitude (bignum_copy x 0)) ns rfl ps px ts tx
      rw [vs, edx] at hcmp1
      have hXlt : val x.d < 10 ^ x.d.length := val_lt_pow px
      have hYge := pow_le_val_of_ne_zero py ty hy0
      have hsign : (xor x.neg y.neg && decide (val y.d ≤ val x.d)) = xor x.neg y.neg := by
        have : val y.d ≤ val x.d := by omega
        simp [this]
      have hq0 : (bignum_create c 0).neg = false ∧ proper (bignum_create c 0).d ∧
          trimmed (bignum_create c 0).d := by
        rw [create_zero]
        exact ⟨rfl, proper_singleton (le_refl _) (by norm_num), trimmed_singleton 0⟩
      have vq0 : val (bignum_create c 0).d = 0 := by rw [create_zero]; simp [val]
      rw [hsign]
      by_cases sb : bignum_compare (bignum_shift (magnitude (bignum_copy y 0)) z)
          (magnitude (bignum_copy x 0)) > 0
      · rw [divide_eq_of_gt c x y want true c1 c2 k1 k2 z hz (by simp [sb])] at h
        simp only [if_true] at h
        rw [hcmp1, sign_pos_iff'] at sb
        have hz1 : 1 ≤ z := by
          by_contra hc
          have : z = 0 := by omega
          rw [this] at sb
          simp at sb
          omega
        obtain ⟨nu, pu, tu, _⟩ :=
          unshift_spec c (bignum_shift (magnitude (bignum_copy y 0)) z) 1 ps
        have vu := unshift_one c (bignum_shift (magnitude (bignum_copy y 0)) z) ps
        rw [vs] at vu
        have e10 : (10 : Int) ^ z = 10 ^ (z - 1) * 10 := by
          rw [← pow_succ]; congr 1; omega
        have vu' : val (bignum_unshift c
            (bignum_shift (magnitude (bignum_copy y 0)) z) 1).d = val y.d * 10 ^ (z - 1) := by
          have e : (10 : Int) ^ z * val y.d = val y.d * 10 ^ (z - 1) * 10 := by rw [e10]; ring
          rw [vu, e]
          exact Int.mul_ediv_cancel _ (by norm_num)
        have hiter : ((x.digits : Int) - (y.digits : Int) - 1 + 1).toNat = (z - 1) + 1 := by
          unfold bignum_t.digits; omega
        rw [hiter] at h
        split at h
        · cases h
        · rename_i s hloop
          injection h with h
          obtain ⟨hq, hr⟩ := Prod.mk.inj h
          obtain ⟨inv, r1, r2, r3⟩ := divide_loop_spec c (val y.d) (z - 1) _ s
            ⟨⟨rfl, px, tx⟩, ⟨nu, pu, tu⟩, hq0, rfl⟩ vu' (by
              have e : (10 : Int) * (val y.d * 10 ^ (z - 1)) = 10 ^ z * val y.d := by
                rw [e10]; ring
              show val (magnitude (bignum_copy x 0)).d <
                10 * val (bignum_unshift c (bignum_shift (magnitude (bignum_copy y 0)) z) 1).d
              rw [vu', edx, e]; omega) hloop
          have r1' : val s.q.d * val y.d + val s.n.d = val x.d := by
            rw [r1]
            show val (bignum_create c 0).d * _ + val (magnitude (bignum_copy x 0)).d = _
            rw [vq0, edx]; ring
          rw [← hq]
          exact ⟨inv.2.2.1.2.1, inv.2.2.1.2.2, rfl, s.n, hr.symm, inv.1.1, inv.1.2.1,
            inv.1.2.2, r1'.symm, r3⟩
      · rw [divide_eq_of_gt c x y want false c1 c2 k1 k2 z hz (by simp [sb])] at h
        simp only [Bool.false_eq_true, if_false] at h
        rw [hcmp1, sign_pos_iff'] at sb
        have hiter : ((x.digits : Int) - (y.digits : Int) + 1).toNat = z + 1 := by
          unfold bignum_t.digits; omega
        rw [hiter] at h
        have vs' : val (bignum_shift (magnitude (bignum_copy y 0)) z).d = val y.d * 10 ^ z := by
          rw [vs]; ring
        have hbig : (10 : Int) ^ x.d.length ≤ 10 * (val y.d * 10 ^ z) := by
          have e : x.d.length = (y.d.length - 1) + z + 1 := by
            unfold bignum_t.digits at ly; omega
          have h1 : (10 : Int) ^ (y.d.length - 1) * 10 ^ z ≤ val y.d * 10 ^ z :=
            mul_le_mul_of_nonneg_right hYge (by positivity)
          rw [e, pow_succ, pow_add]
          linarith
        split at h
        · cases h
        · rename_i s hloop
          injection h with h
          obtain ⟨hq, hr⟩ := Prod.mk.inj h
          obtain ⟨inv, r1, r2, r3⟩ := divide_loop_spec c (val y.d) z _ s
            ⟨⟨rfl, px, tx⟩, ⟨ns, ps, ts⟩, hq0, rfl⟩ vs' (by
              show val (magnitude (bignum_copy x 0)).d <
                10 * val (bignum_shift (magnitude (bignum_copy y 0)) z).d
              rw [vs', edx]; linarith) hloop
          have r1' : val s.q.d * val y.d + val s.n.d = val x.d := by
            rw [r1]
            show val (bignum_create c 0).d * _ + val (magnitude (bignum_copy x 0)).d = _
            rw [vq0, edx]; ring
          rw [← hq]
          exact ⟨inv.2.2.1.2.1, inv.2.2.1.2.2, rfl, s.n, hr.symm, inv.1.1, inv.1.2.1,
            inv.1.2.2, r1'.symm, r3⟩

/-! ## Equality of well-formed values -/

/-- Two well-formed values that stand for the same integer have the same sign
flag and the same digits. -/
theorem wf_eq_of_toInt_eq {a b : bignum_t} (ha : well_formed a) (hb : well_formed b)
    (h : toInt a = toInt b) : a.neg = b.neg ∧ a.d = b.d := by
  obtain ⟨_, pa, ta, za⟩ := ha
  obtain ⟨_, pb, tb, zb⟩ := hb
  have va := val_nonneg pa
  have vb := val_nonneg pb
  unfold toInt at h
  cases hna : a.neg <;> cases hnb : b.neg <;>
    simp only [hna, hnb, Bool.false_eq_true, if_false, if_true] at h
  · exact ⟨rfl, val_injective pa pb ta tb h⟩
  · have h0 : val b.d = 0 := by omega
    have := zb h0
    rw [hnb] at this
    cases this
  · have h0 : val a.d = 0 := by omega
    have := za h0
    rw [hna] at this
    cases this
  · exact ⟨rfl, val_injective pa pb ta tb (by omega)⟩

theorem top_ne_zero_of_val_ne_zero {l : List Int} (tl : trimmed l) (h0 : val l ≠ 0) :
    l.getD (l.length - 1) 0 ≠ 0 := by
  rcases tl with h | h
  · exact h
  · obtain ⟨x, hx⟩ := List.length_eq_one.1 h
    subst hx
    simpa [val] using h0

/-- Zeros in front of a nonzero trimmed list leave it trimmed. -/
theorem trimmed_replicate_append {l : List Int} (tl : trimmed l) (h0 : val l ≠ 0) (k : Nat) :
    trimmed (List.replicate k 0 ++ l) := by
  have hl := List.length_pos.2 (trimmed_ne_nil tl)
  left
  rw [List.getD_append_right _ _ _ _ (by simp; omega)]
  simp only [List.length_append, List.length_replicate]
  have e : k + l.length - 1 - k = l.length - 1 := by omega
  rw [e]
  exact top_ne_zero_of_val_ne_zero tl h0

/-! ## Length and capacity -/

theorem add_loop_length (a b : bignum_t) : ∀ (n i : Nat) (c : Int),
    (add_loop a b n i c).length = n := by
  intro n
  induction n with
  | zero => intro i c; rfl
  | succ n ih => intro i c; unfold add_loop; simp only [List.length_cons, ih]

theorem sub_loop_length (a b : bignum_t) : ∀ (n i : Nat) (c : Int),
    (sub_loop a b n i c).length = n := by
  intro n
  induction n with
  | zero => intro i c; rfl
  | succ n ih => intro i c; unfold sub_loop; simp only [List.length_cons, ih]

theorem cap_negate {a : bignum_t} (h : a.digits ≤ a.alloced) :
    (bignum_negate a).digits ≤ (bignum_negate a).alloced := h

/-- The digit-wise addition returns a value within its capacity. -/
theorem cap_add_same (f : Nat) (a b : bignum_t) (h : a.neg = b.neg) :
    (bignum_add_fuel (f + 1) a b).digits ≤ (bignum_add_fuel (f + 1) a b).alloced := by
  rw [add_fuel_same_sign f a b h]
  have h1 := length_trim_le (add_loop a b (max a.digits b.digits + 1) 0 0)
  rw [add_loop_length] at h1
  exact h1

theorem cap_sub_base (f : Nat) (a b : bignum_t) (ha : a.neg = false) (hb : b.neg = false)
    (hc : bignum_compare a b ≠ -1) :
    (bignum_substract_fuel (f + 1) a b).digits ≤ (bignum_substract_fuel (f + 1) a b).alloced := by
  rw [sub_fuel_base f a b ha hb hc]
  have h1 := length_trim_le (sub_loop a b (max a.digits b.digits + 1) 0 0)
  rw [sub_loop_length] at h1
  exact h1

theorem cap_sub_nonneg (f : Nat) (a b : bignum_t) (ha : a.neg = false) (hb : b.neg = false) :
    (bignum_substract_fuel (f + 2) a b).digits ≤ (bignum_substract_fuel (f + 2) a b).alloced := by
  by_cases hc : bignum_compare a b = -1
  · have hc2 := compare_antisymm a b ha hb hc
    have e : bignum_substract_fuel (f + 2) a b =
        bignum_negate (bignum_substract_fuel (f + 1) b a) := by
      rw [bignum_substract_fuel]
      simp [ha, hb, hc]
    rw [e]
    exact cap_negate (cap_sub_base f b a hb ha hc2)
  · exact cap_sub_base (f + 1) a b ha hb hc

/-- Addition returns a value within its capacity, whatever the operands. -/
theorem cap_add (f : Nat) (a b : bignum_t) :
    (bignum_add_fuel (f + 3) a b).digits ≤ (bignum_add_fuel (f + 3) a b).alloced := by
  cases hna : a.neg <;> cases hnb : b.neg
  · exact cap_add_same _ a b (by rw [hna, hnb])
  · have e : bignum_add_fuel (f + 3) a b = bignum_substract_fuel (f + 2) a (bignum_negate b) := by
      rw [bignum_add_fuel]; simp [hna, hnb]
    rw [e]
    exact cap_sub_nonneg f a _ hna (by simp [bignum_negate, hnb])
  · have e : bignum_add_fuel (f + 3) a b = bignum_substract_fuel (f + 2) b (bignum_negate a) := by
      rw [bignum_add_fuel]; simp [hna, hnb]
    rw [e]
    exact cap_sub_nonneg f b _ hnb (by simp [bignum_negate, hna])
  · exact cap_add_same _ a b (by rw [hna, hnb])

/-- Subtraction returns a value within its capacity, whatever the operands. -/
theorem cap_sub (f : Nat) (a b : bignum_t) :
    (bignum_substract_fuel (f + 3) a b).digits ≤ (bignum_substract_fuel (f + 3) a b).alloced := by
  cases hna : a.neg <;> cases hnb : b.neg
  · exact cap_sub_nonneg (f + 1) a b hna hnb
  · have e : bignum_substract_fuel (f + 3) a b = bignum_add_fuel (f + 2) a (bignum_negate b) := by
      rw [bignum_substract_fuel]; simp [hna, hnb]
    rw [e]
    exact cap_add_same _ a _ (by simp [bignum_negate, hna, hnb])
  · have e : bignum_substract_fuel (f + 3) a b =
        bignum_negate (bignum_add_fuel (f + 2) (bignum_negate a) b) := by
      rw [bignum_substract_fuel]; simp [hna, hnb]
    rw [e]
    exact cap_negate (cap_add_same _ _ b (by simp [bignum_negate, hna, hnb]))
  · have e : bignum_substract_fuel (f + 3) a b =
        bignum_add_fuel (f + 1) (bignum_negate b) (bignum_negate a) := by
      rw [bignum_substract_fuel, bignum_substract_fuel]
      simp [hna, hnb, bignum_negate]
    rw [e]
    exact cap_add_same _ _ _ (by simp [bignum_negate, hna, hnb])

/-- Subtraction of well-formed operands of any signs is well formed. -/
theorem sub_wf (a b : bignum_t) (ha : well_formed a) (hb : well_formed b) :
    well_formed (bignum_substract a b) := by
  obtain ⟨_, pa, ta, za⟩ := ha
  obtain ⟨_, pb, tb, zb⟩ := hb
  have va := val_nonneg pa
  have vb := val_nonneg pb
  unfold bignum_substract
  cases hna : a.neg <;> cases hnb : b.neg
  · exact (sub_nonneg 1 a b hna hnb pa pb ta tb).2
  · have e : bignum_substract_fuel 3 a b = bignum_add_fuel 2 a (bignum_negate b) := by
      rw [bignum_substract_fuel]; simp [hna, hnb]
    rw [e]
    obtain ⟨h1, h2, h3, _, _⟩ := add_nonneg 1 a (bignum_negate b) hna
      (by simp [bignum_negate, hnb]) pa pb
    exact ⟨wf_digits_pos h3, h2, h3, fun _ => h1⟩
  · have e : bignum_substract_fuel 3 a b =
        bignum_negate (bignum_add_fuel 2 (bignum_negate a) b) := by
      rw [bignum_substract_fuel]; simp [hna, hnb]
    rw [e]
    obtain ⟨h1, h2, h3, h4, _⟩ := add_nonneg 1 (bignum_negate a) b
      (by simp [bignum_negate, hna]) hnb pa pb
    have za1 : val a.d ≠ 0 := fun h => by have := za h; rw [hna] at this; cases this
    refine ⟨wf_digits_pos h3, h2, h3, fun h0 => ?_⟩
    exfalso
    have h5 : val (bignum_add_fuel 2 (bignum_negate a) b).d = 0 := h0
    rw [h4] at h5
    simp only [bignum_negate] at h5
    omega
  · have e : bignum_substract_fuel 3 a b =
        bignum_add_fuel 1 (bignum_negate b) (bignum_negate a) := by
      rw [bignum_substract_fuel, bignum_substract_fuel]
      simp [hna, hnb, bignum_negate]
    rw [e]
    obtain ⟨h1, h2, h3, _, _⟩ := add_nonneg 0 (bignum_negate b) (bignum_negate a)
      (by simp [bignum_negate, hnb]) (by simp [bignum_negate, hna]) pb pa
    exact ⟨wf_digits_pos h3, h2, h3, fun _ => h1⟩

/-! ## Multiplication: capacity, budget and termination -/

theorem cap_take_n_loop (b : bignum_t) : ∀ (n : Nat) (sum : bignum_t),
    sum.digits ≤ sum.alloced →
    (take_n_loop b n sum).digits ≤ (take_n_loop b n sum).alloced := by
  intro n
  induction n with
  | zero => intro sum h; exact h
  | succ n ih =>
    intro sum _
    unfold take_n_loop
    exact ih _ (cap_add 0 sum b)

theorem cap_take_n (c : Nat) (hc : 1 ≤ c) (b : bignum_t) (k : Int) (r : bignum_t)
    (h : take_n c b k = .ok r) : r.digits ≤ r.alloced := by
  have h0 : (bignum_create c 0).digits ≤ (bignum_create c 0).alloced := by
    rw [create_zero]; exact hc
  unfold take_n at h
  split at h
  · injection h with h; rw [← h]; exact h0
  · split at h
    · cases h
    · injection h with h; rw [← h]; exact cap_take_n_loop b _ _ h0

/-- The shape of the result of a recursive round of the multiplication. -/
theorem multiply_fuel_rec_inv (c f : Nat) (x y r : bignum_t) (hx : x.digits ≠ 1)
    (hy : y.digits ≠ 1) (h : bignum_multiply_fuel c (f + 1) x y = .ok r) :
    ∃ ak b, r = { bignum_add ak b with neg := xor x.neg y.neg } := by
  rw [bignum_multiply_fuel, if_neg hx, if_neg hy] at h
  dsimp only at h
  split at h
  · rename_i x2 x1 y2 y1 _ _
    cases ha : bignum_multiply_fuel c f x1 y1 with
    | error e => rw [ha] at h; cases h
    | ok a =>
      cases hb : bignum_multiply_fuel c f x2 y2 with
      | error e => rw [ha, hb] at h; cases h
      | ok b =>
        cases hcc : bignum_multiply_fuel c f (bignum_add x1 x2) (bignum_add y1 y2) with
        | error e => rw [ha, hb, hcc] at h; cases h
        | ok cc =>
          rw [ha, hb, hcc] at h
          injection h with h
          exact ⟨_, _, h.symm⟩
  · cases h

/-- The multiplication returns a value within its capacity. -/
theorem cap_multiply (c : Nat) (hc : 1 ≤ c) (f : Nat) (x y r : bignum_t)
    (h : bignum_multiply_fuel c f x y = .ok r) : r.digits ≤ r.alloced := by
  cases f with
  | zero => rw [bignum_multiply_fuel] at h; cases h
  | succ f =>
    by_cases hx : x.digits = 1
    · rw [multiply_fuel_base_x c f x y hx] at h
      exact cap_take_n c hc _ _ r h
    · by_cases hy : y.digits = 1
      · rw [multiply_fuel_base_y c f x y hx hy] at h
        exact cap_take_n c hc _ _ r h
      · obtain ⟨ak, b, e⟩ := multiply_fuel_rec_inv c f x y r hx hy h
        rw [e]
        exact cap_add 0 ak b

/-- A larger budget does not change a result of the multiplication. -/
theorem multiply_fuel_succ (c : Nat) : ∀ (f : Nat) (x y r : bignum_t),
    bignum_multiply_fuel c f x y = .ok r → bignum_multiply_fuel c (f + 1) x y = .ok r := by
  intro f
  induction f with
  | zero => intro x y r h; rw [bignum_multiply_fuel] at h; cases h
  | succ f ih =>
    intro x y r h
    by_cases hx : x.digits = 1
    · rw [multiply_fuel_base_x c f x y hx] at h
      rw [multiply_fuel_base_x c (f + 1) x y hx]; exact h
    · by_cases hy : y.digits = 1
      · rw [multiply_fuel_base_y c f x y hx hy] at h
        rw [multiply_fuel_base_y c (f + 1) x y hx hy]; exact h
      · rw [bignum_multiply_fuel, if_neg hx, if_neg hy] at h
        rw [bignum_multiply_fuel, if_neg hx, if_neg hy]
        dsimp only at h ⊢
        split at h
        · rename_i x2 x1 y2 y1 hsx hsy
          cases ha : bignum_multiply_fuel c f x1 y1 with
          | error e => rw [ha] at h; cases h
          | ok a =>
            cases hb : bignum_multiply_fuel c f x2 y2 with
            | error e => rw [ha, hb] at h; cases h
            | ok b =>
              cases hcc : bignum_multiply_fuel c f (bignum_add x1 x2) (bignum_add y1 y2) with
              | error e => rw [ha, hb, hcc] at h; cases h
              | ok cc =>
                rw [ha, hb, hcc] at h
                rw [ih _ _ _ ha, ih _ _ _ hb, ih _ _ _ hcc]
                exact h
        · cases h

theorem multiply_fuel_mono (c : Nat) (f g : Nat) (x y r : bignum_t) (hfg : f ≤ g)
    (h : bignum_multiply_fuel c f x y = .ok r) : bignum_multiply_fuel c g x y = .ok r := by
  induction g with
  | zero =>
    have e : f = 0 := by omega
    rw [e] at h; exact h
  | succ g ih =>
    by_cases hf : f = g + 1
    · rw [hf] at h; exact h
    · exact multiply_fuel_succ c g x y r (ih (by omega))

/-- In a recursive round only the digits of the operands matter: the signs come
in at the end. -/
theorem multiply_fuel_magnitude (c f : Nat) (x y : bignum_t) (hx : x.digits ≠ 1)
    (hy : y.digits ≠ 1) (r0 : bignum_t)
    (h : bignum_multiply_fuel c (f + 1) (magnitude x) (magnitude y) = .ok r0) :
    bignum_multiply_fuel c (f + 1) x y = .ok { r0 with neg := xor x.neg y.neg } := by
  have hx' : (magnitude x).digits ≠ 1 := hx
  have hy' : (magnitude y).digits ≠ 1 := hy
  rw [bignum_multiply_fuel, if_neg hx', if_neg hy'] at h
  rw [bignum_multiply_fuel, if_neg hx, if_neg hy]
  dsimp only at h ⊢
  have e1 : bignum_split (bignum_pad (magnitude x) (max (magnitude y).digits (magnitude x).digits) 0)
      = bignum_split (bignum_pad x (max y.digits x.digits) 0) := rfl
  have e2 : bignum_split (bignum_pad (magnitude y) (max (magnitude x).digits (magnitude y).digits) 0)
      = bignum_split (bignum_pad y (max x.digits y.digits) 0) := rfl
  rw [e1, e2] at h
  split at h
  · rename_i x2 x1 y2 y1 hsx hsy
    cases ha : bignum_multiply_fuel c f x1 y1 with
    | error e => rw [ha] at h; cases h
    | ok a =>
      cases hb : bignum_multiply_fuel c f x2 y2 with
      | error e => rw [ha, hb] at h; cases h
      | ok b =>
        cases hcc : bignum_multiply_fuel c f (bignum_add x1 x2) (bignum_add y1 y2) with
        | error e => rw [ha, hb, hcc] at h; cases h
        | ok cc =>
          rw [ha, hb, hcc] at h
          injection h with h
          rw [← h]
          rfl
  · cases h

theorem take_n_total (c : Nat) (b : bignum_t) (k : Int) (hk : 0 ≤ k) :
    ∃ r, take_n c b k = .ok r := by
  unfold take_n
  split
  · exact ⟨_, rfl⟩
  · rw [if_neg (by omega)]
    exact ⟨_, rfl⟩

/-- With the budget `multiply_budget` the multiplication returns on all operands
with at least one digit and digits in `[0, 9]`, whatever their sign flags. -/
theorem multiply_total (c : Nat) (x y : bignum_t) (px : proper x.d) (py : proper y.d)
    (hxn : x.d ≠ []) (hyn : y.d ≠ []) :
    ∃ r, bignum_multiply_fuel c (multiply_budget x y) x y = .ok r := by
  obtain ⟨f, hf⟩ : ∃ f, multiply_budget x y = f + 1 := ⟨_, rfl⟩
  rw [hf]
  by_cases hx : x.digits = 1
  · rw [multiply_fuel_base_x c f x y hx]
    exact take_n_total c y _ (proper_getD px 0).1
  · by_cases hy : y.digits = 1
    · rw [multiply_fuel_base_y c f x y hx hy]
      exact take_n_total c x _ (proper_getD py 0).1
    · obtain ⟨r0, h0, _⟩ := multiply_fuel_spec c (f + 1) (magnitude x) (magnitude y) px py hxn hyn
        (fun h => by cases h) (fun h => by cases h) (by rw [← hf]; exact le_refl _)
      exact ⟨_, multiply_fuel_magnitude c f x y hx hy r0 h0⟩

/-! ## Construction from a machine integer and conversion to text -/

theorem to_char_digit (x : Int) (h0 : 0 ≤ x) (h9 : x ≤ 9) :
    to_char x = Nat.digitChar x.toNat ∧ ((to_char x).toNat : Int) = x + 48 := by
  interval_cases x <;> exact ⟨rfl, rfl⟩

/-- The digit loop of `bignum_set` on a non-negative number appends its decimal
digits, least significant first. -/
theorem set_loop_nat : ∀ (fuel m : Nat) (acc : List Int), m ≤ fuel →
    set_loop fuel (m : Int) acc = acc ++ (Nat.digits 10 m).map (fun k : Nat => (k : Int)) := by
  intro fuel
  induction fuel with
  | zero =>
    intro m acc h
    have : m = 0 := by omega
    subst this
    simp [set_loop]
  | succ f ih =>
    intro m acc h
    unfold set_loop
    by_cases hm : (m : Int) ≠ 0
    · rw [if_pos hm]
      have hpos : 0 < m := by omega
      have e1 : Int.tdiv (m : Int) BIGNUM_BASE = ((m / 10 : Nat) : Int) := by
        unfold BIGNUM_BASE
        rw [Int.tdiv_eq_ediv (by omega) (by norm_num)]
        norm_cast
      have e2 : Int.tmod (m : Int) BIGNUM_BASE = ((m % 10 : Nat) : Int) := by
        unfold BIGNUM_BASE
        rw [Int.tmod_eq_emod (by omega) (by norm_num)]
        norm_cast
      rw [e1, e2, ih (m / 10) _ (by omega), Nat.digits_def' (by norm_num) hpos]
      simp
    · rw [if_neg hm]
      have : m = 0 := by omega
      subst this
      simp

/-- The value `bignum_create` builds from an `int` other than the minimum: the
sign flag says whether the number is negative, and the digits are the decimal
digits of its absolute value, least significant first (the single digit 0 for
zero). -/
theorem create_spec (c : Nat) (n : Int) (hmin : n ≠ -2147483648) :
    (bignum_create c n).neg = decide (n < 0) ∧
      (bignum_create c n).d =
        (if n = 0 then [0] else (Nat.digits 10 n.natAbs).map (fun k : Nat => (k : Int))) ∧
      (bignum_create c n).alloced = c := by
  have hn1 : (if n < 0 then int_negate n else n) = (n.natAbs : Int) := by
    unfold int_negate
    rw [if_neg hmin]
    split <;> omega
  unfold bignum_create bignum_set bignum_reserve
  simp only [hn1, Int.natAbs_ofNat]
  rw [set_loop_nat _ _ _ (le_refl _)]
  refine ⟨?_, ?_, trivial⟩
  · by_cases hneg : n < 0
    · have : (n.natAbs : Int) ≠ 0 := by omega
      simp [hneg, this]
      omega
    · simp [hneg]
  · by_cases h0 : n = 0
    · subst h0
      simp
    · have hne : Nat.digits 10 n.natAbs ≠ [] :=
        Nat.digits_ne_nil_iff_ne_zero.2 (by omega)
      simp [h0, hne]

/-- The value `bignum_create` builds is well formed and stands for the
number. -/
theorem create_wf (c : Nat) (n : Int) (hmin : n ≠ -2147483648) :
    well_formed (bignum_create c n) ∧ toInt (bignum_create c n) = n := by
  obtain ⟨h1, h2, _⟩ := create_spec c n hmin
  by_cases h0 : n = 0
  · subst h0
    rw [create_zero]
    exact ⟨⟨le_refl _, proper_singleton (le_refl _) (by norm_num), trimmed_singleton 0,
      fun _ => rfl⟩, by simp [toInt, val]⟩
  · rw [if_neg h0] at h2
    have hm : n.natAbs ≠ 0 := by omega
    have hne : Nat.digits 10 n.natAbs ≠ [] := Nat.digits_ne_nil_iff_ne_zero.2 hm
    have hval : ∀ l : List Nat, val (l.map (fun k : Nat => (k : Int))) = (Nat.ofDigits 10 l : Nat) := by
      intro l
      induction l with
      | nil => simp [val, Nat.ofDigits]
      | cons x xs ih =>
        simp only [List.map_cons, val, ih, Nat.ofDigits_cons]
        push_cast
        ring
    have hv : val (bignum_create c n).d = (n.natAbs : Int) := by
      rw [h2, hval, Nat.ofDigits_digits]
    have hp : proper (bignum_create c n).d := by
      rw [h2]
      intro x hx
      obtain ⟨k, hk, rfl⟩ := List.mem_map.1 hx
      have := Nat.digits_lt_base (by norm_num : 1 < 10) hk
      omega
    have ht : trimmed (bignum_create c n).d := by
      left
      rw [h2]
      have hlast := Nat.getLast_digit_ne_zero 10 hm
      have hne2 : (Nat.digits 10 n.natAbs).map (fun k : Nat => (k : Int)) ≠ [] := by
        simpa using hne
      rw [List.getD_eq_getElem _ _ (Nat.sub_lt (List.length_pos.2 hne2) Nat.one_pos),
        ← List.getLast_eq_getElem _ hne2, List.getLast_map]
      exact_mod_cast hlast
    refine ⟨⟨?_, hp, ht, fun hz => ?_⟩, ?_⟩
    · exact List.length_pos.2 (trimmed_ne_nil ht)
    · rw [hv] at hz; omega
    · unfold toInt
      rw [h1, hv]
      by_cases hneg : n < 0
      · simp only [hneg, decide_True, if_true]; omega
      · simp only [hneg, decide_False, Bool.false_eq_true, if_false]; omega

/-- The loop of `bignum_stringify` writes the digits it covers, most significant
first. -/
theorem stringify_loop_spec (b : bignum_t) (i0 : Nat)
    (hi0 : i0 + (if b.neg then 0 else 1) = 1) :
    ∀ (n i : Nat), i0 ≤ i → i + n = b.digits + i0 →
      stringify_loop b n i = ((b.d.take n).reverse).map to_char := by
  intro n
  induction n with
  | zero => intro i _ _; simp [stringify_loop]
  | succ n ih =>
    intro i hle h
    unfold stringify_loop
    have hn : n < b.d.length := by
      unfold bignum_t.digits at h
      split at hi0 <;> omega
    have e : b.digits - i - (if b.neg then 0 else 1) = n := by
      split at hi0 <;> simp_all <;> omega
    rw [e, ih (i + 1) (by omega) (by omega), List.take_succ, List.getElem?_eq_getElem hn]
    simp only [bignum_t.cell, Option.toList, List.reverse_append, List.reverse_cons,
      List.reverse_nil, List.nil_append, List.singleton_append, List.map_cons]
    rw [List.getD_eq_getElem _ _ hn]

/-- The text of a value: a '-' when the sign flag is set, then the digits, most
significant first. -/
theorem stringify_eq (b : bignum_t) :
    bignum_stringify b = (if b.neg then ['-'] else []) ++ b.d.reverse.map to_char := by
  unfold bignum_stringify
  congr 1
  rw [stringify_loop_spec b (if b.neg then 1 else 0) (by split <;> rfl) b.digits _ (le_refl _) (by omega)]
  unfold bignum_t.digits
  rw [List.take_length]

/-- The decimal digits of core, most significant first, are the reversed
`Nat.digits`. -/
theorem toDigitsCore_eq : ∀ (fuel m : Nat) (ds : List Char), 0 < m → m < fuel →
    Nat.toDigitsCore 10 fuel m ds = (Nat.digits 10 m).reverse.map Nat.digitChar ++ ds := by
  intro fuel
  induction fuel with
  | zero => intro m ds _ h; omega
  | succ f ih =>
    intro m ds hpos hlt
    rw [Nat.toDigitsCore, Nat.digits_def' (by norm_num) hpos]
    by_cases h0 : m / 10 = 0
    · simp [h0]
    · simp only [h0, if_false]
      rw [ih (m / 10) _ (by omega) (by omega)]
      simp

theorem toDigits_eq (m : Nat) (hm : m ≠ 0) :
    Nat.toDigits 10 m = (Nat.digits 10 m).reverse.map Nat.digitChar := by
  unfold Nat.toDigits
  rw [toDigitsCore_eq (m + 1) m [] (by omega) (by omega)]
  simp

/-! ## Reading back a rendered text -/

theorem strlen_eq_length : ∀ (s : List Char), (∀ ch ∈ s, ch.toNat ≠ 0) → strlen s = s.length := by
  intro s
  induction s with
  | nil => intro _; rfl
  | cons ch cs ih =>
    intro h
    unfold strlen
    rw [if_neg (h ch (List.mem_cons_self _ _)), ih (fun x hx => h x (List.mem_cons_of_mem _ hx))]
    rfl

/-- Character `|D| - 1 - k` of the rendered digits is the character of digit
`k`. -/
theorem render_char_at (D : List Int) (pD : proper D) (k : Nat) (hk : k < D.length) :
    char_at (D.reverse.map to_char) (D.length - 1 - k) = D.getD k 0 + 48 := by
  unfold char_at
  have hi : D.length - 1 - k < (D.reverse.map to_char).length := by
    simp only [List.length_map, List.length_reverse]; omega
  rw [List.getD_eq_getElem _ _ hi, List.getElem_map, List.getElem_reverse,
    List.getD_eq_getElem _ _ hk]
  have e : D.length - 1 - (D.length - 1 - k) = k := by omega
  simp only [e]
  exact (to_char_digit _ (pD _ (List.getElem_mem _)).1 (pD _ (List.getElem_mem _)).2).2

theorem render_nonzero (D : List Int) (pD : proper D) :
    ∀ ch ∈ D.reverse.map to_char, ch.toNat ≠ 0 := by
  intro ch hch
  obtain ⟨x, hx, rfl⟩ := List.mem_map.1 hch
  have hx' := pD x (List.mem_reverse.1 hx)
  have := (to_char_digit x hx'.1 hx'.2).2
  omega

theorem range_map_eq (D : List Int) (f : Nat → Int) (h : ∀ k, k < D.length → f k = D.getD k 0) :
    (List.range D.length).map f = D := by
  apply List.ext_getElem
  · simp
  · intro k h1 h2
    rw [List.getElem_map, List.getElem_range, h k h2, List.getD_eq_getElem _ _ h2]

/-- The result of `bignum_create_from_string` in closed form. -/
theorem from_string_value (str : List Char) :
    bignum_create_from_string str =
      if strlen str = 0 then .error .assertion
      else .ok
        { neg := decide (char_at str 0 = 45),
          d := (List.range (strlen str -
              (if decide (char_at str 0 = 45) || decide (char_at str 0 = 43) then 1 else 0))).map
            (fun k => char_at str (strlen str - 1 - k) - 48),
          alloced := strlen str } := by
  unfold bignum_create_from_string
  by_cases h0 : strlen str = 0
  · simp only [h0, if_true]
  · simp only [h0, if_false]
    congr 2
    have hle : (if (decide (char_at str 0 = 45) || decide (char_at str 0 = 43)) = true then 1
        else 0 : Nat) ≤ 1 := by split <;> omega
    generalize (if (decide (char_at str 0 = 45) || decide (char_at str 0 = 43)) = true then 1
      else 0 : Nat) = hs at hle
    obtain ⟨h1, h2⟩ := from_string_loop_spec str (strlen str) (strlen str - hs) hs
      (List.replicate (strlen str - hs) 0) (by omega)
    rw [List.length_replicate] at h1 h2
    apply List.ext_getElem
    · rw [h1, List.length_map, List.length_range]
    · intro k hk1 hk2
      rw [← List.getD_eq_getElem _ 0 hk1, h2 k, if_pos ⟨by omega, by omega⟩, List.getElem_map,
        List.getElem_range]

/-- Reading back the text of a value with at least one digit and digits in
`[0, 9]` gives its sign flag and its digits. -/
theorem from_string_render (neg : Bool) (D : List Int) (pD : proper D) (hD : D ≠ []) :
    bignum_create_from_string ((if neg then ['-'] else []) ++ D.reverse.map to_char) =
      .ok ⟨neg, D, (if neg then 1 else 0) + D.length⟩ := by
  have hpos := List.length_pos.2 hD
  have hnz := render_nonzero D pD
  have hTlen : (D.reverse.map to_char).length = D.length := by simp
  rw [from_string_value]
  cases neg
  · simp only [Bool.false_eq_true, if_false, List.nil_append, Nat.zero_add]
    rw [strlen_eq_length _ hnz, hTlen, if_neg (by omega)]
    have h0 := render_char_at D pD (D.length - 1) (by omega)
    have e0 : D.length - 1 - (D.length - 1) = 0 := by omega
    rw [e0] at h0
    have hr := proper_getD pD (D.length - 1)
    have c45 : ¬ char_at (D.reverse.map to_char) 0 = 45 := by omega
    have c43 : ¬ char_at (D.reverse.map to_char) 0 = 43 := by omega
    simp only [c45, c43, decide_False, Bool.or_self, Bool.false_eq_true, if_false, Nat.sub_zero]
    rw [range_map_eq D _ (fun k hk => by rw [render_char_at D pD k hk]; omega)]
  · simp only [if_true, List.singleton_append]
    have hnz2 : ∀ ch ∈ '-' :: D.reverse.map to_char, ch.toNat ≠ 0 := by
      intro ch hch
      rcases List.mem_cons.1 hch with h | h
      · rw [h]; decide
      · exact hnz ch h
    rw [strlen_eq_length _ hnz2, List.length_cons, hTlen, if_neg (by omega)]
    have c45 : char_at ('-' :: D.reverse.map to_char) 0 = 45 := rfl
    simp only [c45, decide_True, Bool.true_or, if_true, Nat.add_sub_cancel]
    rw [range_map_eq D _ (fun k hk => by
      have e : D.length - k = (D.length - 1 - k) + 1 := by omega
      rw [e]
      have hc : char_at ('-' :: D.reverse.map to_char) (D.length - 1 - k + 1) =
          char_at (D.reverse.map to_char) (D.length - 1 - k) := rfl
      rw [hc, render_char_at D pD k hk]; omega)]
    rw [Nat.add_comm]

/-! ## Invariants of the results -/

theorem val_pos_of_two_digits {a : bignum_t} (ha : well_formed a) (h2 : a.digits ≠ 1) :
    0 < val a.d := by
  obtain ⟨h1, pa, ta, _⟩ := ha
  have hl : 2 ≤ a.d.length := by unfold bignum_t.digits at h1 h2; omega
  have := pow_le_val pa (trimmed_ne_nil ta) (top_ne_zero ta hl)
  have hp : (0 : Int) < 10 ^ (a.d.length - 1) := by positivity
  omega

/-- The product of a well-formed operand and a digit, as `take_n` builds it,
satisfies the invariants. -/
theorem take_n_invariants (c : Nat) (hc : 1 ≤ c) (b : bignum_t) (hb : well_formed b) (k : Int)
    (h0 : 0 ≤ k) :
    ∃ r, take_n c b k = .ok r ∧ invariants r ∧ val r.d = k * val b.d := by
  obtain ⟨r, h1, h2, h3, h4, h5, _⟩ := take_n_spec c b k h0 hb.2.1 (fun _ => hb)
  refine ⟨r, h1, ⟨⟨wf_digits_pos h3, h2, h3, fun hz => ?_⟩, cap_take_n c hc b k r h1⟩, h4⟩
  by_cases hk : k = 0
  · subst hk
    unfold take_n at h1
    rw [if_pos rfl] at h1
    injection h1 with h1
    rw [← h1, create_zero]
  · rw [h4] at hz
    have hvb : val b.d = 0 := by
      rcases mul_eq_zero.1 hz with h | h
      · exact absurd h hk
      · exact h
    exact h5 (hb.2.2.2 hvb)

/-- The product of well-formed operands satisfies the invariants. -/
theorem multiply_invariants (c : Nat) (hc : 1 ≤ c) (a b : bignum_t) (ha : well_formed a)
    (hb : well_formed b) : ∃ r, bignum_multiply c a b = .ok r ∧ invariants r := by
  unfold bignum_multiply
  obtain ⟨f, hf⟩ : ∃ f, multiply_budget a b = f + 1 := ⟨_, rfl⟩
  by_cases hx : a.digits = 1
  · rw [hf, multiply_fuel_base_x c f a b hx]
    obtain ⟨r, h1, h2, _⟩ := take_n_invariants c hc b hb (a.cell 0) (proper_getD ha.2.1 0).1
    exact ⟨r, h1, h2⟩
  · by_cases hy : b.digits = 1
    · rw [hf, multiply_fuel_base_y c f a b hx hy]
      obtain ⟨r, h1, h2, _⟩ := take_n_invariants c hc a ha (b.cell 0) (proper_getD hb.2.1 0).1
      exact ⟨r, h1, h2⟩
    · obtain ⟨r, h1, h2, h3, h4, _⟩ := multiply_fuel_spec c (multiply_budget a b) a b ha.2.1
        hb.2.1 (trimmed_ne_nil ha.2.2.1) (trimmed_ne_nil hb.2.2.1) (fun _ => ha) (fun _ => hb)
        (le_refl _)
      refine ⟨r, h1, ⟨wf_digits_pos h3, h2, h3, fun hz => ?_⟩, cap_multiply c hc _ a b r h1⟩
      exfalso
      rw [h4] at hz
      have p1 := val_pos_of_two_digits ha hx
      have p2 := val_pos_of_two_digits hb hy
      have := mul_pos p1 p2
      omega

/-- Shifting and unshifting a nonzero well-formed value by the same count gives
back its digits. -/
theorem unshift_shift_d (c k : Nat) (v : bignum_t) (hv : well_formed v) (h0 : val v.d ≠ 0) :
    (bignum_unshift c (bignum_shift v k) k).d = v.d := by
  have ht := trimmed_replicate_append hv.2.2.1 h0 k
  have hs : (bignum_shift v k).d = List.replicate k 0 ++ v.d := by
    unfold bignum_shift
    exact trim_of_trimmed ht
  have hl := List.length_pos.2 (trimmed_ne_nil hv.2.2.1)
  have hlen : (bignum_shift v k).digits = k + v.d.length := by
    unfold bignum_t.digits
    rw [hs, List.length_append, List.length_replicate]
  unfold bignum_unshift
  rw [if_neg (by rw [hlen]; omega)]
  simp only
  rw [hs, List.drop_left' (List.length_replicate k 0), trim_of_trimmed hv.2.2.1]

/-! ## The accesses of the division -/

/-- The correction loop returns when it starts from a guess that is not
negative: it stops at guess 0 at the latest. -/
theorem chunk_loop_total (c : Nat) (d n : bignum_t) (hd : d.neg = false) (pd : proper d.d)
    (hn : n.neg = false) (pn : proper n.d) (tn : trimmed n.d) :
    ∀ (f : Nat) (guess : Int), 0 ≤ guess → guess.toNat + 1 ≤ f →
      ∃ r, chunk_loop c d n f guess = .ok r := by
  intro f
  induction f with
  | zero => intro guess _ h; omega
  | succ f ih =>
    intro guess h0 hf
    obtain ⟨mc0, h1, h2, h3, h4, h5, _⟩ := take_n_spec c d guess h0 pd
      (fun hh => by rw [hd] at hh; cases hh)
    rw [chunk_loop_succ c d n f guess mc0 h1]
    by_cases hc : bignum_compare mc0 n > 0
    · rw [if_pos hc]
      rw [compare_spec mc0 n (h5 hd) hn h2 pn h3 tn, sign_pos_iff', h4] at hc
      have hN := val_nonneg pn
      have hg : guess ≠ 0 := by
        intro h; rw [h] at hc; simp at hc; omega
      exact ih (guess - 1) (by omega) (by omega)
    · rw [if_neg hc]
      exact ⟨_, rfl⟩

/-- A round of the digit loop that starts with a remainder of one digit stops at
the read of `n.d[n.digits - 2]`. -/
theorem divide_step_one_digit (c : Nat) (s : divide_state) (h : s.n.digits = 1) :
    divide_step c s = .error .out_of_bounds := by
  unfold divide_step
  rw [if_neg (by omega)]
  simp only [h, Nat.one_lt_ofNat, if_true]

/-- A round of the digit loop that starts with a remainder of at least two
digits and a nonzero divisor returns: the divisor digit `d_sig` is not zero and
`take_n` gets a count that is not negative. -/
theorem divide_step_total (c : Nat) (s : divide_state) (hs : divide_inv s)
    (hD : val s.d.d ≠ 0) (h2 : 2 ≤ s.n.digits) : ∃ s1, divide_step c s = .ok s1 := by
  obtain ⟨⟨nn, pn, tn⟩, ⟨nd, pd, td⟩, _, hds⟩ := hs
  have hsig : s.d_sig ≠ 0 := by
    rw [hds]
    exact top_ne_zero_of_val_ne_zero td hD
  have rsig := proper_getD pd (s.d.d.length - 1)
  have rtop := proper_getD pn (s.n.d.length - 1)
  have rsec := proper_getD pn (s.n.d.length - 2)
  have hds' : s.d_sig = s.d.d.getD (s.d.d.length - 1) 0 := hds
  rw [← hds'] at rsig
  have hT0 : 0 ≤ s.n.cell (s.n.digits - 1) * 10 + s.n.cell (s.n.digits - 2) := by
    unfold bignum_t.cell bignum_t.digits; omega
  have hq0 : 0 ≤ Int.tdiv (s.n.cell (s.n.digits - 1) * 10 + s.n.cell (s.n.digits - 2)) s.d_sig := by
    rw [Int.tdiv_eq_ediv hT0 (by omega)]
    exact Int.ediv_nonneg hT0 (by omega)
  obtain ⟨G, hG⟩ : ∃ G, G = (if Int.tdiv (s.n.cell (s.n.digits - 1) * 10 +
      s.n.cell (s.n.digits - 2)) s.d_sig ≥ 10 then (9 : Int)
    else Int.tdiv (s.n.cell (s.n.digits - 1) * 10 + s.n.cell (s.n.digits - 2)) s.d_sig) := ⟨_, rfl⟩
  have hG0 : 0 ≤ G := by rw [hG]; split <;> omega
  obtain ⟨⟨g, mc⟩, hcl⟩ := chunk_loop_total c s.d s.n nd pd nn pn tn (G.toNat + 2) G hG0 (by omega)
  unfold divide_step
  rw [if_neg (by omega), if_neg (by omega), if_neg hsig]
  simp only [BIGNUM_BASE]
  have e : (if Int.tdiv (s.n.cell (s.n.digits - 1) * 10 + s.n.cell (s.n.digits - 2)) s.d_sig ≥ 10
      then (10 : Int) - 1
      else Int.tdiv (s.n.cell (s.n.digits - 1) * 10 + s.n.cell (s.n.digits - 2)) s.d_sig) = G := by
    rw [hG]; norm_num
  rw [e, hcl]
  exact ⟨_, rfl⟩

/-- The digit loop, started on a divisor `Y * 10 ^ k` with `Y > 0`, either
returns or stops at the read of the second digit of a one-digit remainder. -/
theorem divide_loop_outcome (c : Nat) (Y : Int) (hY : 0 < Y) : ∀ (k : Nat) (s : divide_state),
    divide_inv s → val s.d.d = Y * 10 ^ k → val s.n.d < 10 * val s.d.d →
    (∃ s', divide_loop c (k + 1) s = .ok s') ∨
      divide_loop c (k + 1) s = .error .out_of_bounds := by
  intro k
  induction k with
  | zero =>
    intro s hs hd hN
    by_cases h2 : 2 ≤ s.n.digits
    · obtain ⟨s1, h1⟩ := divide_step_total c s hs (by rw [hd]; simp; omega) h2
      left
      exact ⟨s1, by rw [divide_loop, h1]; rfl⟩
    · right
      have h1 : s.n.digits = 1 := by
        have := wf_digits_pos hs.1.2.2
        unfold bignum_t.digits at h2 ⊢; omega
      rw [divide_loop, divide_step_one_digit c s h1]
  | succ k ih =>
    intro s hs hd hN
    have hp : (0 : Int) < 10 ^ (k + 1) := by positivity
    by_cases h2 : 2 ≤ s.n.digits
    · obtain ⟨s1, h1⟩ := divide_step_total c s hs (by rw [hd]; exact ne_of_gt (mul_pos hY hp)) h2
      obtain ⟨i1, g, _, _, _, _, e4, e5⟩ := divide_step_spec c s s1 hs hN h1
      have hd1 : val s1.d.d = Y * 10 ^ k := by
        rw [e5, hd, pow_succ, ← mul_assoc]
        exact Int.mul_ediv_cancel _ (by norm_num)
      have hd10 : val s.d.d = 10 * val s1.d.d := by rw [hd1, hd, pow_succ]; ring
      have := ih s1 i1 hd1 (by rw [← hd10]; exact e4)
      rw [divide_loop, h1]
      exact this
    · right
      have h1 : s.n.digits = 1 := by
        have := wf_digits_pos hs.1.2.2
        unfold bignum_t.digits at h2 ⊢; omega
      rw [divide_loop, divide_step_one_digit c s h1]

/-- Long division of a well-formed dividend by a well-formed nonzero divisor
either returns or stops at the read of the second digit of a one-digit running
remainder; nothing else goes wrong (no assertion, no zero divisor digit, no
negative count for `take_n`). -/
theorem divide_outcome (c : Nat) (x y : bignum_t) (hx : well_formed x) (hy : well_formed y)
    (hy0 : val y.d ≠ 0) (want : Bool) :
    (∃ r, bignum_divide_with_remainder c x y want = .ok r) ∨
      bignum_divide_with_remainder c x y want = .error .out_of_bounds := by
  obtain ⟨lx, px, tx, zx⟩ := hx
  obtain ⟨ly, py, ty, zy⟩ := hy
  have hYpos : 0 < val y.d := by have := val_nonneg py; omega
  have hXnn := val_nonneg px
  have c1 : ¬(y.digits = 1 ∧ y.cell 0 = 0) := by
    rintro ⟨h1, h2⟩
    obtain ⟨y0, hy0'⟩ := List.length_eq_one.1 h1
    simp only [bignum_t.cell, hy0', List.getD_cons_zero] at h2
    rw [hy0', h2] at hy0
    simp [val] at hy0
  have c2 : ¬(x.digits = 0 ∨ y.digits = 0) := by omega
  have edx : (magnitude (bignum_copy x 0)).d = x.d := rfl
  have edy : (magnitude (bignum_copy y 0)).d = y.d := rfl
  have hcmp := compare_spec (magnitude (bignum_copy x 0)) (magnitude (bignum_copy y 0))
    rfl rfl px py tx ty
  rw [edx, edy] at hcmp
  by_cases k1 : bignum_compare (magnitude (bignum_copy x 0)) (magnitude (bignum_copy y 0)) < 0
  · left
    exact ⟨_, divide_eq_of_lt c x y want c1 c2 k1⟩
  · by_cases k2 : bignum_compare (magnitude (bignum_copy x 0)) (magnitude (bignum_copy y 0)) = 0
    · left
      exact ⟨_, divide_eq_of_eq c x y want c1 c2 k2⟩
    · have hgt : val y.d < val x.d := by
        have k1' := k1
        have k2' := k2
        rw [hcmp, sign_neg_iff'] at k1'
        rw [hcmp, Int.sign_eq_zero_iff_zero] at k2'
        omega
      have hlen : y.d.length ≤ x.d.length := by
        by_contra hc
        have := val_lt_of_length_lt px py ty (trimmed_ne_nil tx) (by omega)
        omega
      obtain ⟨z, hzdef⟩ : ∃ z, z = x.d.length - y.d.length := ⟨_, rfl⟩
      have hz : z = (((x.digits : Int) - (y.digits : Int))).toNat := by
        unfold bignum_t.digits; omega
      obtain ⟨ns, ps, ts, vs⟩ := shift_spec (magnitude (bignum_copy y 0)) z py
        (trimmed_ne_nil ty)
      rw [edy] at vs
      have hcmp1 := compare_spec (bignum_shift (magnitude (bignum_copy y 0)) z)
        (magnitude (bignum_copy x 0)) ns rfl ps px ts tx
      rw [vs, edx] at hcmp1
      have hXlt : val x.d < 10 ^ x.d.length := val_lt_pow px
      have hYge := pow_le_val_of_ne_zero py ty hy0
      have hq0 : (bignum_create c 0).neg = false ∧ proper (bignum_create c 0).d ∧
          trimmed (bignum_create c 0).d := by
        rw [create_zero]
        exact ⟨rfl, proper_singleton (le_refl _) (by norm_num), trimmed_singleton 0⟩
      by_cases sb : bignum_compare (bignum_shift (magnitude (bignum_copy y 0)) z)
          (magnitude (bignum_copy x 0)) > 0
      · rw [divide_eq_of_gt c x y want true c1 c2 k1 k2 z hz (by simp [sb])]
        simp only [if_true]
        rw [hcmp1, sign_pos_iff'] at sb
        have hz1 : 1 ≤ z := by
          by_contra hc
          have : z = 0 := by omega
          rw [this] at sb
          simp at sb
          omega
        obtain ⟨nu, pu, tu, _⟩ :=
          unshift_spec c (bignum_shift (magnitude (bignum_copy y 0)) z) 1 ps
        have vu := unshift_one c (bignum_shift (magnitude (bignum_copy y 0)) z) ps
        rw [vs] at vu
        have e10 : (10 : Int) ^ z = 10 ^ (z - 1) * 10 := by
          rw [← pow_succ]; congr 1; omega
        have vu' : val (bignum_unshift c
            (bignum_shift (magnitude (bignum_copy y 0)) z) 1).d = val y.d * 10 ^ (z - 1) := by
          have e : (10 : Int) ^ z * val y.d = val y.d * 10 ^ (z - 1) * 10 := by rw [e10]; ring
          rw [vu, e]
          exact Int.mul_ediv_cancel _ (by norm_num)
        have hiter : ((x.digits : Int) - (y.digits : Int) - 1 + 1).toNat = (z - 1) + 1 := by
          unfold bignum_t.digits; omega
        rw [hiter]
        rcases divide_loop_outcome c (val y.d) hYpos (z - 1)
          { n := magnitude (bignum_copy x 0),
            d := bignum_unshift c (bignum_shift (magnitude (bignum_copy y 0)) z) 1,
            q := bignum_create c 0,
            d_sig := (bignum_unshift c (bignum_shift (magnitude (bignum_copy y 0)) z) 1).cell
              ((bignum_unshift c (bignum_shift (magnitude (bignum_copy y 0)) z) 1).digits - 1) }
          ⟨⟨rfl, px, tx⟩, ⟨nu, pu, tu⟩, hq0, rfl⟩ vu' (by
            have e : (10 : Int) * (val y.d * 10 ^ (z - 1)) = 10 ^ z * val y.d := by
              rw [e10]; ring
            show val (magnitude (bignum_copy x 0)).d <
              10 * val (bignum_unshift c (bignum_shift (magnitude (bignum_copy y 0)) z) 1).d
            rw [vu', edx, e]; omega) with ⟨s', hs'⟩ | herr
        · left; rw [hs']; exact ⟨_, rfl⟩
        · right; rw [herr]
      · rw [divide_eq_of_gt c x y want false c1 c2 k1 k2 z hz (by simp [sb])]
        simp only [Bool.false_eq_true, if_false]
        rw [hcmp1, sign_pos_iff'] at sb
        have hiter : ((x.digits : Int) - (y.digits : Int) + 1).toNat = z + 1 := by
          unfold bignum_t.digits; omega
        rw [hiter]
        have vs' : val (bignum_shift (magnitude (bignum_copy y 0)) z).d = val y.d * 10 ^ z := by
          rw [vs]; ring
        have hbig : (10 : Int) ^ x.d.length ≤ 10 * (val y.d * 10 ^ z) := by
          have e : x.d.length = (y.d.length - 1) + z + 1 := by
            unfold bignum_t.digits at ly; omega
          have h1 : (10 : Int) ^ (y.d.length - 1) * 10 ^ z ≤ val y.d * 10 ^ z :=
            mul_le_mul_of_nonneg_right hYge (by positivity)
          rw [e, pow_succ, pow_add]
          linarith
        rcases divide_loop_outcome c (val y.d) hYpos z
          { n := magnitude (bignum_copy x 0),
            d := bignum_shift (magnitude (bignum_copy y 0)) z,
            q := bignum_create c 0,
            d_sig := (bignum_shift (magnitude (bignum_copy y 0)) z).cell
              ((bignum_shift (magnitude (bignum_copy y 0)) z).digits - 1) }
          ⟨⟨rfl, px, tx⟩, ⟨ns, ps, ts⟩, hq0, rfl⟩ vs' (by
            show val (magnitude (bignum_copy x 0)).d <
              10 * val (bignum_shift (magnitude (bignum_copy y 0)) z).d
            rw [vs', edx]; linarith) with ⟨s', hs'⟩ | herr
        · left; rw [hs']; exact ⟨_, rfl⟩
        · right; rw [herr]

/-! ## The division as the program runs it -/

/-- With a remainder of two digits or more the unchecked round is the checked
round: no access leaves the buffer. -/
theorem divide_step_unchecked_two (c : Nat) (below : Int) (s : divide_state)
    (h2 : 2 ≤ s.n.digits) : divide_step_unchecked c below s = divide_step c s := by
  unfold divide_step_unchecked divide_step second_digit
  have h1 : ¬ s.n.digits < 1 := by omega
  have h2' : ¬ s.n.digits < 2 := by omega
  simp only [h1, h2', if_false]

/-- The unchecked round in terms of the clamped estimate and the outcome of the
correction loop. -/
theorem divide_step_unchecked_ok (c : Nat) (below : Int) (s : divide_state) (G g : Int)
    (mc : bignum_t) (h1 : 1 ≤ s.n.digits) (hsig : s.d_sig ≠ 0)
    (hG : G = (if Int.tdiv (s.n.cell (s.n.digits - 1) * 10 + second_digit below s.n)
        s.d_sig ≥ 10 then (9 : Int)
      else Int.tdiv (s.n.cell (s.n.digits - 1) * 10 + second_digit below s.n) s.d_sig))
    (hcl : chunk_loop c s.d s.n (G.toNat + 2) G = .ok (g, mc)) :
    divide_step_unchecked c below s =
      .ok { n := bignum_substract s.n mc, d := bignum_unshift c s.d 1,
            q := bignum_add (bignum_shift s.q 1) (bignum_create c g),
            d_sig := (bignum_unshift c s.d 1).cell ((bignum_unshift c s.d 1).digits - 1) } := by
  unfold divide_step_unchecked
  rw [if_neg (by omega), if_neg hsig]
  simp only [BIGNUM_BASE]
  have e : (if Int.tdiv (s.n.cell (s.n.digits - 1) * 10 + second_digit below s.n) s.d_sig ≥ 10
      then (10 : Int) - 1
      else Int.tdiv (s.n.cell (s.n.digits - 1) * 10 + second_digit below s.n) s.d_sig) = G := by
    rw [hG]; norm_num
  rw [e, hcl]

/-- What a round does once the correction loop has settled on the digit `g`
from an estimate `G` that is at most 9 and not below the true digit. -/
theorem divide_round_spec (c : Nat) (s : divide_state) (hs : divide_inv s)
    (f : Nat) (G g : Int) (mc : bignum_t) (hG9 : G ≤ 9)
    (hcl : chunk_loop c s.d s.n f G = .ok (g, mc))
    (hup : g = G → val s.n.d < (G + 1) * val s.d.d) :
    divide_inv { n := bignum_substract s.n mc, d := bignum_unshift c s.d 1,
                 q := bignum_add (bignum_shift s.q 1) (bignum_create c g),
                 d_sig := (bignum_unshift c s.d 1).cell
                   ((bignum_unshift c s.d 1).digits - 1) } ∧
      0 ≤ g ∧
      val (bignum_add (bignum_shift s.q 1) (bignum_create c g)).d = 10 * val s.q.d + g ∧
      val (bignum_substract s.n mc).d = val s.n.d - g * val s.d.d ∧
      0 ≤ val (bignum_substract s.n mc).d ∧
      val (bignum_substract s.n mc).d < val s.d.d ∧
      val (bignum_unshift c s.d 1).d = val s.d.d / 10 := by
  obtain ⟨⟨nn, pn, tn⟩, ⟨nd, pd, td⟩, ⟨nq, pq, tq⟩, hds⟩ := hs
  obtain ⟨g0, g1, nmc, pmc, tmc, vmc, hle, hmax⟩ :=
    chunk_loop_spec c s.d s.n nd pd nn pn tn _ G g mc hcl
  have hupper : val s.n.d < (g + 1) * val s.d.d := by
    by_cases hlt : g < G
    · exact hmax hlt
    · have hgG : g = G := by omega
      rw [hgG]
      exact hup hgG
  have hg9 : g ≤ 9 := by omega
  obtain ⟨nsq, psq, tsq, vsq⟩ := shift_spec s.q 1 pq (trimmed_ne_nil tq)
  have hcg := create_digit c g g0 hg9
  obtain ⟨nq', pq', tq', vq', _⟩ := bignum_add_nonneg (bignum_shift s.q 1) (bignum_create c g)
    nsq (by rw [hcg]) psq (by rw [hcg]; exact proper_singleton g0 hg9)
  obtain ⟨nn', pn', tn', vn'⟩ := bignum_substract_nonneg_ge s.n mc nn nmc pn pmc tn tmc hle
  obtain ⟨nd', pd', td', _⟩ := unshift_spec c s.d 1 pd
  have vd' := unshift_one c s.d pd
  refine ⟨⟨⟨nn', pn', tn'⟩, ⟨nd', pd', td'⟩, ⟨nq', pq', tq'⟩, rfl⟩, g0, ?_, ?_, ?_, ?_, vd'⟩
  · rw [vq', vsq, hcg]
    simp [val]
  · rw [vn', vmc]
  · rw [vn']; omega
  · rw [vn', vmc]
    linarith

/-- A round that starts with a one-digit remainder and reads a cell `below`
that is not negative returns, and does what a round does: the estimate formed
from the stray cell is not below the true digit, and the correction loop brings
it down. -/
theorem divide_step_unchecked_one (c : Nat) (below : Int) (hb : 0 ≤ below) (s : divide_state)
    (hs : divide_inv s) (hD : val s.d.d ≠ 0) (hN : val s.n.d < 10 * val s.d.d)
    (h1 : s.n.digits = 1) :
    ∃ s', divide_step_unchecked c below s = .ok s' ∧ divide_inv s' ∧
      ∃ g, 0 ≤ g ∧ val s'.q.d = 10 * val s.q.d + g ∧
        val s'.n.d = val s.n.d - g * val s.d.d ∧ 0 ≤ val s'.n.d ∧
        val s'.n.d < val s.d.d ∧ val s'.d.d = val s.d.d / 10 := by
  have hs0 := hs
  obtain ⟨⟨nn, pn, tn⟩, ⟨nd, pd, td⟩, _, hds⟩ := hs
  have hsig : s.d_sig ≠ 0 := by
    rw [hds]
    exact top_ne_zero_of_val_ne_zero td hD
  have rsig := proper_getD pd (s.d.d.length - 1)
  have rtop := proper_getD pn (s.n.d.length - 1)
  have hds' : s.d_sig = s.d.d.getD (s.d.d.length - 1) 0 := hds
  rw [← hds'] at rsig
  have hsigpos : 0 < s.d_sig := by omega
  have hsec : second_digit below s.n = below := by
    unfold second_digit
    rw [if_pos (by omega)]
  have hlen : s.n.d.length = 1 := h1
  obtain ⟨t, ht⟩ := List.length_eq_one.1 hlen
  have hval : val s.n.d = t := by rw [ht]; simp [val]
  have htop : s.n.cell (s.n.digits - 1) = t := by
    unfold bignum_t.cell bignum_t.digits
    rw [ht]; rfl
  have ht0 : 0 ≤ t := by
    have := val_nonneg pn
    omega
  have hT0 : 0 ≤ t * 10 + below := by omega
  obtain ⟨G, hG⟩ : ∃ G, G = (if Int.tdiv (s.n.cell (s.n.digits - 1) * 10 +
      second_digit below s.n) s.d_sig ≥ 10 then (9 : Int)
    else Int.tdiv (s.n.cell (s.n.digits - 1) * 10 + second_digit below s.n) s.d_sig) := ⟨_, rfl⟩
  have hG' := hG
  rw [htop, hsec, Int.tdiv_eq_ediv hT0 (by omega)] at hG'
  have hq0 : 0 ≤ (t * 10 + below) / s.d_sig := Int.ediv_nonneg hT0 (by omega)
  have hG0 : 0 ≤ G ∧ G ≤ 9 := by rw [hG']; split <;> omega
  obtain ⟨⟨g, mc⟩, hcl⟩ := chunk_loop_total c s.d s.n nd pd nn pn tn (G.toNat + 2) G hG0.1
    (by omega)
  have hsigle : s.d_sig ≤ val s.d.d := by
    have h := le_val_top pd (trimmed_ne_nil td)
    rw [← hds'] at h
    have hp : (1 : Int) ≤ 10 ^ (s.d.d.length - 1) := one_le_pow₀ (by norm_num)
    nlinarith
  have hup : g = G → val s.n.d < (G + 1) * val s.d.d := by
    intro _
    by_cases hclamp : (t * 10 + below) / s.d_sig ≥ 10
    · rw [if_pos hclamp] at hG'
      rw [hG']
      linarith
    · rw [if_neg hclamp] at hG'
      have hfl := Int.lt_ediv_add_one_mul_self (t * 10 + below) hsigpos
      rw [← hG'] at hfl
      rw [hval]
      have h3 : (G + 1) * s.d_sig ≤ (G + 1) * val s.d.d :=
        mul_le_mul_of_nonneg_left hsigle (by omega)
      omega
  obtain ⟨i1, g0, e1, e2, e3, e4, e5⟩ :=
    divide_round_spec c s hs0 _ G g mc hG0.2 hcl hup
  exact ⟨_, divide_step_unchecked_ok c below s G g mc (by omega) hsig hG hcl, i1, g, g0,
    e1, e2, e3, e4, e5⟩

/-- Every round of the digit loop as the program runs it returns, whatever the
length of the remainder, when the stray cell is not negative. -/
theorem divide_step_unchecked_spec (c : Nat) (below : Int) (hb : 0 ≤ below) (s : divide_state)
    (hs : divide_inv s) (hD : val s.d.d ≠ 0) (hN : val s.n.d < 10 * val s.d.d) :
    ∃ s', divide_step_unchecked c below s = .ok s' ∧ divide_inv s' ∧
      ∃ g, 0 ≤ g ∧ val s'.q.d = 10 * val s.q.d + g ∧
        val s'.n.d = val s.n.d - g * val s.d.d ∧ 0 ≤ val s'.n.d ∧
        val s'.n.d < val s.d.d ∧ val s'.d.d = val s.d.d / 10 := by
  by_cases h2 : 2 ≤ s.n.digits
  · obtain ⟨s1, h1⟩ := divide_step_total c s hs hD h2
    exact ⟨s1, by rw [divide_step_unchecked_two c below s h2, h1],
      divide_step_spec c s s1 hs hN h1⟩
  · have h1 : s.n.digits = 1 := by
      have := wf_digits_pos hs.1.2.2
      unfold bignum_t.digits at h2 ⊢; omega
    exact divide_step_unchecked_one c below hb s hs hD hN h1

/-- The digit loop as the program runs it, started on a divisor `Y * 10 ^ k`
with `Y > 0` and run `k + 1` rounds, returns a quotient and a remainder below
`Y` that recompose what it started from. -/
theorem divide_loop_unchecked_spec (c : Nat) (below : Nat → Int) (hb : ∀ i, 0 ≤ below i)
    (Y : Int) (hY : 0 < Y) : ∀ (k i : Nat) (s : divide_state),
    divide_inv s → val s.d.d = Y * 10 ^ k → val s.n.d < 10 * val s.d.d →
    ∃ s', divide_loop_unchecked c below (k + 1) i s = .ok s' ∧ divide_inv s' ∧
      val s'.q.d * Y + val s'.n.d = val s.q.d * (10 * val s.d.d) + val s.n.d ∧
      0 ≤ val s'.n.d ∧ val s'.n.d < Y := by
  intro k
  induction k with
  | zero =>
    intro i s hs hd hN
    obtain ⟨s1, h1, i1, g, _, e1, e2, e3, e4, _⟩ :=
      divide_step_unchecked_spec c (below i) (hb i) s hs (by rw [hd]; simp; omega) hN
    refine ⟨s1, ?_, i1, ?_, e3, ?_⟩
    · rw [divide_loop_unchecked, h1]
      rfl
    · rw [pow_zero, mul_one] at hd
      rw [e1, e2, hd]; ring
    · rw [pow_zero, mul_one] at hd
      rw [← hd]; exact e4
  | succ k ih =>
    intro i s hs hd hN
    have hp : (0 : Int) < 10 ^ (k + 1) := by positivity
    obtain ⟨s1, h1, i1, g, _, e1, e2, e3, e4, e5⟩ :=
      divide_step_unchecked_spec c (below i) (hb i) s hs
        (by rw [hd]; exact ne_of_gt (mul_pos hY hp)) hN
    have hd1 : val s1.d.d = Y * 10 ^ k := by
      rw [e5, hd, pow_succ, ← mul_assoc]
      exact Int.mul_ediv_cancel _ (by norm_num)
    have hd10 : val s.d.d = 10 * val s1.d.d := by rw [hd1, hd, pow_succ]; ring
    obtain ⟨s', h2, i2, r1, r2, r3⟩ := ih (i + 1) s1 i1 hd1 (by rw [← hd10]; exact e4)
    refine ⟨s', ?_, i2, ?_, r2, r3⟩
    · rw [divide_loop_unchecked, h1]
      exact h2
    · rw [r1, e1, e2, ← hd10]; ring

theorem divide_unchecked_eq_of_lt (c : Nat) (below : Nat → Int) (x y : bignum_t) (want : Bool)
    (h1 : ¬(y.digits = 1 ∧ y.cell 0 = 0)) (h2 : ¬(x.digits = 0 ∨ y.digits = 0))
    (hlt : bignum_compare (magnitude (bignum_copy x 0))
      (magnitude (bignum_copy y 0)) < 0) :
    bignum_divide_with_remainder_unchecked c below x y want =
      .ok (bignum_create c 0,
        if want then some (magnitude (bignum_copy x 0)) else none) := by
  unfold bignum_divide_with_remainder_unchecked
  rw [if_neg h1, if_neg h2]
  simp only [hlt, if_true]

theorem divide_unchecked_eq_of_eq (c : Nat) (below : Nat → Int) (x y : bignum_t) (want : Bool)
    (h1 : ¬(y.digits = 1 ∧ y.cell 0 = 0)) (h2 : ¬(x.digits = 0 ∨ y.digits = 0))
    (heq : bignum_compare (magnitude (bignum_copy x 0))
      (magnitude (bignum_copy y 0)) = 0) :
    bignum_divide_with_remainder_unchecked c below x y want =
      .ok ({ bignum_create c 1 with neg := xor x.neg y.neg },
        if want then some (bignum_create c 0) else none) := by
  unfold bignum_divide_with_remainder_unchecked
  rw [if_neg h1, if_neg h2]
  simp only [heq, lt_self_iff_false, if_true, if_false]

theorem divide_unchecked_eq_of_gt (c : Nat) (below : Nat → Int) (x y : bignum_t) (want : Bool)
    (sb : Bool)
    (h1 : ¬(y.digits = 1 ∧ y.cell 0 = 0)) (h2 : ¬(x.digits = 0 ∨ y.digits = 0))
    (hlt : ¬ bignum_compare (magnitude (bignum_copy x 0))
      (magnitude (bignum_copy y 0)) < 0)
    (hne : ¬ bignum_compare (magnitude (bignum_copy x 0))
      (magnitude (bignum_copy y 0)) = 0)
    (z : Nat) (hz : z = (((x.digits : Int) - (y.digits : Int))).toNat)
    (hsb : decide (bignum_compare
      (bignum_shift (magnitude (bignum_copy y 0)) z)
      (magnitude (bignum_copy x 0)) > 0) = sb) :
    bignum_divide_with_remainder_unchecked c below x y want =
      match divide_loop_unchecked c below
        ((if sb then (x.digits : Int) - (y.digits : Int) - 1
          else (x.digits : Int) - (y.digits : Int)) + 1).toNat 0
        { n := (magnitude (bignum_copy x 0)),
          d := if sb then bignum_unshift c
              (bignum_shift (magnitude (bignum_copy y 0)) z) 1
            else bignum_shift (magnitude (bignum_copy y 0)) z,
          q := bignum_create c 0,
          d_sig := (if sb then bignum_unshift c
              (bignum_shift (magnitude (bignum_copy y 0)) z) 1
            else bignum_shift (magnitude (bignum_copy y 0)) z).cell
            ((if sb then bignum_unshift c
              (bignum_shift (magnitude (bignum_copy y 0)) z) 1
            else bignum_shift (magnitude (bignum_copy y 0)) z).digits - 1) } with
      | .error e => .error e
      | .ok s => .ok ({ s.q with neg := xor x.neg y.neg }, if want then some s.n else none) := by
  unfold bignum_divide_with_remainder_unchecked
  rw [if_neg h1, if_neg h2]
  simp only [hlt, hne, if_false]
  subst hz hsb
  rfl

/-- Long division of well-formed operands as the program runs it, with stray
cells that are not negative: it returns, with or without the remainder pointer,
one quotient and one remainder; they recompose the magnitude of the dividend,
the remainder is not negative and below the magnitude of the divisor. -/
theorem divide_unchecked_spec (c : Nat) (below : Nat → Int) (hb : ∀ i, 0 ≤ below i)
    (x y : bignum_t) (hx : well_formed x) (hy : well_formed y) (hy0 : val y.d ≠ 0) :
    ∃ q r, (∀ want : Bool, bignum_divide_with_remainder_unchecked c below x y want =
        .ok (q, if want then some r else none)) ∧
      proper q.d ∧ trimmed q.d ∧
      q.neg = (xor x.neg y.neg && decide (val y.d ≤ val x.d)) ∧
      r.neg = false ∧ proper r.d ∧ trimmed r.d ∧
      val x.d = val q.d * val y.d + val r.d ∧ val r.d < val y.d := by
  obtain ⟨lx, px, tx, zx⟩ := hx
  obtain ⟨ly, py, ty, zy⟩ := hy
  have hYpos : 0 < val y.d := by have := val_nonneg py; omega
  have hXnn := val_nonneg px
  have c1 : ¬(y.digits = 1 ∧ y.cell 0 = 0) := by
    rintro ⟨h1, h2⟩
    obtain ⟨y0, hy0'⟩ := List.length_eq_one.1 h1
    simp only [bignum_t.cell, hy0', List.getD_cons_zero] at h2
    rw [hy0', h2] at hy0
    simp [val] at hy0
  have c2 : ¬(x.digits = 0 ∨ y.digits = 0) := by omega
  have edx : (magnitude (bignum_copy x 0)).d = x.d := rfl
  have edy : (magnitude (bignum_copy y 0)).d = y.d := rfl
  have hcmp := compare_spec (magnitude (bignum_copy x 0)) (magnitude (bignum_copy y 0))
    rfl rfl px py tx ty
  rw [edx, edy] at hcmp
  by_cases k1 : bignum_compare (magnitude (bignum_copy x 0)) (magnitude (bignum_copy y 0)) < 0
  · refine ⟨_, _, fun want => divide_unchecked_eq_of_lt c below x y want c1 c2 k1, ?_⟩
    rw [hcmp, sign_neg_iff'] at k1
    rw [create_zero]
    refine ⟨proper_singleton (le_refl _) (by norm_num), trimmed_singleton 0, ?_,
      rfl, px, tx, ?_, ?_⟩
    · have : ¬ (val y.d ≤ val x.d) := by omega
      simp [this]
    · rw [edx]; simp [val]
    · rw [edx]; omega
  · by_cases k2 : bignum_compare (magnitude (bignum_copy x 0)) (magnitude (bignum_copy y 0)) = 0
    · refine ⟨_, _, fun want => divide_unchecked_eq_of_eq c below x y want c1 c2 k2, ?_⟩
      rw [hcmp, Int.sign_eq_zero_iff_zero] at k2
      rw [create_digit c 1 (by norm_num) (by norm_num), create_zero]
      refine ⟨proper_singleton (by norm_num) (by norm_num), trimmed_singleton 1, ?_,
        rfl, proper_singleton (le_refl _) (by norm_num), trimmed_singleton 0, ?_, ?_⟩
      · have : val y.d ≤ val x.d := by omega
        simp [this]
      · simp only [val]; omega
      · simp only [val]; omega
    · have hgt : val y.d < val x.d := by
        have k1' := k1
        have k2' := k2
        rw [hcmp, sign_neg_iff'] at k1'
        rw [hcmp, Int.sign_eq_zero_iff_zero] at k2'
        omega
      have hlen : y.d.length ≤ x.d.length := by
        by_contra hc
        have := val_lt_of_length_lt px py ty (trimmed_ne_nil tx) (by omega)
        omega
      obtain ⟨z, hzdef⟩ : ∃ z, z = x.d.length - y.d.length := ⟨_, rfl⟩
      have hz : z = (((x.digits : Int) - (y.digits : Int))).toNat := by
        unfold bignum_t.digits; omega
      obtain ⟨ns, ps, ts, vs⟩ := shift_spec (magnitude (bignum_copy y 0)) z py
        (trimmed_ne_nil ty)
      rw [edy] at vs
      have hcmp1 := compare_spec (bignum_shift (magnitude (bignum_copy y 0)) z)
        (magnitude (bignum_copy x 0)) ns rfl ps px ts tx
      rw [vs, edx] at hcmp1
      have hXlt : val x.d < 10 ^ x.d.length := val_lt_pow px
      have hYge := pow_le_val_of_ne_zero py ty hy0
      have hsign : (xor x.neg y.neg && decide (val y.d ≤ val x.d)) = xor x.neg y.neg := by
        have : val y.d ≤ val x.d := by omega
        simp [this]
      have hq0 : (bignum_create c 0).neg = false ∧ proper (bignum_create c 0).d ∧
          trimmed (bignum_create c 0).d := by
        rw [create_zero]
        exact ⟨rfl, proper_singleton (le_refl _) (by norm_num), trimmed_singleton 0⟩
      have vq0 : val (bignum_create c 0).d = 0 := by rw [create_zero]; simp [val]
      rw [hsign]
      by_cases sb : bignum_compare (bignum_shift (magnitude (bignum_copy y 0)) z)
          (magnitude (bignum_copy x 0)) > 0
      · have hun := fun want => divide_unchecked_eq_of_gt c below x y want true c1 c2 k1 k2 z hz
          (by simp [sb])
        simp only [if_true] at hun
        rw [hcmp1, sign_pos_iff'] at sb
        have hz1 : 1 ≤ z := by
          by_contra hc
          have : z = 0 := by omega
          rw [this] at sb
          simp at sb
          omega
        obtain ⟨nu, pu, tu, _⟩ :=
          unshift_spec c (bignum_shift (magnitude (bignum_copy y 0)) z) 1 ps
        have vu := unshift_one c (bignum_shift (magnitude (bignum_copy y 0)) z) ps
        rw [vs] at vu
        have e10 : (10 : Int) ^ z = 10 ^ (z - 1) * 10 := by
          rw [← pow_succ]; congr 1; omega
        have vu' : val (bignum_unshift c
            (bignum_shift (magnitude (bignum_copy y 0)) z) 1).d = val y.d * 10 ^ (z - 1) := by
          have e : (10 : Int) ^ z * val y.d = val y.d * 10 ^ (z - 1) * 10 := by rw [e10]; ring
          rw [vu, e]
          exact Int.mul_ediv_cancel _ (by norm_num)
        have hiter : ((x.digits : Int) - (y.digits : Int) - 1 + 1).toNat = (z - 1) + 1 := by
          unfold bignum_t.digits; omega
        rw [hiter] at hun
        obtain ⟨s, hloop, inv, r1, r2, r3⟩ := divide_loop_unchecked_spec c below hb (val y.d)
          hYpos (z - 1) 0
          { n := magnitude (bignum_copy x 0),
            d := bignum_unshift c (bignum_shift (magnitude (bignum_copy y 0)) z) 1,
            q := bignum_create c 0,
            d_sig := (bignum_unshift c (bignum_shift (magnitude (bignum_copy y 0)) z) 1).cell
              ((bignum_unshift c (bignum_shift (magnitude (bignum_copy y 0)) z) 1).digits - 1) }
          ⟨⟨rfl, px, tx⟩, ⟨nu, pu, tu⟩, hq0, rfl⟩ vu' (by
            have e : (10 : Int) * (val y.d * 10 ^ (z - 1)) = 10 ^ z * val y.d := by
              rw [e10]; ring
            show val (magnitude (bignum_copy x 0)).d <
              10 * val (bignum_unshift c (bignum_shift (magnitude (bignum_copy y 0)) z) 1).d
            rw [vu', edx, e]; omega)
        have r1' : val s.q.d * val y.d + val s.n.d = val x.d := by
          rw [r1]
          show val (bignum_create c 0).d * _ + val (magnitude (bignum_copy x 0)).d = _
          rw [vq0, edx]; ring
        refine ⟨{ s.q with neg := xor x.neg y.neg }, s.n, ?_, inv.2.2.1.2.1, inv.2.2.1.2.2, rfl,
          inv.1.1, inv.1.2.1, inv.1.2.2, r1'.symm, r3⟩
        intro want
        rw [hun want, hloop]
      · have hun := fun want => divide_unchecked_eq_of_gt c below x y want false c1 c2 k1 k2 z hz
          (by simp [sb])
        simp only [Bool.false_eq_true, if_false] at hun
        rw [hcmp1, sign_pos_iff'] at sb
        have hiter : ((x.digits : Int) - (y.digits : Int) + 1).toNat = z + 1 := by
          unfold bignum_t.digits; omega
        rw [hiter] at hun
        have vs' : val (bignum_shift (magnitude (bignum_copy y 0)) z).d = val y.d * 10 ^ z := by
          rw [vs]; ring
        have hbig : (10 : Int) ^ x.d.length ≤ 10 * (val y.d * 10 ^ z) := by
          have e : x.d.length = (y.d.length - 1) + z + 1 := by
            unfold bignum_t.digits at ly; omega
          have h1 : (10 : Int) ^ (y.d.length - 1) * 10 ^ z ≤ val y.d * 10 ^ z :=
            mul_le_mul_of_nonneg_right hYge (by positivity)
          rw [e, pow_succ, pow_add]
          linarith
        obtain ⟨s, hloop, inv, r1, r2, r3⟩ := divide_loop_unchecked_spec c below hb (val y.d)
          hYpos z 0
          { n := magnitude (bignum_copy x 0),
            d := bignum_shift (magnitude (bignum_copy y 0)) z,
            q := bignum_create c 0,
            d_sig := (bignum_shift (magnitude (bignum_copy y 0)) z).cell
              ((bignum_shift (magnitude (bignum_copy y 0)) z).digits - 1) }
          ⟨⟨rfl, px, tx⟩, ⟨ns, ps, ts⟩, hq0, rfl⟩ vs' (by
            show val (magnitude (bignum_copy x 0)).d <
              10 * val (bignum_shift (magnitude (bignum_copy y 0)) z).d
            rw [vs', edx]; linarith)
        have r1' : val s.q.d * val y.d + val s.n.d = val x.d := by
          rw [r1]
          show val (bignum_create c 0).d * _ + val (magnitude (bignum_copy x 0)).d = _
          rw [vq0, edx]; ring
        refine ⟨{ s.q with neg := xor x.neg y.neg }, s.n, ?_, inv.2.2.1.2.1, inv.2.2.1.2.2, rfl,
          inv.1.1, inv.1.2.1, inv.1.2.2, r1'.symm, r3⟩
        intro want
        rw [hun want, hloop]

/-- A checked round that returns made no access outside the buffer, so the
program does the same whatever the stray cell holds. -/
theorem divide_step_unchecked_of_ok (c : Nat) (below : Int) (s s' : divide_state)
    (h : divide_step c s = .ok s') : divide_step_unchecked c below s = .ok s' := by
  rw [divide_step_unchecked_two c below s (divide_step_inv c s s' h).1, h]

theorem divide_loop_unchecked_of_ok (c : Nat) (below : Nat → Int) :
    ∀ (k i : Nat) (s s' : divide_state), divide_loop c k s = .ok s' →
      divide_loop_unchecked c below k i s = .ok s' := by
  intro k
  induction k with
  | zero =>
    intro i s s' h
    rw [divide_loop] at h
    rw [divide_loop_unchecked]
    exact h
  | succ k ih =>
    intro i s s' h
    obtain ⟨s1, h1, h2⟩ := divide_loop_succ_inv c k s s' h
    rw [divide_loop_unchecked, divide_step_unchecked_of_ok c (below i) s s1 h1]
    exact ih (i + 1) s1 s' h2

/-- Where the checked division returns, no round read outside a buffer, and the
program returns the same quotient and remainder whatever the stray cells
hold. -/
theorem divide_unchecked_of_ok (c : Nat) (below : Nat → Int) (x y : bignum_t) (want : Bool)
    (r : bignum_t × Option bignum_t) (h : bignum_divide_with_remainder c x y want = .ok r) :
    bignum_divide_with_remainder_unchecked c below x y want = .ok r := by
  by_cases c1 : y.digits = 1 ∧ y.cell 0 = 0
  · unfold bignum_divide_with_remainder at h
    rw [if_pos c1] at h
    cases h
  · by_cases c2 : x.digits = 0 ∨ y.digits = 0
    · unfold bignum_divide_with_remainder at h
      rw [if_neg c1, if_pos c2] at h
      cases h
    · by_cases k1 : bignum_compare (magnitude (bignum_copy x 0))
          (magnitude (bignum_copy y 0)) < 0
      · rw [divide_eq_of_lt c x y want c1 c2 k1] at h
        rw [divide_unchecked_eq_of_lt c below x y want c1 c2 k1]
        exact h
      · by_cases k2 : bignum_compare (magnitude (bignum_copy x 0))
            (magnitude (bignum_copy y 0)) = 0
        · rw [divide_eq_of_eq c x y want c1 c2 k2] at h
          rw [divide_unchecked_eq_of_eq c below x y want c1 c2 k2]
          exact h
        · rw [divide_eq_of_gt c x y want _ c1 c2 k1 k2 _ rfl rfl] at h
          rw [divide_unchecked_eq_of_gt c below x y want _ c1 c2 k1 k2 _ rfl rfl]
          split at h
          · cases h
          · rename_i s hloop
            rw [divide_loop_unchecked_of_ok c below _ 0 _ s hloop]
            exact h

/-- The condition on the stray cell cannot be dropped: in 10 / 1 the second round
starts with the remainder 0, the cell -1 gives the estimate -1, and `take_n`
returns its unset `result` for a negative count. -/
theorem divide_unchecked_at_negative_cell :
    bignum_divide_with_remainder_unchecked 16 (fun _ => -1) ⟨false, [0, 1], 2⟩ ⟨false, [1], 1⟩
      true = .error .uninitialised := by
  decide!

/-! ## The claims -/

/-- Subtraction of two negative well-formed operands returns the sum of the
magnitudes: the branch `bignum_substract (bignum_negate b, a)` passes `a` with
its sign still set, and the next call adds. -/
theorem substract_both_negative (a b : bignum_t) (ha : well_formed a) (hb : well_formed b)
    (na : a.neg = true) (nb : b.neg = true) :
    (bignum_substract a b).neg = false ∧
      val (bignum_substract a b).d = val a.d + val b.d := by
  have e : bignum_substract a b = bignum_add_fuel 1 (bignum_negate b) (bignum_negate a) := by
    unfold bignum_substract
    rw [bignum_substract_fuel, bignum_substract_fuel.eq_def 2]
    simp [na, nb, bignum_negate]
  obtain ⟨h1, _, _, h4, _⟩ := add_nonneg 0 (bignum_negate b) (bignum_negate a)
    (by simp [bignum_negate, nb]) (by simp [bignum_negate, na]) hb.2.1 ha.2.1
  rw [e]
  refine ⟨h1, ?_⟩
  rw [h4]
  simp only [bignum_negate]
  ring

/-- C1, at the failing input a = -3, b = -5 (both well formed): a - b is 2, and
`bignum_substract` returns 8, the sum of the magnitudes, with the sign flag
clear. -/
theorem substract_at_minus3_minus5 :
    well_formed ⟨true, [3], 1⟩ ∧ well_formed ⟨true, [5], 1⟩ ∧
      toInt ⟨true, [3], 1⟩ - toInt ⟨true, [5], 1⟩ = 2 ∧
      bignum_substract ⟨true, [3], 1⟩ ⟨true, [5], 1⟩ = ⟨false, [8], 2⟩ ∧
      toInt (bignum_substract ⟨true, [3], 1⟩ ⟨true, [5], 1⟩) = 8 := by
  decide

/-- C2, at the failing inputs: -3 * 5 comes back as 15 with the sign flag clear
although exactly one operand is negative, and -3 * -5 comes back as -15
although both are: with a one-digit operand `take_n` adds up the other operand
and the sign of the one-digit operand is never looked at. -/
theorem multiply_sign_at_one_digit :
    bignum_multiply 16 ⟨true, [3], 1⟩ ⟨false, [5], 1⟩ = .ok ⟨false, [5, 1], 3⟩ ∧
      xor true false = true ∧
      bignum_multiply 16 ⟨true, [3], 1⟩ ⟨true, [5], 1⟩ = .ok ⟨true, [5, 1], 3⟩ ∧
      xor true true = false := by
  decide!

/-- C3: for well-formed operands `bignum_multiply` returns a value whose
magnitude is the product of the magnitudes, with digits in `[0, 9]` and no
redundant high-order zero; its digits are those of every trimmed digit list of
the product, so of any reference multiplication. -/
theorem multiply_magnitude_is_product (c : Nat) (a b : bignum_t) (ha : well_formed a)
    (hb : well_formed b) :
    ∃ r, bignum_multiply c a b = .ok r ∧ val r.d = val a.d * val b.d ∧ proper r.d ∧
      trimmed r.d ∧
      ∀ ref : List Int, proper ref → trimmed ref → val ref = val a.d * val b.d → r.d = ref := by
  obtain ⟨r, h1, h2, h3, h4, _⟩ := multiply_fuel_spec c (multiply_budget a b) a b ha.2.1 hb.2.1
    (trimmed_ne_nil ha.2.2.1) (trimmed_ne_nil hb.2.2.1) (fun _ => ha) (fun _ => hb) (le_refl _)
  exact ⟨r, h1, h4, h2, h3, fun ref p t v => val_injective h2 p h3 t (by rw [h4, v])⟩

/-- C3, witness: 123456789 * 987654321 = 121932631112635269. -/
theorem multiply_magnitude_is_product_witness :
    well_formed ⟨false, [9, 8, 7, 6, 5, 4, 3, 2, 1], 9⟩ ∧
      well_formed ⟨false, [1, 2, 3, 4, 5, 6, 7, 8, 9], 9⟩ ∧
      ∃ r, bignum_multiply 16 ⟨false, [9, 8, 7, 6, 5, 4, 3, 2, 1], 9⟩
          ⟨false, [1, 2, 3, 4, 5, 6, 7, 8, 9], 9⟩ = .ok r ∧
        r.d = [9, 6, 2, 5, 3, 6, 2, 1, 1, 1, 3, 6, 2, 3, 9, 1, 2, 1] := by
  refine ⟨by decide, by decide, ?_⟩
  obtain ⟨r, h1, _, _, _, h5⟩ := multiply_magnitude_is_product 16
    ⟨false, [9, 8, 7, 6, 5, 4, 3, 2, 1], 9⟩ ⟨false, [1, 2, 3, 4, 5, 6, 7, 8, 9], 9⟩
    (by decide) (by decide)
  exact ⟨r, h1, h5 _ (by decide) (by decide) (by decide)⟩

/-- C4: for well-formed operands of any signs `bignum_add` stands for the sum.
With equal signs the result carries the common sign and the digits of the
carry sum of the magnitudes; with different signs it is the subtraction of the
magnitude of the negative operand from the other operand. -/
theorem add_represents_sum (a b : bignum_t) (ha : well_formed a) (hb : well_formed b) :
    toInt (bignum_add a b) = toInt a + toInt b ∧
      (a.neg = b.neg → (bignum_add a b).neg = a.neg ∧
        (bignum_add a b).d = (bignum_add (magnitude a) (magnitude b)).d ∧
        val (bignum_add a b).d = val a.d + val b.d) ∧
      (a.neg = true → b.neg = false → bignum_add a b = bignum_substract b (magnitude a)) ∧
      (a.neg = false → b.neg = true → bignum_add a b = bignum_substract a (magnitude b)) := by
  refine ⟨(add_correct 0 a b ha hb).1, ?_, ?_, ?_⟩
  · intro hs
    cases hna : a.neg
    · have hnb : b.neg = false := by rw [← hs, hna]
      obtain ⟨h1, _, _, h4, _⟩ := bignum_add_nonneg a b hna hnb ha.2.1 hb.2.1
      rw [magnitude_of_nonneg hna, magnitude_of_nonneg hnb]
      exact ⟨h1, rfl, h4⟩
    · have hnb : b.neg = true := by rw [← hs, hna]
      obtain ⟨h1, h2⟩ := add_both_neg 2 a b hna hnb ha.2.1 hb.2.1
      obtain ⟨_, _, _, h4, _⟩ := bignum_add_nonneg (magnitude a) (magnitude b) rfl rfl
        ha.2.1 hb.2.1
      refine ⟨h1, h2, ?_⟩
      unfold bignum_add at h4 ⊢
      rw [h2, h4]
      rfl
  · intro hna hnb
    unfold bignum_add bignum_substract
    rw [← negate_of_neg hna, sub_fuel_stable_nonneg 1 b _ hnb (by simp [bignum_negate, hna]),
      bignum_add_fuel]
    simp [hna, hnb]
  · intro hna hnb
    unfold bignum_add bignum_substract
    rw [← negate_of_neg hnb, sub_fuel_stable_nonneg 1 a _ hna (by simp [bignum_negate, hnb]),
      bignum_add_fuel]
    simp [hna, hnb]

/-- C4, witness: -30 + 5 = -25. -/
theorem add_represents_sum_witness :
    well_formed ⟨true, [0, 3], 2⟩ ∧ well_formed ⟨false, [5], 1⟩ ∧
      toInt (bignum_add ⟨true, [0, 3], 2⟩ ⟨false, [5], 1⟩) =
        toInt ⟨true, [0, 3], 2⟩ + toInt ⟨false, [5], 1⟩ :=
  ⟨by decide, by decide,
    (add_represents_sum ⟨true, [0, 3], 2⟩ ⟨false, [5], 1⟩ (by decide) (by decide)).1⟩

/-- C6, counterexample: -1234 divided by 12 returns the quotient -102 and the
remainder 10, and `add (multiply (q, y), r)` is -1214, not -1234: the
remainder is that of the magnitudes and is never negative.  No round of this
division reads outside a buffer. -/
theorem division_identity_fails_at_minus1234_by_12 :
    well_formed ⟨true, [4, 3, 2, 1], 4⟩ ∧ well_formed ⟨false, [2, 1], 2⟩ ∧
      bignum_divide_with_remainder 16 ⟨true, [4, 3, 2, 1], 4⟩ ⟨false, [2, 1], 2⟩ true =
        .ok (⟨true, [2, 0, 1], 4⟩, some ⟨false, [0, 1], 3⟩) ∧
      bignum_divide_with_remainder_unchecked 16 (fun _ => 0) ⟨true, [4, 3, 2, 1], 4⟩
        ⟨false, [2, 1], 2⟩ true = .ok (⟨true, [2, 0, 1], 4⟩, some ⟨false, [0, 1], 3⟩) ∧
      bignum_multiply 16 ⟨true, [2, 0, 1], 4⟩ ⟨false, [2, 1], 2⟩ =
        .ok ⟨true, [4, 2, 2, 1], 5⟩ ∧
      bignum_add ⟨true, [4, 2, 2, 1], 5⟩ ⟨false, [0, 1], 3⟩ = ⟨true, [4, 1, 2, 1], 5⟩ ∧
      toInt ⟨true, [4, 1, 2, 1], 5⟩ ≠ toInt ⟨true, [4, 3, 2, 1], 4⟩ :=
  ⟨by decide, by decide, by decide!,
    divide_unchecked_of_ok 16 (fun _ => 0) _ _ true _ (by decide!), by decide!, by decide!,
    by decide⟩

/-- C6, amended: for every well-formed `x` and every well-formed nonzero `y` the
division, as the program runs it with stray cells `below i` that are not
negative, returns a quotient `q` and a remainder `r`; the remainder is not
negative and below `|y|`, `|x| = |q| * |y| + r`, and `add (multiply (|q|, |y|), r)`
is `|x|`: it has the digits of `x` and a clear sign flag.  When neither `x` nor
`y` is negative, `add (multiply (q, y), r)` has the digits and the sign flag of
`x`. -/
theorem division_identity_magnitudes (c : Nat) (below : Nat → Int) (hb : ∀ i, 0 ≤ below i)
    (x y : bignum_t) (hx : well_formed x) (hy : well_formed y) (hy0 : val y.d ≠ 0) :
    ∃ q r, bignum_divide_with_remainder_unchecked c below x y true = .ok (q, some r) ∧
      r.neg = false ∧ 0 ≤ val r.d ∧ val r.d < val y.d ∧
      val x.d = val q.d * val y.d + val r.d ∧
      (∃ p, bignum_multiply c (magnitude q) (magnitude y) = .ok p ∧
        (bignum_add p r).d = x.d ∧ (bignum_add p r).neg = false) ∧
      (x.neg = false → y.neg = false →
        ∃ p, bignum_multiply c q y = .ok p ∧ (bignum_add p r).d = x.d ∧
          (bignum_add p r).neg = x.neg) := by
  obtain ⟨q, r, hrun, pq, tq, nq, nr, pr, tr, hv, hlt⟩ :=
    divide_unchecked_spec c below hb x y hx hy hy0
  obtain ⟨p, h1, h2, h3, h4, h5⟩ := multiply_fuel_spec c _ (magnitude q) (magnitude y) pq hy.2.1
    (trimmed_ne_nil tq) (trimmed_ne_nil hy.2.2.1) (fun hh => by cases hh) (fun hh => by cases hh)
    (le_refl _)
  obtain ⟨a1, a2, a3, a4, _⟩ := bignum_add_nonneg p r (h5 rfl rfl) nr h2 pr
  have hd : (bignum_add p r).d = x.d := by
    apply val_injective a2 hx.2.1 a3 hx.2.2.1
    rw [a4, h4, hv]
    rfl
  refine ⟨q, r, hrun true, nr, val_nonneg pr, hlt, hv, ⟨p, h1, hd, a1⟩, ?_⟩
  intro hxn hyn
  have hqn : q.neg = false := by rw [nq, hxn, hyn]; rfl
  refine ⟨p, ?_, hd, by rw [a1, hxn]⟩
  rw [← magnitude_of_nonneg hqn, ← magnitude_of_nonneg hyn]
  exact h1

/-- C6, witness: -1234 divided by 12, and 100 divided by 5, where the second
round starts with the one-digit remainder 0. -/
theorem division_identity_magnitudes_witness :
    well_formed ⟨true, [4, 3, 2, 1], 4⟩ ∧ well_formed ⟨false, [2, 1], 2⟩ ∧
      (∃ q r, bignum_divide_with_remainder_unchecked 16 (fun _ => 0) ⟨true, [4, 3, 2, 1], 4⟩
          ⟨false, [2, 1], 2⟩ true = .ok (q, some r) ∧
        ∃ p, bignum_multiply 16 (magnitude q) (magnitude ⟨false, [2, 1], 2⟩) = .ok p ∧
          (bignum_add p r).d = [4, 3, 2, 1] ∧ (bignum_add p r).neg = false) ∧
      (∃ q r, bignum_divide_with_remainder_unchecked 16 (fun _ => 0) ⟨false, [0, 0, 1], 3⟩
          ⟨false, [5], 1⟩ true = .ok (q, some r) ∧
        ∃ p, bignum_multiply 16 q ⟨false, [5], 1⟩ = .ok p ∧
          (bignum_add p r).d = [0, 0, 1] ∧ (bignum_add p r).neg = false) := by
  obtain ⟨q, r, h1, _, _, _, _, h6, _⟩ := division_identity_magnitudes 16 (fun _ => 0)
    (fun _ => le_refl 0) ⟨true, [4, 3, 2, 1], 4⟩ ⟨false, [2, 1], 2⟩ (by decide) (by decide)
    (by decide)
  obtain ⟨q', r', g1, _, _, _, _, _, g7⟩ := division_identity_magnitudes 16 (fun _ => 0)
    (fun _ => le_refl 0) ⟨false, [0, 0, 1], 3⟩ ⟨false, [5], 1⟩ (by decide) (by decide)
    (by decide)
  exact ⟨by decide, by decide, ⟨q, r, h1, h6⟩, ⟨q', r', g1, g7 rfl rfl⟩⟩

/-- C7: with the divisor zero (the single digit 0, whatever its sign flag and
capacity) `bignum_divide_with_remainder` and `bignum_divide` stop at the entry
assertion for every dividend: no quotient and no remainder come back. -/
theorem divide_by_zero_asserts (c : Nat) (x : bignum_t) (want : Bool) (neg : Bool)
    (alloced : Nat) :
    bignum_divide_with_remainder c x ⟨neg, [0], alloced⟩ want = .error .assertion ∧
      bignum_divide c x ⟨neg, [0], alloced⟩ = .error .assertion := by
  have h : ∀ w, bignum_divide_with_remainder c x ⟨neg, [0], alloced⟩ w = .error .assertion := by
    intro w
    unfold bignum_divide_with_remainder
    rw [if_pos ⟨rfl, rfl⟩]
  refine ⟨h want, ?_⟩
  unfold bignum_divide
  rw [h false]
  rfl

/-- C8, counterexample: "abc" is accepted and gives the digit codes 51, 50, 49;
"-" is accepted and gives a negative value without digits. -/
theorem from_string_accepts_abc :
    bignum_create_from_string ['a', 'b', 'c'] = .ok ⟨false, [51, 50, 49], 3⟩ ∧
      bignum_create_from_string ['-'] = .ok ⟨true, [], 1⟩ := by
  decide

/-- C8, amended: on text of 7-bit characters `bignum_create_from_string` fails
only on the empty string, by the assertion of `bignum_reserve`.  On every other
such string it returns a value: the sign flag says whether the first character
is '-', one leading '+' or '-' is skipped, and cell `k` holds the code of the
character `len - 1 - k` minus the code of '0', whether or not that character is
a decimal digit. -/
theorem from_string_total (str : List Char) (hs : ascii str) :
    bignum_create_from_string str =
      if strlen str = 0 then .error .assertion
      else .ok
        { neg := decide (char_at str 0 = 45),
          d := (List.range (strlen str -
              (if decide (char_at str 0 = 45) || decide (char_at str 0 = 43) then 1 else 0))).map
            (fun k => char_at str (strlen str - 1 - k) - 48),
          alloced := strlen str } := by
  have _ := hs
  unfold bignum_create_from_string
  by_cases h0 : strlen str = 0
  · simp only [h0, if_true]
  · simp only [h0, if_false]
    congr 2
    have hle : (if (decide (char_at str 0 = 45) || decide (char_at str 0 = 43)) = true then 1
        else 0 : Nat) ≤ 1 := by split <;> omega
    generalize (if (decide (char_at str 0 = 45) || decide (char_at str 0 = 43)) = true then 1
      else 0 : Nat) = hs at hle
    obtain ⟨h1, h2⟩ := from_string_loop_spec str (strlen str) (strlen str - hs) hs
      (List.replicate (strlen str - hs) 0) (by omega)
    rw [List.length_replicate] at h1 h2
    apply List.ext_getElem
    · rw [h1, List.length_map, List.length_range]
    · intro k hk1 hk2
      rw [← List.getD_eq_getElem _ 0 hk1, h2 k, if_pos ⟨by omega, by omega⟩, List.getElem_map,
        List.getElem_range]

/-- C8, witness: "-12" gives the digits 2, 1 with the sign flag set, and "12a"
gives the digit codes 49, 2, 1. -/
theorem from_string_total_witness :
    ascii ['-', '1', '2'] ∧
      bignum_create_from_string ['-', '1', '2'] = .ok ⟨true, [2, 1], 3⟩ ∧
      ascii ['1', '2', 'a'] ∧
      bignum_create_from_string ['1', '2', 'a'] = .ok ⟨false, [49, 2, 1], 3⟩ :=
  ⟨by decide, by rw [from_string_total _ (by decide)]; decide, by decide,
    by rw [from_string_total _ (by decide)]; decide⟩

/-- C9, at the failing input: for a = -3 and b = -5, both negative and of equal
length, `bignum_compare` returns -1 although a > b: the digit scan compares
magnitudes and never looks at the sign flags. -/
theorem compare_at_minus3_minus5 :
    well_formed ⟨true, [3], 1⟩ ∧ well_formed ⟨true, [5], 1⟩ ∧
      bignum_compare ⟨true, [3], 1⟩ ⟨true, [5], 1⟩ = -1 ∧
      toInt ⟨true, [3], 1⟩ > toInt ⟨true, [5], 1⟩ := by
  decide

/-- C10, counterexample: `bignum_compare (5, -10)` is 1 while the comparison of
the magnitudes 5 and 10 is -1. -/
theorem compare_consults_sign_at_5_minus10 :
    well_formed ⟨false, [5], 1⟩ ∧ well_formed ⟨true, [0, 1], 2⟩ ∧
      bignum_compare ⟨false, [5], 1⟩ ⟨true, [0, 1], 2⟩ = 1 ∧
      bignum_compare (magnitude ⟨false, [5], 1⟩) (magnitude ⟨true, [0, 1], 2⟩) = -1 := by
  decide

/-- C10, amended: on well-formed operands the comparison of the magnitudes is
the ordering of the magnitudes.  `bignum_compare (a, b)` agrees with it when the
lengths are equal (the digit scan ignores the signs) and when the longer
operand is not negative; when the lengths differ and the longer operand is
negative it is the opposite. -/
theorem compare_sign_use (a b : bignum_t) (ha : well_formed a) (hb : well_formed b) :
    bignum_compare (magnitude a) (magnitude b) = Int.sign (val a.d - val b.d) ∧
      (a.digits = b.digits →
        bignum_compare a b = bignum_compare (magnitude a) (magnitude b)) ∧
      (a.digits < b.digits → bignum_compare a b =
        (if b.neg then -1 else 1) * bignum_compare (magnitude a) (magnitude b)) ∧
      (a.digits > b.digits → bignum_compare a b =
        (if a.neg then -1 else 1) * bignum_compare (magnitude a) (magnitude b)) := by
  have hm := compare_spec (magnitude a) (magnitude b) rfl rfl ha.2.1 hb.2.1 ha.2.2.1 hb.2.2.1
  have eda : (magnitude a).d = a.d := rfl
  have edb : (magnitude b).d = b.d := rfl
  rw [eda, edb] at hm
  refine ⟨hm, ?_, ?_, ?_⟩
  · intro h
    rw [compare_same_length a b ha.2.1 hb.2.1 h, hm]
  · intro h
    have hv := val_lt_of_length_lt ha.2.1 hb.2.1 hb.2.2.1 (trimmed_ne_nil ha.2.2.1) h
    rw [hm, Int.sign_eq_neg_one_iff_neg.2 (by omega)]
    unfold bignum_compare
    rw [if_pos h]
    cases b.neg <;> simp [flag]
  · intro h
    have hv := val_lt_of_length_lt hb.2.1 ha.2.1 ha.2.2.1 (trimmed_ne_nil hb.2.2.1) h
    rw [hm, Int.sign_eq_one_iff_pos.2 (by omega)]
    unfold bignum_compare
    rw [if_neg (by omega), if_pos h]
    cases a.neg <;> simp [flag]

/-- C10, witness: 5 against -10. -/
theorem compare_sign_use_witness :
    well_formed ⟨false, [5], 1⟩ ∧ well_formed ⟨true, [0, 1], 2⟩ ∧
      bignum_compare (magnitude ⟨false, [5], 1⟩) (magnitude ⟨true, [0, 1], 2⟩) =
        Int.sign (val [5] - val [0, 1]) :=
  ⟨by decide, by decide,
    (compare_sign_use ⟨false, [5], 1⟩ ⟨true, [0, 1], 2⟩ (by decide) (by decide)).1⟩

/-- C11: for every `int` n other than the minimum, the text of
`bignum_create (n)` is the canonical decimal text of n: a '-' exactly when n is
negative, then the decimal digits of |n| as `Nat.toDigits 10` gives them (most
significant first, no leading zero, "0" for zero); it is the text `toString n`.
The value has at most ten digits, so a `BIT_CHUNK_SIZE` of ten or more holds
every digit `bignum_set` writes. -/
theorem stringify_create_canonical (c : Nat) (n : Int) (hlo : -2147483648 < n)
    (hhi : n ≤ 2147483647) :
    bignum_stringify (bignum_create c n) =
        (if n < 0 then ['-'] else []) ++ Nat.toDigits 10 n.natAbs ∧
      String.mk (bignum_stringify (bignum_create c n)) = toString n ∧
      (bignum_create c n).digits ≤ 10 ∧
      (10 ≤ c → (bignum_create c n).digits ≤ (bignum_create c n).alloced) := by
  have hmin : n ≠ -2147483648 := by omega
  obtain ⟨h1, h2, h3⟩ := create_spec c n hmin
  obtain ⟨hwf, hv⟩ := create_wf c n hmin
  have htext : bignum_stringify (bignum_create c n) =
      (if n < 0 then ['-'] else []) ++ Nat.toDigits 10 n.natAbs := by
    rw [stringify_eq, h1]
    congr 1
    · by_cases hneg : n < 0 <;> simp [hneg]
    · by_cases h0 : n = 0
      · subst h0
        rw [create_zero]
        rfl
      · rw [h2, if_neg h0, toDigits_eq _ (by omega), ← List.map_reverse, List.map_map]
        apply List.map_congr_left
        intro k hk
        have hk' := Nat.digits_lt_base (by norm_num : 1 < 10) (List.mem_reverse.1 hk)
        simp only [Function.comp]
        rw [(to_char_digit (k : Int) (by omega) (by omega)).1]
        simp
  have hten : (bignum_create c n).digits ≤ 10 := by
    unfold bignum_t.digits
    apply trimmed_length_le hwf.2.1 hwf.2.2.1 (by norm_num)
    have hd : toInt (bignum_create c n) = n := hv
    unfold toInt at hd
    split at hd <;> omega
  refine ⟨htext, ?_, hten, fun hc => by rw [h3]; omega⟩
  · rw [htext]
    cases n with
    | ofNat m =>
      have : ¬ (Int.ofNat m < 0) := Int.not_lt.2 (Int.ofNat_zero_le m)
      simp only [this, if_false, List.nil_append]
      rfl
    | negSucc m =>
      have : Int.negSucc m < 0 := Int.negSucc_lt_zero m
      simp only [this, if_true]
      rfl

/-- C11, witness: -7 gives "-7". -/
theorem stringify_create_canonical_witness :
    bignum_stringify (bignum_create 16 (-7)) = ['-', '7'] ∧
      String.mk (bignum_stringify (bignum_create 16 (-7))) = "-7" := by
  have h := stringify_create_canonical 16 (-7) (by norm_num) (by norm_num)
  exact ⟨by rw [h.1]; decide, by rw [h.2.1]; decide⟩

/-- C12: for every `int` n other than the minimum, reading back the text of
`bignum_create (n)` gives a value with the sign flag, the length and the digits
of `bignum_create (n)`. -/
theorem from_string_stringify_create (c : Nat) (n : Int) (hlo : -2147483648 < n)
    (hhi : n ≤ 2147483647) :
    ∃ b, bignum_create_from_string (bignum_stringify (bignum_create c n)) = .ok b ∧
      b.neg = (bignum_create c n).neg ∧ b.digits = (bignum_create c n).digits ∧
      b.d = (bignum_create c n).d := by
  have _ := hhi
  obtain ⟨hwf, _⟩ := create_wf c n (by omega)
  rw [stringify_eq]
  exact ⟨_, from_string_render _ _ hwf.2.1 (trimmed_ne_nil hwf.2.2.1), rfl, rfl, rfl⟩

/-- C12, witness: -1205 goes to "-1205" and back, and 0 goes to "0" and back. -/
theorem from_string_stringify_create_witness :
    (∃ b, bignum_create_from_string (bignum_stringify (bignum_create 16 (-1205))) = .ok b ∧
      b.neg = true ∧ b.d = [5, 0, 2, 1]) ∧
    (∃ b, bignum_create_from_string (bignum_stringify (bignum_create 16 0)) = .ok b ∧
      b.neg = false ∧ b.d = [0]) := by
  obtain ⟨b1, h1, h2, _, h4⟩ := from_string_stringify_create 16 (-1205) (by norm_num)
    (by norm_num)
  obtain ⟨b2, g1, g2, _, g4⟩ := from_string_stringify_create 16 0 (by norm_num) (by norm_num)
  exact ⟨⟨b1, h1, by rw [h2]; decide, by rw [h4]; decide⟩,
    ⟨b2, g1, by rw [g2]; decide, by rw [g4]; decide⟩⟩

/-- C13, at the failing input: -3 * 5 comes back as 15 and 5 * -3 as -15; the
digits agree and the sign flags do not.  With two one-digit operands the
result carries the sign of the second operand only. -/
theorem multiply_order_at_minus3_5 :
    well_formed ⟨true, [3], 1⟩ ∧ well_formed ⟨false, [5], 1⟩ ∧
      bignum_multiply 16 ⟨true, [3], 1⟩ ⟨false, [5], 1⟩ = .ok ⟨false, [5, 1], 3⟩ ∧
      bignum_multiply 16 ⟨false, [5], 1⟩ ⟨true, [3], 1⟩ = .ok ⟨true, [5, 1], 3⟩ :=
  ⟨by decide, by decide, by decide!, by decide!⟩

/-- C14, at the failing input: -3 * 1 comes back as 3 with the sign flag clear;
-30 * 1, with a two-digit operand, comes back as -30. -/
theorem multiply_by_one_at_minus3 :
    well_formed ⟨true, [3], 1⟩ ∧
      bignum_multiply 16 ⟨true, [3], 1⟩ (bignum_create 16 1) = .ok ⟨false, [3], 2⟩ ∧
      bignum_multiply 16 ⟨true, [0, 3], 2⟩ (bignum_create 16 1) = .ok ⟨true, [0, 3], 3⟩ :=
  ⟨by decide, by decide!, by decide!⟩

/-- C15: addition is commutative on well-formed operands of any signs: the two
results have the same sign flag and the same digits. -/
theorem add_commutative (a b : bignum_t) (ha : well_formed a) (hb : well_formed b) :
    (bignum_add a b).neg = (bignum_add b a).neg ∧ (bignum_add a b).d = (bignum_add b a).d := by
  have h1 : toInt (bignum_add a b) = toInt a + toInt b := (add_correct 0 a b ha hb).1
  have w1 : well_formed (bignum_add a b) := (add_correct 0 a b ha hb).2
  have h2 : toInt (bignum_add b a) = toInt b + toInt a := (add_correct 0 b a hb ha).1
  have w2 : well_formed (bignum_add b a) := (add_correct 0 b a hb ha).2
  exact wf_eq_of_toInt_eq w1 w2 (by rw [h1, h2]; ring)

/-- C15, witness: -30 + 5 and 5 + -30. -/
theorem add_commutative_witness :
    well_formed ⟨true, [0, 3], 2⟩ ∧ well_formed ⟨false, [5], 1⟩ ∧
      (bignum_add ⟨true, [0, 3], 2⟩ ⟨false, [5], 1⟩).d =
        (bignum_add ⟨false, [5], 1⟩ ⟨true, [0, 3], 2⟩).d :=
  ⟨by decide, by decide,
    (add_commutative ⟨true, [0, 3], 2⟩ ⟨false, [5], 1⟩ (by decide) (by decide)).2⟩

/-- C16, counterexample: shifting -5 by one digit and unshifting it again gives
5: the digits come back, the sign flag does not. -/
theorem unshift_shift_at_minus5 :
    well_formed ⟨true, [5], 1⟩ ∧
      bignum_unshift 16 (bignum_shift ⟨true, [5], 1⟩ 1) 1 = ⟨false, [5], 1⟩ ∧
      (bignum_shift ⟨true, [5], 1⟩ 1).neg = false := by
  decide

/-- C16, amended: for every count k and every well-formed nonzero v,
`bignum_unshift (bignum_shift (v, k), k)` has the digits of v and a clear sign
flag; so it has the sign flag of v exactly when v is not negative. -/
theorem unshift_shift_digits (c k : Nat) (v : bignum_t) (hv : well_formed v)
    (h0 : val v.d ≠ 0) :
    (bignum_unshift c (bignum_shift v k) k).d = v.d ∧
      (bignum_unshift c (bignum_shift v k) k).neg = false ∧
      ((bignum_unshift c (bignum_shift v k) k).neg = v.neg ↔ v.neg = false) := by
  have hn : (bignum_unshift c (bignum_shift v k) k).neg = false :=
    (unshift_spec c (bignum_shift v k) k
      (shift_spec v k hv.2.1 (trimmed_ne_nil hv.2.2.1)).2.1).1
  refine ⟨unshift_shift_d c k v hv h0, hn, ?_⟩
  rw [hn]
  exact ⟨fun h => h.symm, fun h => h.symm⟩

/-- C16, witness: 120 shifted by three digits and back. -/
theorem unshift_shift_digits_witness :
    well_formed ⟨false, [0, 2, 1], 3⟩ ∧
      (bignum_unshift 16 (bignum_shift ⟨false, [0, 2, 1], 3⟩ 3) 3).d = [0, 2, 1] :=
  ⟨by decide, (unshift_shift_digits 16 3 ⟨false, [0, 2, 1], 3⟩ (by decide) (by decide)).1⟩

/-- C17: for well-formed operands, and a `BIT_CHUNK_SIZE` of at least one (which
`bignum_reserve` asserts), `bignum_add`, `bignum_substract` and
`bignum_multiply` each return a value with at least one digit, a length within
the capacity, digits in `[0, 9]`, no redundant high-order zero, and a clear sign
flag when the value is zero. -/
theorem operations_keep_invariants (c : Nat) (hc : 1 ≤ c) (a b : bignum_t)
    (ha : well_formed a) (hb : well_formed b) :
    invariants (bignum_add a b) ∧ invariants (bignum_substract a b) ∧
      ∃ r, bignum_multiply c a b = .ok r ∧ invariants r :=
  ⟨⟨(add_correct 0 a b ha hb).2, cap_add 0 a b⟩, ⟨sub_wf a b ha hb, cap_sub 0 a b⟩,
    multiply_invariants c hc a b ha hb⟩

/-- C17, witness: the operands -30 and 5. -/
theorem operations_keep_invariants_witness :
    well_formed ⟨true, [0, 3], 2⟩ ∧ well_formed ⟨false, [5], 1⟩ ∧
      invariants (bignum_add ⟨true, [0, 3], 2⟩ ⟨false, [5], 1⟩) ∧
      invariants (bignum_substract ⟨true, [0, 3], 2⟩ ⟨false, [5], 1⟩) ∧
      ∃ r, bignum_multiply 16 ⟨true, [0, 3], 2⟩ ⟨false, [5], 1⟩ = .ok r ∧ invariants r := by
  have h := operations_keep_invariants 16 (by norm_num) ⟨true, [0, 3], 2⟩ ⟨false, [5], 1⟩
    (by decide) (by decide)
  exact ⟨by decide, by decide, h.1, h.2.1, h.2.2⟩

/-- C18, at the failing inputs: "007" gives the digits 7, 0, 0 with two redundant
high-order zeros, and "-0" gives the digit 0 with the sign flag set; neither
value is well formed.  The digits themselves are in `[0, 9]`.  The value read
from "007" then compares as greater than 8, which `bignum_compare` decides on
the lengths. -/
theorem from_string_at_007 :
    bignum_create_from_string ['0', '0', '7'] = .ok ⟨false, [7, 0, 0], 3⟩ ∧
      ¬ trimmed [7, 0, 0] ∧ ¬ well_formed ⟨false, [7, 0, 0], 3⟩ ∧
      bignum_create_from_string ['-', '0'] = .ok ⟨true, [0], 2⟩ ∧
      ¬ well_formed ⟨true, [0], 2⟩ ∧ proper [7, 0, 0] ∧
      bignum_compare ⟨false, [7, 0, 0], 3⟩ ⟨false, [8], 1⟩ = 1 := by
  decide

/-- C19, at the failing inputs: in 7 / 2 the first round of the digit loop
starts with the one-digit remainder 7 and stops at the read of
`n.d[n.digits - 2]`, index -1; in 100 / 5 the first round leaves the one-digit
remainder 0 and the second round stops at the same read. -/
theorem divide_second_digit_read_at_7_by_2 :
    divide_step 16 ⟨⟨false, [7], 1⟩, ⟨false, [2], 1⟩, bignum_create 16 0, 2⟩ =
        .error .out_of_bounds ∧
      divide_step 16 ⟨⟨false, [0, 0, 1], 3⟩, ⟨false, [0, 5], 2⟩, bignum_create 16 0, 5⟩ =
        .ok ⟨⟨false, [0], 4⟩, ⟨false, [5], 1⟩, ⟨false, [2], 2⟩, 5⟩ ∧
      divide_step 16 ⟨⟨false, [0], 4⟩, ⟨false, [5], 1⟩, ⟨false, [2], 2⟩, 5⟩ =
        .error .out_of_bounds ∧
      bignum_divide 16 ⟨false, [0, 0, 1], 3⟩ ⟨false, [5], 1⟩ = .error .out_of_bounds :=
  ⟨by decide!, by decide!, by decide!, by decide!⟩

/-- C20: the Karatsuba recursion ends on all operands with at least one digit
and digits in `[0, 9]`, trimmed or zero padded, whatever their sign flags: with
the budget `multiply_budget`, and with every larger budget, `bignum_multiply`
returns the same value; the budget is never used up. -/
theorem multiply_terminates (c : Nat) (x y : bignum_t) (px : proper x.d) (py : proper y.d)
    (hxn : x.d ≠ []) (hyn : y.d ≠ []) :
    ∃ r, bignum_multiply c x y = .ok r ∧
      ∀ f, multiply_budget x y ≤ f → bignum_multiply_fuel c f x y = .ok r := by
  obtain ⟨r, h⟩ := multiply_total c x y px py hxn hyn
  exact ⟨r, h, fun f hf => multiply_fuel_mono c _ f x y r hf h⟩

/-- C20, witness: 999 * 999, where the sum of the halves 99 + 9 = 108 has as
many digits as the operands, and the zero-padded 007 * 090. -/
theorem multiply_terminates_witness :
    (bignum_add ⟨false, [9, 9], 2⟩ ⟨false, [9], 1⟩).d = [8, 0, 1] ∧
      (∃ r, bignum_multiply 16 ⟨false, [9, 9, 9], 3⟩ ⟨false, [9, 9, 9], 3⟩ = .ok r ∧
        ∀ f, multiply_budget ⟨false, [9, 9, 9], 3⟩ ⟨false, [9, 9, 9], 3⟩ ≤ f →
          bignum_multiply_fuel 16 f ⟨false, [9, 9, 9], 3⟩ ⟨false, [9, 9, 9], 3⟩ = .ok r) ∧
      (∃ r, bignum_multiply 16 ⟨false, [7, 0, 0], 3⟩ ⟨false, [0, 9, 0], 3⟩ = .ok r ∧
        ∀ f, multiply_budget ⟨false, [7, 0, 0], 3⟩ ⟨false, [0, 9, 0], 3⟩ ≤ f →
          bignum_multiply_fuel 16 f ⟨false, [7, 0, 0], 3⟩ ⟨false, [0, 9, 0], 3⟩ = .ok r) :=
  ⟨by decide,
    multiply_terminates 16 ⟨false, [9, 9, 9], 3⟩ ⟨false, [9, 9, 9], 3⟩ (by decide) (by decide)
      (by decide) (by decide),
    multiply_terminates 16 ⟨false, [7, 0, 0], 3⟩ ⟨false, [0, 9, 0], 3⟩ (by decide) (by decide)
      (by decide) (by decide)⟩

end Bn
